import Mathlib

/-!
# Address translation of the memory-management simulator (`src/mmu.c`)

A shallow embedding of the translation pipeline of `mmu.c`: the TLB, the page
table, the frame pool with FIFO replacement, the backing-store read path and
`translateAddress`, together with the parameter loop of `main` and the rates of
`generateStatistics`, followed by the properties proved about them.

Conventions of the embedding.

* The global variables of `mmu.c` are the fields of one record, `MMUState`; a C
  function that mutates globals takes the record and returns the new one.
* A C `int` is a Lean `Int`.  The only arithmetic on the counters is `++`, and
  every shift operates on values below `2 ^ 17`, so no operation of a run
  shorter than `2 ^ 30` translations leaves the 32-bit range; signed overflow
  (undefined behaviour in C) is outside the model.
* The flag fields `valid` only ever hold `0` or `1` and are only tested for
  truth; they are `Bool`.
* Arrays are lists.  `arrGet`/`arrModify` return `none` for an index outside
  the array, and so does every function that would `exit` (short read of the
  backing store) or touch memory outside an array: `none` stands for "the
  process does not return normally".
* The backing store is the byte sequence of the file `backingstore.bin`.
* `int f(int page, int *frame)` returning a found-flag and an out-parameter is
  an `Option Int`: `some f` for "returns 1 and stores f", `none` for
  "returns 0 and stores nothing".
* A logical address (`unsigned short`) is a natural number below `65536`.
* In the parameter loop of `main` the two inputs are arbitrary, so the value of
  each `int` operation is reduced to 32-bit two's complement (`wrap32`).
* A `double` quotient of two `int`s is the exact rational quotient, or the
  IEEE 754 result of a division by zero (`DoubleQuotient`); rounding and the
  text written to `stat.txt` are not modelled.

Layout: the definitions (the embedding, then the predicates used in the proofs),
the lemmas (array access, the invariant `Inv` and its preservation by each
operation, the case analysis `translateAddress_cases`, runs), and last the
theorems for the claims of the specification, each with an instance at a
concrete input.
-/

namespace MMU

/-! ## Data model (`mmu.h`) -/

/-- The constant `TLB_SIZE` of `mmu.h`. -/
def TLB_SIZE : Nat := 16

/-- The struct `TLBEntry` of `mmu.h`. -/
structure TLBEntry where
  page_number : Int
  frame_number : Int
  valid : Bool
  time : Int
deriving DecidableEq

/-- The struct `PageTableEntry` of `mmu.h`. -/
structure PageTableEntry where
  frame_number : Int
  valid : Bool
deriving DecidableEq

/-- The struct `Frame` of `mmu.h`; `data` is the frame's byte buffer. -/
structure Frame where
  data : List UInt8
  page_number : Int
  time : Int
deriving DecidableEq

/-- The global variables of `mmu.c`. -/
structure MMUState where
  tlb : List TLBEntry
  page_table : List PageTableEntry
  physical_memory : List Frame
  backing_store : List UInt8
  page_bits : Int
  frame_bits : Int
  offset_bits : Int
  page_table_size : Int
  frame_size : Int
  total_frames : Int
  tlb_hits : Int
  page_faults : Int
  total_addresses : Int
  next_frame : Int
  tlb_counter : Int
  page_counter : Int
deriving DecidableEq

/-! ## Array access -/

/-- Read of `a[i]` for a C `int` index: `none` outside the array. -/
def arrGet {α : Type} (l : List α) (i : Int) : Option α :=
  if 0 ≤ i then l[i.toNat]? else none

/-- Assignment to (fields of) `a[i]` for a C `int` index: the element becomes
`f` of its old value; `none` outside the array. -/
def arrModify {α : Type} (l : List α) (i : Int) (f : α → α) : Option (List α) :=
  (arrGet l i).map (fun a => l.set i.toNat (f a))

/-- Assignment to (fields of) `a[i]` for a loop index `i` that is inside the
array. -/
def modifyNth {α : Type} (l : List α) (i : Nat) (f : α → α) : List α :=
  match l[i]? with
  | some a => l.set i (f a)
  | none => l

/-- The scan `for (i = i0; i < n; i++) if (a[i].time < oldest_time)
{ oldest_time = a[i].time; oldest_index = i; }` over the remaining times
`a[i0].time, a[i0+1].time, ...`; the result is the final `oldest_index`. -/
def scanOldest : List Int → Nat → Int → Nat → Nat
  | [], _, _, oldest_index => oldest_index
  | t :: ts, i, oldest_time, oldest_index =>
    if t < oldest_time then scanOldest ts (i + 1) t i
    else scanOldest ts (i + 1) oldest_time oldest_index

/-- The whole search for the oldest entry: `oldest_time = a[0].time`,
`oldest_index = 0`, then the scan from index 1.  The argument is the list of
the `time` fields of a non-empty array. -/
def oldestIndex : List Int → Nat
  | [] => 0
  | t0 :: ts => scanOldest ts 1 t0 0

/-! ## Operations (`mmu.c`) -/

/-- The function `initializeSystem`.  The contents of the file opened as the
backing store is the first argument.  Allocation and `fopen` are taken to
succeed; the freshly allocated frame buffers (uninitialised in C) hold zeros. -/
def initializeSystem (backing : List UInt8) (frame_bits_input total_frames_input : Int) :
    MMUState :=
  let frame_bits := frame_bits_input
  let offset_bits := frame_bits
  let page_bits := 16 - offset_bits
  let frame_size : Int := 1 <<< frame_bits
  let page_table_size : Int := 1 <<< page_bits
  let total_frames := total_frames_input
  { tlb := List.replicate TLB_SIZE
      { valid := false, page_number := -1, frame_number := -1, time := -1 }
    page_table := List.replicate page_table_size.toNat { valid := false, frame_number := -1 }
    physical_memory := List.replicate total_frames.toNat
      { data := List.replicate frame_size.toNat 0, page_number := -1, time := -1 }
    backing_store := backing
    page_bits := page_bits
    frame_bits := frame_bits
    offset_bits := offset_bits
    page_table_size := page_table_size
    frame_size := frame_size
    total_frames := total_frames
    tlb_hits := 0
    page_faults := 0
    total_addresses := 0
    next_frame := 0
    tlb_counter := 0
    page_counter := 0 }

/-- The function `checkTLB`: the frame of the first valid entry holding
`page_number`, if there is one. -/
def checkTLB (s : MMUState) (page_number : Int) : Option Int :=
  (s.tlb.find? (fun e => e.valid && e.page_number == page_number)).map (fun e => e.frame_number)

/-- The function `updateTLB`: refresh the entry of the page, else fill the first
invalid entry, else overwrite the entry with the smallest `time`. -/
def updateTLB (s : MMUState) (page_number frame_number : Int) : MMUState :=
  match s.tlb.findIdx? (fun e => e.valid && e.page_number == page_number) with
  | some i =>
    { s with
      tlb := modifyNth s.tlb i
        (fun e => { e with frame_number := frame_number, time := s.tlb_counter })
      tlb_counter := s.tlb_counter + 1 }
  | none =>
    match s.tlb.findIdx? (fun e => !e.valid) with
    | some i =>
      { s with
        tlb := modifyNth s.tlb i (fun _ =>
          { valid := true, page_number := page_number, frame_number := frame_number,
            time := s.tlb_counter })
        tlb_counter := s.tlb_counter + 1 }
    | none =>
      let oldest_index := oldestIndex (s.tlb.map (fun e => e.time))
      { s with
        tlb := modifyNth s.tlb oldest_index (fun e =>
          { e with page_number := page_number, frame_number := frame_number,
                   time := s.tlb_counter })
        tlb_counter := s.tlb_counter + 1 }

/-- The function `checkPageTable`.  The outer `Option` is `none` when
`page_number` is outside the page table. -/
def checkPageTable (s : MMUState) (page_number : Int) : Option (Option Int) :=
  (arrGet s.page_table page_number).map
    (fun e => if e.valid then some e.frame_number else none)

/-- The function `updatePageTable`. -/
def updatePageTable (s : MMUState) (page_number frame_number : Int) : Option MMUState :=
  (arrModify s.page_table page_number
    (fun _ => { valid := true, frame_number := frame_number })).map
    (fun pt => { s with page_table := pt })

/-- The function `readFromBackingStore`: the `frame_size` bytes at offset
`page_number * frame_size`; `none` (the C code exits) when the seek fails or
fewer bytes are read. -/
def readFromBackingStore (s : MMUState) (page_number : Int) : Option (List UInt8) :=
  let pos := page_number * s.frame_size
  if pos < 0 then none
  else
    let buffer := (s.backing_store.drop pos.toNat).take s.frame_size.toNat
    if buffer.length = s.frame_size.toNat then some buffer else none

/-- The function `replacePage`: the frame with the smallest `time` is reloaded
with the page, its former page is invalidated in the page table, and the TLB
entry of the former page, if any, is overwritten in place. -/
def replacePage (s : MMUState) (page_number : Int) : Option (MMUState × Int) :=
  match s.physical_memory with
  | [] => none
  | _ :: _ =>
    let oldest_index := oldestIndex (s.physical_memory.map (fun f => f.time))
    (arrGet s.physical_memory oldest_index).bind fun victim =>
    let replaced_page := victim.page_number
    (readFromBackingStore s page_number).bind fun buffer =>
    let s1 := { s with
      physical_memory := s.physical_memory.set oldest_index
        { data := buffer, page_number := page_number, time := s.page_counter }
      page_counter := s.page_counter + 1 }
    (arrModify s1.page_table replaced_page (fun e => { e with valid := false })).bind fun pt =>
    let s2 := { s1 with page_table := pt }
    (updatePageTable s2 page_number oldest_index).bind fun s3 =>
    let s4 :=
      match s3.tlb.findIdx? (fun e => e.valid && e.page_number == replaced_page) with
      | some i =>
        { s3 with
          tlb := modifyNth s3.tlb i (fun _ =>
            { valid := true, page_number := page_number, frame_number := oldest_index,
              time := s3.tlb_counter })
          tlb_counter := s3.tlb_counter + 1 }
      | none => s3
    some (s4, (oldest_index : Int))

/-- The function `loadPage`: the next free frame when there is one, else
`replacePage`. -/
def loadPage (s : MMUState) (page_number : Int) : Option (MMUState × Int) :=
  if s.next_frame < s.total_frames then
    let frame_number := s.next_frame
    let s1 := { s with next_frame := s.next_frame + 1 }
    (readFromBackingStore s1 page_number).bind fun buffer =>
    (arrModify s1.physical_memory frame_number (fun _ =>
      { data := buffer, page_number := page_number, time := s1.page_counter })).bind fun pm =>
    let s2 := { s1 with physical_memory := pm, page_counter := s1.page_counter + 1 }
    (updatePageTable s2 page_number frame_number).bind fun s3 =>
    some (s3, frame_number)
  else
    replacePage s page_number

/-- The page number `translateAddress` computes for a logical address. -/
def pageOf (s : MMUState) (logical_address : Nat) : Int :=
  Int.land ((logical_address : Int) >>> s.offset_bits) ((1 <<< s.page_bits) - 1)

/-- The offset `translateAddress` computes for a logical address. -/
def offsetOf (s : MMUState) (logical_address : Nat) : Int :=
  Int.land (logical_address : Int) ((1 <<< s.offset_bits) - 1)

/-- The byte `physical_memory[frame_number].data[offset]`. -/
def readByte (s : MMUState) (frame_number offset : Int) : Option UInt8 :=
  (arrGet s.physical_memory frame_number).bind fun fr => arrGet fr.data offset

/-- The function `translateAddress` for an `unsigned short` logical address
(a natural number below `65536`).  The result is the new state, the value
stored through `physical_address`, and the returned byte. -/
def translateAddress (s : MMUState) (logical_address : Nat) :
    Option (MMUState × Int × UInt8) :=
  let page_number := pageOf s logical_address
  let offset := offsetOf s logical_address
  let s0 := { s with total_addresses := s.total_addresses + 1 }
  match checkTLB s0 page_number with
  | some frame_number =>
    let s1 := { s0 with tlb_hits := s0.tlb_hits + 1 }
    let physical_address := Int.lor (frame_number <<< s1.offset_bits) offset
    (readByte s1 frame_number offset).bind fun data =>
    some (s1, physical_address, data)
  | none =>
    (checkPageTable s0 page_number).bind fun hit =>
    match hit with
    | some frame_number =>
      let physical_address := Int.lor (frame_number <<< s0.offset_bits) offset
      (readByte s0 frame_number offset).bind fun data =>
      some (updateTLB s0 page_number frame_number, physical_address, data)
    | none =>
      let s1 := { s0 with page_faults := s0.page_faults + 1 }
      (loadPage s1 page_number).bind fun r =>
      let s2 := r.1
      let frame_number := r.2
      let physical_address := Int.lor (frame_number <<< s2.offset_bits) offset
      (readByte s2 frame_number offset).bind fun data =>
      some (updateTLB s2 page_number frame_number, physical_address, data)

/-- The loop of `main` over the address file: every address is translated in
order; `none` as soon as one translation does not return. -/
def run (s : MMUState) : List Nat → Option MMUState
  | [] => some s
  | a :: rest => (translateAddress s a).bind fun r => run r.1 rest

/-! ## The invariant of the reachable states -/

/-- The configuration part of the invariant: the sizes are the powers of two
`initializeSystem` computes from a frame size of `ob ≤ 16` bits. -/
def Cfg (s : MMUState) : Prop :=
  ∃ ob : Nat, ob ≤ 16 ∧ s.offset_bits = (ob : Int) ∧ s.page_bits = ((16 - ob : Nat) : Int) ∧
    s.frame_size = ((2 ^ ob : Nat) : Int) ∧ s.page_table_size = ((2 ^ (16 - ob) : Nat) : Int)

/-- The invariant kept by `translateAddress`.  It does not mention the three
statistics counters. -/
structure Inv (s : MMUState) : Prop where
  cfg : Cfg s
  tf_pos : 1 ≤ s.total_frames
  store : 65536 ≤ s.backing_store.length
  tlb_len : s.tlb.length = TLB_SIZE
  pt_len : (s.page_table.length : Int) = s.page_table_size
  pm_len : (s.physical_memory.length : Int) = s.total_frames
  pc_nonneg : 0 ≤ s.page_counter
  nf_eq : s.next_frame = min s.page_counter s.total_frames
  frame_loaded : ∀ (f : Nat) (fr : Frame), s.physical_memory[f]? = some fr →
    (f : Int) < s.next_frame →
      0 ≤ fr.page_number ∧
      s.page_table[fr.page_number.toNat]? = some { frame_number := (f : Int), valid := true } ∧
      readFromBackingStore s fr.page_number = some fr.data ∧
      0 ≤ fr.time ∧ fr.time % s.total_frames = (f : Int) ∧
      s.page_counter - s.total_frames ≤ fr.time ∧ fr.time < s.page_counter
  frame_free : ∀ (f : Nat) (fr : Frame), s.physical_memory[f]? = some fr →
    s.next_frame ≤ (f : Int) → fr.page_number = -1 ∧ fr.time = -1
  pt_valid : ∀ (p : Nat) (e : PageTableEntry), s.page_table[p]? = some e → e.valid = true →
      0 ≤ e.frame_number ∧ e.frame_number < s.next_frame ∧
      ∃ fr, s.physical_memory[e.frame_number.toNat]? = some fr ∧ fr.page_number = (p : Int)
  tlb_coh : ∀ (i : Nat) (e : TLBEntry), s.tlb[i]? = some e → e.valid = true →
      0 ≤ e.page_number ∧
      s.page_table[e.page_number.toNat]? =
        some { frame_number := e.frame_number, valid := true } ∧
      e.time < s.tlb_counter
  tlb_inj : ∀ (i j : Nat) (ei ej : TLBEntry), s.tlb[i]? = some ei → s.tlb[j]? = some ej →
      ei.valid = true → ej.valid = true → ei.page_number = ej.page_number → i = j
  tlb_time_inj : ∀ (i j : Nat) (ei ej : TLBEntry), s.tlb[i]? = some ei → s.tlb[j]? = some ej →
      ei.valid = true → ej.valid = true → ei.time = ej.time → i = j

/-! ## The states after a page fault -/

/-- The state after the free-frame branch of `loadPage` for page `p`. -/
def afterLoad (s : MMUState) (p : Nat) : MMUState :=
  { s with
    next_frame := s.next_frame + 1
    physical_memory := s.physical_memory.set s.next_frame.toNat
      { data := (s.backing_store.drop (p * s.frame_size.toNat)).take s.frame_size.toNat
        page_number := (p : Int)
        time := s.page_counter }
    page_counter := s.page_counter + 1
    page_table := s.page_table.set p { frame_number := s.next_frame, valid := true } }

/-- The TLB and `tlb_counter` after the last loop of `replacePage`: the first
valid entry that holds the replaced page `q`, if any, is overwritten with the
new page `p` and the victim frame `v`. -/
def victimTLB (s : MMUState) (p v q : Nat) : List TLBEntry × Int :=
  match s.tlb.findIdx? (fun e => e.valid && e.page_number == (q : Int)) with
  | some i =>
    (s.tlb.set i
      { valid := true, page_number := (p : Int), frame_number := (v : Int),
        time := s.tlb_counter },
     s.tlb_counter + 1)
  | none => (s.tlb, s.tlb_counter)

/-- The state after `replacePage` loads page `p` into the victim frame `v`,
whose former page is `q`. -/
def afterReplace (s : MMUState) (p v q : Nat) : MMUState :=
  { s with
    physical_memory := s.physical_memory.set v
      { data := (s.backing_store.drop (p * s.frame_size.toNat)).take s.frame_size.toNat
        page_number := (p : Int)
        time := s.page_counter }
    page_counter := s.page_counter + 1
    page_table := (s.page_table.set q { frame_number := (v : Int), valid := false }).set p
      { frame_number := (v : Int), valid := true }
    tlb := (victimTLB s p v q).1
    tlb_counter := (victimTLB s p v q).2 }

/-- The fields `loadPage` never changes. -/
def SameCfg (s t : MMUState) : Prop :=
  t.backing_store = s.backing_store ∧ t.page_bits = s.page_bits ∧
  t.frame_bits = s.frame_bits ∧ t.offset_bits = s.offset_bits ∧
  t.page_table_size = s.page_table_size ∧ t.frame_size = s.frame_size ∧
  t.total_frames = s.total_frames ∧ t.tlb_hits = s.tlb_hits ∧
  t.page_faults = s.page_faults ∧ t.total_addresses = s.total_addresses

/-! ## Reachable states -/

/-- The states the simulator reaches from `initializeSystem` by translating a
finite sequence of 16-bit logical addresses. -/
def Reachable (B : List UInt8) (fb tf : Int) (s : MMUState) : Prop :=
  ∃ addrs : List Nat, (∀ a ∈ addrs, a < 65536) ∧ run (initializeSystem B fb tf) addrs = some s

/-! ## A concrete store and run, used to instantiate the theorems -/

/-- The bytes `i, i+1, ...` (modulo 256), `n` of them. -/
def storeFrom : Nat → Nat → List UInt8
  | 0, _ => []
  | n + 1, i => UInt8.ofNat i :: storeFrom n (i + 1)

/-- A backing store of 65536 bytes whose byte at offset `i` is `i mod 256`. -/
def exampleStore : List UInt8 := storeFrom 65536 0

/-- The state after translating `0, 256, 512` with 256-byte frames and two
frames: pages 0 and 1 fill the frames, page 2 replaces page 0. -/
def exampleState : MMUState :=
  (run (initializeSystem exampleStore 8 2) [0, 256, 512]).getD
    (initializeSystem exampleStore 8 2)

/-! ## Predicates on the TLB -/

/-- Any two distinct valid TLB slots hold different page numbers. -/
def TLBDistinct (tlb : List TLBEntry) : Prop :=
  ∀ (i j : Nat) (ei ej : TLBEntry), tlb[i]? = some ei → tlb[j]? = some ej →
    ei.valid = true → ej.valid = true → ei.page_number = ej.page_number → i = j

/-- A sequence of `updateTLB` calls, one per (page, frame) pair. -/
def updates (s : MMUState) (ps : List (Int × Int)) : MMUState :=
  ps.foldl (fun t pf => updateTLB t pf.1 pf.2) s

/-- The TLB holds the pairs `es` in its first slots, in order, with times
`0, 1, ...`, and its other slots are as `initializeSystem` left them. -/
def Filled (es : List (Int × Int)) (s : MMUState) : Prop :=
  s.tlb.length = 16 ∧ s.tlb_counter = (es.length : Int) ∧
  (∀ (i : Nat) (p f : Int), es[i]? = some (p, f) →
    s.tlb[i]? = some { page_number := p, frame_number := f, valid := true, time := (i : Int) }) ∧
  (∀ (i : Nat), es.length ≤ i → i < 16 →
    s.tlb[i]? = some { page_number := -1, frame_number := -1, valid := false, time := -1 })

/-- What holds after translating, from the state `s0`, addresses whose pages
are `P`, in order and pairwise distinct. -/
structure Trk (s0 : MMUState) (P : List Int) (s : MMUState) : Prop where
  inv : Inv s
  ob : s.offset_bits = s0.offset_bits
  pb : s.page_bits = s0.page_bits
  tf : s.total_frames = s0.total_frames
  nodup : P.Nodup
  nonneg : ∀ p ∈ P, (0 : Int) ≤ p
  pt_sub : ∀ (p : Nat) (e : PageTableEntry), s.page_table[p]? = some e → e.valid = true →
    (p : Int) ∈ P
  pc : s.page_counter = (P.length : Int)
  first_time : ∀ (p1 f : Int), P[0]? = some p1 →
    s.page_table[p1.toNat]? = some { frame_number := f, valid := true } →
    ∃ fr, s.physical_memory[f.toNat]? = some fr ∧ fr.time = 0
  pt_all : (P.length : Int) ≤ s.total_frames → ∀ p ∈ P, 0 ≤ p ∧
    ∃ f, s.page_table[p.toNat]? = some { frame_number := f, valid := true }
  fill : (P.length : Int) ≤ s.total_frames → P.length ≤ 16 →
    ∃ es : List (Int × Int), es.map Prod.fst = P ∧ Filled es s

/-! ## The parameter loop of `main` and the statistics -/

/-- The constant `LOGICAL_ADDRESS_SPACE_SIZE` of `mmu.h`, `(1 << 16)`. -/
def LOGICAL_ADDRESS_SPACE_SIZE : Int := 1 <<< 16

/-- The value of a C `int` expression computed in 32-bit two's complement. -/
def wrap32 (x : Int) : Int := (x + 2147483648) % 4294967296 - 2147483648

/-- The value `total_memory_size` computed by one round of the `do`-loop of
`main` from the two numbers read. -/
def totalMemorySize (frame_bits_input total_frames_input : Int) : Int :=
  wrap32 (wrap32 (1 <<< frame_bits_input) * total_frames_input)

/-- One round of the `do`-loop of `main`: `true` when the round reaches `break`,
so that the pair is passed to `initializeSystem`; `false` when one of the two
tests prints its warning and the loop continues. -/
def mainAccepts (frame_bits_input total_frames_input : Int) : Bool :=
  let total_memory_size := totalMemorySize frame_bits_input total_frames_input
  if Int.land total_memory_size (wrap32 (total_memory_size - 1)) ≠ 0 then false
  else if total_memory_size > LOGICAL_ADDRESS_SPACE_SIZE then false
  else true

/-- The value of the C expression `(double)num / den` for two `int`s, up to
rounding of the quotient: the exact quotient when `den ≠ 0`, and the IEEE 754
results of a division by zero otherwise. -/
inductive DoubleQuotient where
  | finite (q : ℚ)
  | nan
  | posInf
  | negInf
deriving DecidableEq

/-- The division `(double)num / den` of `generateStatistics`. -/
def doubleDiv (num den : Int) : DoubleQuotient :=
  if den ≠ 0 then DoubleQuotient.finite ((num : ℚ) / (den : ℚ))
  else if num = 0 then DoubleQuotient.nan
  else if 0 < num then DoubleQuotient.posInf
  else DoubleQuotient.negInf

/-- The two rates computed by `generateStatistics`, `page_fault_rate` and
`tlb_hit_rate`, before they are printed (the path on which `stat.txt` could be
opened). -/
def generateStatistics (s : MMUState) : DoubleQuotient × DoubleQuotient :=
  let page_fault_rate := doubleDiv s.page_faults s.total_addresses
  let tlb_hit_rate := doubleDiv s.tlb_hits s.total_addresses
  (page_fault_rate, tlb_hit_rate)

/-- Seventeen (page, frame) pairs with the pages `0 .. 16`. -/
def examplePairs : List (Int × Int) :=
  [(0, 100), (1, 101), (2, 102), (3, 103), (4, 104), (5, 105), (6, 106), (7, 107), (8, 108),
   (9, 109), (10, 110), (11, 111), (12, 112), (13, 113), (14, 114), (15, 115), (16, 116)]

/-- Seventeen addresses on the pages `0 .. 16` of 256 bytes. -/
def seventeenAddrs : List Nat :=
  [0, 256, 512, 768, 1024, 1280, 1536, 1792, 2048, 2304, 2560, 2816, 3072, 3328, 3584, 3840,
   4096]

/-! ## Array access lemmas -/

theorem arrGet_natCast {α : Type} (l : List α) (n : Nat) : arrGet l (n : Int) = l[n]? := by
  simp [arrGet]

theorem arrGet_eq_some {α : Type} {l : List α} {i : Int} {a : α} :
    arrGet l i = some a ↔ 0 ≤ i ∧ l[i.toNat]? = some a := by
  unfold arrGet
  by_cases h : 0 ≤ i <;> simp [h]

theorem arrGet_of_nonneg {α : Type} (l : List α) {i : Int} (h : 0 ≤ i) :
    arrGet l i = l[i.toNat]? := by
  simp [arrGet, h]

theorem arrModify_natCast {α : Type} {l : List α} {n : Nat} {a : α} (f : α → α)
    (h : l[n]? = some a) : arrModify l (n : Int) f = some (l.set n (f a)) := by
  simp [arrModify, arrGet_natCast, h]

theorem arrModify_of_get {α : Type} {l : List α} {i : Int} {a : α} (f : α → α)
    (h0 : 0 ≤ i) (h : l[i.toNat]? = some a) :
    arrModify l i f = some (l.set i.toNat (f a)) := by
  simp [arrModify, arrGet, h0, h]

theorem modifyNth_of_get {α : Type} {l : List α} {i : Nat} {a : α} (f : α → α)
    (h : l[i]? = some a) : modifyNth l i f = l.set i (f a) := by
  simp [modifyNth, h]

theorem length_modifyNth {α : Type} (l : List α) (i : Nat) (f : α → α) :
    (modifyNth l i f).length = l.length := by
  unfold modifyNth
  split <;> simp

/-! ## The address split -/

/-- With `offset_bits = ob ≤ 16` and `page_bits = 16 - ob`, the page number is
the quotient of the address by `2 ^ ob`, reduced below `2 ^ (16 - ob)`. -/
theorem pageOf_eq (s : MMUState) (ob : Nat) (hob : s.offset_bits = ob) (hle : ob ≤ 16)
    (hpb : s.page_bits = 16 - s.offset_bits) (a : Nat) :
    pageOf s a = ((a / 2 ^ ob % 2 ^ (16 - ob) : Nat) : Int) := by
  unfold pageOf
  have h1 : (16 : Int) - (ob : Int) = ((16 - ob : Nat) : Int) := by omega
  have h2 : (((2 ^ (16 - ob) : Nat) : Int) - 1) = ((2 ^ (16 - ob) - 1 : Nat) : Int) := by
    have := Nat.two_pow_pos (16 - ob)
    omega
  rw [hpb, hob, h1, Int.shiftRight_coe_nat, Int.one_shiftLeft, h2]
  show (((a >>> ob) &&& (2 ^ (16 - ob) - 1) : Nat) : Int) = _
  rw [Nat.and_pow_two_sub_one_eq_mod, Nat.shiftRight_eq_div_pow]

/-- With `offset_bits = ob`, the offset is the remainder of the address
modulo `2 ^ ob`. -/
theorem offsetOf_eq (s : MMUState) (ob : Nat) (hob : s.offset_bits = ob) (a : Nat) :
    offsetOf s a = ((a % 2 ^ ob : Nat) : Int) := by
  unfold offsetOf
  have h2 : (((2 ^ ob : Nat) : Int) - 1) = ((2 ^ ob - 1 : Nat) : Int) := by
    have := Nat.two_pow_pos ob
    omega
  rw [hob, Int.one_shiftLeft, h2]
  show ((a &&& (2 ^ ob - 1) : Nat) : Int) = _
  rw [Nat.and_pow_two_sub_one_eq_mod]

/-! ## The search for the oldest entry -/

theorem scanOldest_spec (L : List Int) : ∀ (ts : List Int) (i : Nat) (ot : Int) (oi : Nat),
    L.drop i = ts → oi < i → L[oi]? = some ot →
    (∀ (j : Nat) (t : Int), j < i → L[j]? = some t → ot ≤ t) →
    (∀ (j : Nat) (t : Int), j < oi → L[j]? = some t → ot < t) →
    ∃ m, L[scanOldest ts i ot oi]? = some m ∧ (∀ (j : Nat) (t : Int), L[j]? = some t → m ≤ t) ∧
      (∀ (j : Nat) (t : Int), j < scanOldest ts i ot oi → L[j]? = some t → m < t) := by
  intro ts
  induction ts with
  | nil =>
    intro i ot oi hd hoi hget hmin hfirst
    refine ⟨ot, by simpa [scanOldest] using hget, ?_, by simpa [scanOldest] using hfirst⟩
    intro j t hj
    have hlen : L.length ≤ i := by
      have := congrArg List.length hd
      simp at this
      omega
    have hjl : j < L.length := by
      rcases Nat.lt_or_ge j L.length with h | h
      · exact h
      · rw [List.getElem?_eq_none h] at hj; cases hj
    exact hmin j t (by omega) hj
  | cons t ts ih =>
    intro i ot oi hd hoi hget hmin hfirst
    have hi : L[i]? = some t := by
      have h := congrArg (fun l => l[0]?) hd
      simpa using h
    have hd' : L.drop (i + 1) = ts := by
      have h := congrArg (fun l => l.drop 1) hd
      simpa [Nat.add_comm] using h
    unfold scanOldest
    split
    · rename_i hlt
      apply ih (i + 1) t i hd' (by omega) hi
      · intro j u hj hu
        rcases Nat.lt_or_ge j i with h | h
        · have := hmin j u h hu
          omega
        · have hji : j = i := by omega
          subst hji
          rw [hi] at hu
          cases hu
          exact le_refl _
      · intro j u hj hu
        have := hmin j u hj hu
        omega
    · rename_i hge
      apply ih (i + 1) ot oi hd' (by omega) hget
      · intro j u hj hu
        rcases Nat.lt_or_ge j i with h | h
        · exact hmin j u h hu
        · have hji : j = i := by omega
          subst hji
          rw [hi] at hu
          cases hu
          omega
      · exact hfirst

/-- On a non-empty array the search returns the first index holding the
smallest time. -/
theorem oldestIndex_spec (L : List Int) (hL : L ≠ []) :
    ∃ m, L[oldestIndex L]? = some m ∧ (∀ (j : Nat) (t : Int), L[j]? = some t → m ≤ t) ∧
      (∀ (j : Nat) (t : Int), j < oldestIndex L → L[j]? = some t → m < t) := by
  cases L with
  | nil => exact absurd rfl hL
  | cons t0 ts =>
    unfold oldestIndex
    apply scanOldest_spec (t0 :: ts) ts 1 t0 0 (by simp) (by omega) (by simp)
    · intro j t hj ht
      have : j = 0 := by omega
      subst this
      simp at ht
      omega
    · intro j t hj
      omega

theorem oldestIndex_lt (L : List Int) (hL : L ≠ []) : oldestIndex L < L.length := by
  obtain ⟨m, hm, _⟩ := oldestIndex_spec L hL
  rcases Nat.lt_or_ge (oldestIndex L) L.length with h | h
  · exact h
  · rw [List.getElem?_eq_none h] at hm; cases hm

/-! ## The invariant of the reachable states -/

/-- The invariant is insensitive to the statistics counters. -/
theorem Inv.setCounters {s : MMUState} (h : Inv s) (a b c : Int) :
    Inv { s with tlb_hits := a, page_faults := b, total_addresses := c } := by
  obtain ⟨h1, h2, h3, h4, h5, h6, h7, h8, h9, h10, h11, h12, h13, h14⟩ := h
  exact ⟨h1, h2, h3, h4, h5, h6, h7, h8, h9, h10, h11, h12, h13, h14⟩

theorem cfg_initializeSystem (B : List UInt8) (fb tf : Int) (h0 : 0 ≤ fb) (h16 : fb ≤ 16) :
    Cfg (initializeSystem B fb tf) := by
  obtain ⟨ob, rfl⟩ := Int.eq_ofNat_of_zero_le h0
  refine ⟨ob, by omega, rfl, ?_, ?_, ?_⟩
  · show (16 : Int) - (ob : Int) = _
    omega
  · show (1 : Int) <<< (ob : Int) = _
    rw [Int.one_shiftLeft]
  · show (1 : Int) <<< ((16 : Int) - (ob : Int)) = _
    have h1 : (16 : Int) - (ob : Int) = ((16 - ob : Nat) : Int) := by omega
    rw [h1, Int.one_shiftLeft]

/-- The state built by `initializeSystem` satisfies the invariant. -/
theorem inv_initializeSystem (B : List UInt8) (fb tf : Int) (h0 : 0 ≤ fb) (h16 : fb ≤ 16)
    (htf : 1 ≤ tf) (hB : 65536 ≤ B.length) : Inv (initializeSystem B fb tf) := by
  have hc := cfg_initializeSystem B fb tf h0 h16
  obtain ⟨ob, hob, e1, e2, e3, e4⟩ := hc
  refine
    { cfg := ⟨ob, hob, e1, e2, e3, e4⟩
      tf_pos := htf
      store := hB
      tlb_len := by simp [initializeSystem]
      pt_len := ?_
      pm_len := ?_
      pc_nonneg := by simp [initializeSystem]
      nf_eq := ?_
      frame_loaded := ?_
      frame_free := ?_
      pt_valid := ?_
      tlb_coh := ?_
      tlb_inj := ?_
      tlb_time_inj := ?_ }
  · rw [e4]
    simp only [initializeSystem, List.length_replicate]
    change (((1 : Int) <<< ((16 : Int) - fb)).toNat : Int) = _
    change (1 : Int) <<< ((16 : Int) - fb) = _ at e4
    rw [e4]
    simp
  · simp only [initializeSystem, List.length_replicate]
    omega
  · show (0 : Int) = min 0 tf
    omega
  · intro f fr _ hlt
    change (f : Int) < 0 at hlt
    omega
  · intro f fr hget _
    simp only [initializeSystem] at hget
    rw [List.getElem?_replicate] at hget
    split at hget
    · cases hget
      exact ⟨rfl, rfl⟩
    · cases hget
  · intro p e hget hv
    simp only [initializeSystem] at hget
    rw [List.getElem?_replicate] at hget
    split at hget
    · cases hget
      cases hv
    · cases hget
  · intro i e hget hv
    simp only [initializeSystem] at hget
    rw [List.getElem?_replicate] at hget
    split at hget
    · cases hget
      cases hv
    · cases hget
  · intro i j ei ej hi _ hv
    simp only [initializeSystem] at hi
    rw [List.getElem?_replicate] at hi
    split at hi
    · cases hi
      cases hv
    · cases hi
  · intro i j ei ej hi _ hv
    simp only [initializeSystem] at hi
    rw [List.getElem?_replicate] at hi
    split at hi
    · cases hi
      cases hv
    · cases hi

theorem split_sum (ob a : Nat) (hob : ob ≤ 16) (ha : a < 65536) :
    (a / 2 ^ ob % 2 ^ (16 - ob)) * 2 ^ ob + a % 2 ^ ob = a := by
  have h1 : 2 ^ (16 - ob) * 2 ^ ob = 65536 := by
    rw [← pow_add, Nat.sub_add_cancel hob]
    norm_num
  have h2 : a / 2 ^ ob < 2 ^ (16 - ob) := by
    rw [Nat.div_lt_iff_lt_mul (Nat.two_pow_pos ob), h1]
    exact ha
  rw [Nat.mod_eq_of_lt h2]
  exact Nat.div_add_mod' a (2 ^ ob)

theorem two_pow_mul (ob : Nat) (hob : ob ≤ 16) : 2 ^ (16 - ob) * 2 ^ ob = 65536 := by
  rw [← pow_add, Nat.sub_add_cancel hob]
  norm_num

/-- The bytes of a page's block of the backing store. -/
theorem readFromBackingStore_some {s : MMUState} (hc : Cfg s)
    (hB : 65536 ≤ s.backing_store.length) (p : Nat) (hp : (p : Int) < s.page_table_size) :
    readFromBackingStore s (p : Int) =
      some ((s.backing_store.drop (p * s.frame_size.toNat)).take s.frame_size.toNat) := by
  obtain ⟨ob, hob, e1, e2, e3, e4⟩ := hc
  have h1 := two_pow_mul ob hob
  have hp' : p < 2 ^ (16 - ob) := by rw [e4] at hp; exact_mod_cast hp
  have hlen : p * 2 ^ ob + 2 ^ ob ≤ s.backing_store.length := by
    have : (p + 1) * 2 ^ ob ≤ 2 ^ (16 - ob) * 2 ^ ob := Nat.mul_le_mul_right _ hp'
    rw [h1] at this
    have h3 : (p + 1) * 2 ^ ob = p * 2 ^ ob + 2 ^ ob := by ring
    omega
  unfold readFromBackingStore
  simp only [e3]
  have hpos : ¬ ((p : Int) * ((2 ^ ob : Nat) : Int) < 0) := by
    have : (0 : Int) ≤ (p : Int) * ((2 ^ ob : Nat) : Int) := by positivity
    omega
  rw [if_neg hpos]
  have htn : ((p : Int) * ((2 ^ ob : Nat) : Int)).toNat = p * 2 ^ ob := by
    rw [← Nat.cast_mul]; exact Int.toNat_natCast _
  simp only [htn, Int.toNat_natCast, List.length_take, List.length_drop]
  rw [if_pos (by omega)]

theorem readByte_loaded {s : MMUState} (h : Inv s) (a : Nat) (ha : a < 65536) (f : Int)
    (hpt : s.page_table[(pageOf s a).toNat]? = some { frame_number := f, valid := true }) :
    readByte s f (offsetOf s a) = s.backing_store[a]? := by
  obtain ⟨ob, hob, e1, e2, e3, e4⟩ := h.cfg
  have hpg := pageOf_eq s ob e1 hob (by rw [e2, e1]; omega) a
  have hoff := offsetOf_eq s ob e1 a
  obtain ⟨hf0, hfn, fr, hfr, hfrp⟩ := h.pt_valid _ _ hpt rfl
  replace hf0 : 0 ≤ f := hf0
  replace hfn : f < s.next_frame := hfn
  replace hfr : s.physical_memory[f.toNat]? = some fr := hfr
  have hfl := h.frame_loaded f.toNat fr hfr (by omega)
  obtain ⟨_, _, hdata, _⟩ := hfl
  rw [hfrp] at hdata
  have hplt : (((pageOf s a).toNat : Nat) : Int) < s.page_table_size := by
    rw [hpg, e4]; simp only [Int.toNat_natCast]
    exact_mod_cast Nat.mod_lt _ (Nat.two_pow_pos _)
  rw [readFromBackingStore_some h.cfg h.store _ hplt] at hdata
  unfold readByte
  rw [arrGet_of_nonneg _ hf0, hfr]
  simp only [Option.some_bind]
  rw [hoff, arrGet_natCast]
  injection hdata with hdata
  rw [← hdata, hpg, e3]
  simp only [Int.toNat_natCast]
  rw [List.getElem?_take]
  rw [if_pos (Nat.mod_lt _ (Nat.two_pow_pos _)), List.getElem?_drop, split_sum ob a hob ha]

/-! ## Linear searches -/

theorem findIdx?_eq_some_get {α : Type} {xs : List α} {p : α → Bool} {i : Nat}
    (h : xs.findIdx? p = some i) :
    (∃ a, xs[i]? = some a ∧ p a = true) ∧
      ∀ (j : Nat) (b : α), j < i → xs[j]? = some b → p b = false := by
  rw [List.findIdx?_eq_some_iff_getElem] at h
  obtain ⟨hi, hp, hlt⟩ := h
  refine ⟨⟨xs[i], List.getElem?_eq_getElem hi, hp⟩, ?_⟩
  intro j b hj hb
  have hjl : j < xs.length := Nat.lt_trans hj hi
  rw [List.getElem?_eq_getElem hjl] at hb
  injection hb with hb
  have := hlt j hj
  rw [hb] at this
  simpa using this

theorem findIdx?_eq_none_get {α : Type} {xs : List α} {p : α → Bool}
    (h : xs.findIdx? p = none) (j : Nat) (b : α) (hb : xs[j]? = some b) : p b = false := by
  rw [List.findIdx?_eq_none_iff] at h
  exact h b (List.getElem?_mem hb)

theorem findIdx?_eq_none_of_get {α : Type} {xs : List α} {p : α → Bool}
    (h : ∀ (j : Nat) (b : α), xs[j]? = some b → p b = false) : xs.findIdx? p = none := by
  rw [List.findIdx?_eq_none_iff]
  intro x hx
  obtain ⟨j, hj⟩ := List.mem_iff_getElem?.mp hx
  exact h j x hj

/-- A TLB miss: no valid entry holds the page. -/
theorem checkTLB_eq_none {s : MMUState} {p : Int} :
    checkTLB s p = none ↔
      ∀ (j : Nat) (e : TLBEntry), s.tlb[j]? = some e → e.valid = true → e.page_number ≠ p := by
  unfold checkTLB
  rw [Option.map_eq_none', List.find?_eq_none]
  constructor
  · intro h j e hj hv hp
    have := h e (List.getElem?_mem hj)
    simp [hv, hp] at this
  · intro h x hx
    obtain ⟨j, hj⟩ := List.mem_iff_getElem?.mp hx
    have := h j x hj
    cases hv : x.valid
    · simp
    · simpa [hv] using this hv

/-- A TLB hit returns the frame of some valid entry that holds the page. -/
theorem checkTLB_eq_some {s : MMUState} {p f : Int} (h : checkTLB s p = some f) :
    ∃ (j : Nat) (e : TLBEntry), s.tlb[j]? = some e ∧ e.valid = true ∧ e.page_number = p ∧
      e.frame_number = f := by
  unfold checkTLB at h
  rw [Option.map_eq_some'] at h
  obtain ⟨e, he, hf⟩ := h
  have hp := List.find?_some he
  obtain ⟨j, hj⟩ := List.mem_iff_getElem?.mp (List.mem_of_find?_eq_some he)
  simp only [Bool.and_eq_true, beq_iff_eq] at hp
  exact ⟨j, e, hj, hp.1, hp.2, hf⟩

/-- With pairwise distinct pages among the valid entries, the TLB returns the
frame of the entry that holds the page. -/
theorem checkTLB_of_entry {s : MMUState}
    (hinj : ∀ (i j : Nat) (ei ej : TLBEntry), s.tlb[i]? = some ei → s.tlb[j]? = some ej →
      ei.valid = true → ej.valid = true → ei.page_number = ej.page_number → i = j)
    {j : Nat} {e : TLBEntry} (hj : s.tlb[j]? = some e) (hv : e.valid = true) :
    checkTLB s e.page_number = some e.frame_number := by
  cases hc : checkTLB s e.page_number with
  | none =>
    rw [checkTLB_eq_none] at hc
    exact absurd rfl (hc j e hj hv)
  | some f =>
    obtain ⟨i, ei, hi, hvi, hpi, hfi⟩ := checkTLB_eq_some hc
    have := hinj i j ei e hi hj hvi hv hpi
    subst this
    rw [hi] at hj
    injection hj with hj
    rw [← hfi, hj]

/-! ## `updateTLB` -/

theorem getElem?_set_cases {α : Type} {l : List α} {i j : Nat} {a b : α}
    (h : (l.set i a)[j]? = some b) : (j = i ∧ b = a) ∨ (j ≠ i ∧ l[j]? = some b) := by
  rw [List.getElem?_set] at h
  split at h
  · rename_i hij
    split at h
    · injection h with h
      exact Or.inl ⟨hij.symm, h.symm⟩
    · cases h
  · rename_i hij
    exact Or.inr ⟨fun e => hij e.symm, h⟩

/-- First branch of `updateTLB`: the page is present, its entry is refreshed. -/
theorem updateTLB_refresh {s : MMUState} {p : Int} (f : Int) {i : Nat}
    (h : s.tlb.findIdx? (fun e => e.valid && e.page_number == p) = some i) :
    updateTLB s p f = { s with
      tlb := s.tlb.set i
        { valid := true, page_number := p, frame_number := f, time := s.tlb_counter }
      tlb_counter := s.tlb_counter + 1 } := by
  obtain ⟨⟨e, he, hpe⟩, _⟩ := findIdx?_eq_some_get h
  simp only [Bool.and_eq_true, beq_iff_eq] at hpe
  unfold updateTLB
  rw [h]
  simp only [modifyNth_of_get _ he]
  obtain ⟨pn, fn, v, t⟩ := e
  simp only at hpe
  obtain ⟨hv, hp⟩ := hpe
  subst hv hp
  rfl

/-- Second branch of `updateTLB`: the page is absent and the first invalid
entry is filled. -/
theorem updateTLB_fill {s : MMUState} {p : Int} (f : Int) {i : Nat}
    (h1 : s.tlb.findIdx? (fun e => e.valid && e.page_number == p) = none)
    (h2 : s.tlb.findIdx? (fun e => !e.valid) = some i) :
    updateTLB s p f = { s with
      tlb := s.tlb.set i
        { valid := true, page_number := p, frame_number := f, time := s.tlb_counter }
      tlb_counter := s.tlb_counter + 1 } := by
  obtain ⟨⟨e, he, _⟩, _⟩ := findIdx?_eq_some_get h2
  unfold updateTLB
  rw [h1]
  simp only [h2, modifyNth_of_get _ he]

/-- Third branch of `updateTLB`: the page is absent, every entry is valid, and
the entry with the smallest time is overwritten. -/
theorem updateTLB_evict {s : MMUState} {p : Int} (f : Int)
    (h1 : s.tlb.findIdx? (fun e => e.valid && e.page_number == p) = none)
    (h2 : s.tlb.findIdx? (fun e => !e.valid) = none) (hne : s.tlb ≠ []) :
    updateTLB s p f = { s with
      tlb := s.tlb.set (oldestIndex (s.tlb.map (fun e => e.time)))
        { valid := true, page_number := p, frame_number := f, time := s.tlb_counter }
      tlb_counter := s.tlb_counter + 1 } := by
  have hlt := oldestIndex_lt (s.tlb.map (fun e => e.time)) (by simpa using hne)
  rw [List.length_map] at hlt
  have he := List.getElem?_eq_getElem hlt
  have hv := findIdx?_eq_none_get h2 _ _ he
  unfold updateTLB
  rw [h1]
  simp only [h2, modifyNth_of_get _ he]
  generalize s.tlb[oldestIndex (List.map (fun e => e.time) s.tlb)] = e at hv
  obtain ⟨pn, fn, v, t⟩ := e
  have hv' : v = true := by simpa using hv
  subst hv'
  rfl

/-- In every case `updateTLB` overwrites exactly one slot with the valid entry
`(page, frame, tlb_counter)`, and no other valid slot holds the page. -/
theorem updateTLB_set (s : MMUState) (p f : Int) (hne : s.tlb ≠ [])
    (hinj : ∀ (i j : Nat) (ei ej : TLBEntry), s.tlb[i]? = some ei → s.tlb[j]? = some ej →
      ei.valid = true → ej.valid = true → ei.page_number = ej.page_number → i = j) :
    ∃ i0, i0 < s.tlb.length ∧
      updateTLB s p f = { s with
        tlb := s.tlb.set i0
          { valid := true, page_number := p, frame_number := f, time := s.tlb_counter }
        tlb_counter := s.tlb_counter + 1 } ∧
      ∀ (j : Nat) (e : TLBEntry), s.tlb[j]? = some e → e.valid = true → e.page_number = p →
        j = i0 := by
  cases h1 : s.tlb.findIdx? (fun e => e.valid && e.page_number == p) with
  | some i =>
    obtain ⟨⟨e, he, hpe⟩, _⟩ := findIdx?_eq_some_get h1
    simp only [Bool.and_eq_true, beq_iff_eq] at hpe
    refine ⟨i, ?_, updateTLB_refresh f h1, ?_⟩
    · rcases Nat.lt_or_ge i s.tlb.length with hl | hl
      · exact hl
      · rw [List.getElem?_eq_none hl] at he; cases he
    · intro j ej hj hv hp
      exact hinj j i ej e hj he hv hpe.1 (by rw [hp, hpe.2])
  | none =>
    have hno : ∀ (j : Nat) (e : TLBEntry), s.tlb[j]? = some e → e.valid = true →
        e.page_number = p → False := by
      intro j e hj hv hp
      have := findIdx?_eq_none_get h1 j e hj
      simp [hv, hp] at this
    cases h2 : s.tlb.findIdx? (fun e => !e.valid) with
    | some i =>
      obtain ⟨⟨e, he, _⟩, _⟩ := findIdx?_eq_some_get h2
      refine ⟨i, ?_, updateTLB_fill f h1 h2, fun j e hj hv hp => (hno j e hj hv hp).elim⟩
      rcases Nat.lt_or_ge i s.tlb.length with hl | hl
      · exact hl
      · rw [List.getElem?_eq_none hl] at he; cases he
    | none =>
      have hlt := oldestIndex_lt (s.tlb.map (fun e => e.time)) (by simpa using hne)
      rw [List.length_map] at hlt
      exact ⟨_, hlt, updateTLB_evict f h1 h2 hne, fun j e hj hv hp => (hno j e hj hv hp).elim⟩

/-- Overwriting one TLB slot with a fresh entry for a page that the page table
maps to the entry's frame, when no other valid slot holds the page, keeps the
invariant. -/
theorem Inv.tlb_set {s : MMUState} (h : Inv s) (i0 : Nat) (p f : Int) (hp0 : 0 ≤ p)
    (hpt : s.page_table[p.toNat]? = some { frame_number := f, valid := true })
    (huniq : ∀ (j : Nat) (e : TLBEntry), s.tlb[j]? = some e → e.valid = true →
      e.page_number = p → j = i0) :
    Inv { s with
      tlb := s.tlb.set i0
        { valid := true, page_number := p, frame_number := f, time := s.tlb_counter }
      tlb_counter := s.tlb_counter + 1 } := by
  obtain ⟨h1, h2, h3, h4, h5, h6, h7, h8, h9, h10, h11, h12, h13, h14⟩ := h
  refine ⟨h1, h2, h3, ?_, h5, h6, h7, h8, h9, h10, h11, ?_, ?_, ?_⟩
  · show (s.tlb.set i0 _).length = TLB_SIZE
    rw [List.length_set]; exact h4
  · intro i e he hv
    replace he : (s.tlb.set i0 _)[i]? = some e := he
    show 0 ≤ e.page_number ∧ s.page_table[e.page_number.toNat]? = _ ∧
      e.time < s.tlb_counter + 1
    rcases getElem?_set_cases he with ⟨_, rfl⟩ | ⟨_, hold⟩
    · exact ⟨hp0, hpt, by show s.tlb_counter < s.tlb_counter + 1; omega⟩
    · obtain ⟨a, b, c⟩ := h12 i e hold hv
      exact ⟨a, b, by omega⟩
  · intro i j ei ej hi hj hvi hvj hpp
    replace hi : (s.tlb.set i0 _)[i]? = some ei := hi
    replace hj : (s.tlb.set i0 _)[j]? = some ej := hj
    rcases getElem?_set_cases hi with ⟨hi0, rfl⟩ | ⟨hi0, holdi⟩
    · rcases getElem?_set_cases hj with ⟨hj0, rfl⟩ | ⟨hj0, holdj⟩
      · omega
      · exact absurd (huniq j ej holdj hvj hpp.symm) hj0
    · rcases getElem?_set_cases hj with ⟨hj0, rfl⟩ | ⟨hj0, holdj⟩
      · exact absurd (huniq i ei holdi hvi hpp) hi0
      · exact h13 i j ei ej holdi holdj hvi hvj hpp
  · intro i j ei ej hi hj hvi hvj htt
    replace hi : (s.tlb.set i0 _)[i]? = some ei := hi
    replace hj : (s.tlb.set i0 _)[j]? = some ej := hj
    rcases getElem?_set_cases hi with ⟨hi0, rfl⟩ | ⟨hi0, holdi⟩
    · rcases getElem?_set_cases hj with ⟨hj0, rfl⟩ | ⟨hj0, holdj⟩
      · omega
      · have := (h12 j ej holdj hvj).2.2
        replace htt : s.tlb_counter = ej.time := htt
        omega
    · rcases getElem?_set_cases hj with ⟨hj0, rfl⟩ | ⟨hj0, holdj⟩
      · have := (h12 i ei holdi hvi).2.2
        replace htt : ei.time = s.tlb_counter := htt
        omega
      · exact h14 i j ei ej holdi holdj hvi hvj htt

theorem Inv.tlb_ne {s : MMUState} (h : Inv s) : s.tlb ≠ [] := by
  intro e
  have := h.tlb_len
  rw [e] at this
  simp [TLB_SIZE] at this

/-- The function `updateTLB` keeps the invariant when the page table maps the page to
the frame. -/
theorem inv_updateTLB {s : MMUState} (h : Inv s) (p f : Int) (hp0 : 0 ≤ p)
    (hpt : s.page_table[p.toNat]? = some { frame_number := f, valid := true }) :
    Inv (updateTLB s p f) := by
  obtain ⟨i0, _, heq, huniq⟩ := updateTLB_set s p f h.tlb_ne h.tlb_inj
  rw [heq]
  exact h.tlb_set i0 p f hp0 hpt huniq

/-! ## `loadPage`, free-frame branch -/

theorem Inv.nf_nonneg {s : MMUState} (h : Inv s) : 0 ≤ s.next_frame := by
  have h1 := h.nf_eq
  have h2 := h.pc_nonneg
  have h3 := h.tf_pos
  omega

theorem Inv.nf_le {s : MMUState} (h : Inv s) : s.next_frame ≤ s.total_frames := by
  have h1 := h.nf_eq
  omega

theorem Inv.pt_get {s : MMUState} (h : Inv s) (p : Nat) (hp : (p : Int) < s.page_table_size) :
    ∃ e, s.page_table[p]? = some e := by
  have hl := h.pt_len
  have : p < s.page_table.length := by omega
  exact ⟨_, List.getElem?_eq_getElem this⟩

theorem Inv.pm_get {s : MMUState} (h : Inv s) (f : Nat) (hf : (f : Int) < s.total_frames) :
    ∃ fr, s.physical_memory[f]? = some fr := by
  have hl := h.pm_len
  have : f < s.physical_memory.length := by omega
  exact ⟨_, List.getElem?_eq_getElem this⟩

/-- With a free frame left, `loadPage` returns `next_frame` and the state
`afterLoad`. -/
theorem loadPage_free {s : MMUState} (h : Inv s) (p : Nat)
    (hp : (p : Int) < s.page_table_size) (hnf : s.next_frame < s.total_frames) :
    loadPage s (p : Int) = some (afterLoad s p, s.next_frame) := by
  have h0 := h.nf_nonneg
  obtain ⟨fr, hfr⟩ := h.pm_get s.next_frame.toNat (by omega)
  obtain ⟨e, he⟩ := h.pt_get p hp
  have hrd : readFromBackingStore { s with next_frame := s.next_frame + 1 } (p : Int) =
      readFromBackingStore s (p : Int) := rfl
  unfold loadPage
  rw [if_pos hnf]
  simp only [hrd, readFromBackingStore_some h.cfg h.store p hp, Option.some_bind,
    arrModify_of_get _ h0 hfr, updatePageTable, arrModify_natCast _ he, Option.map_some']
  rfl

theorem getElem?_set_ne' {α : Type} (l : List α) {i j : Nat} (a : α) (h : j ≠ i) :
    (l.set i a)[j]? = l[j]? := by
  rw [List.getElem?_set]
  rw [if_neg (fun e => h e.symm)]

theorem getElem?_set_self' {α : Type} (l : List α) {i : Nat} (a : α) (h : i < l.length) :
    (l.set i a)[i]? = some a := by
  rw [List.getElem?_set]
  simp [h]

theorem readFromBackingStore_congr {s t : MMUState} (hB : t.backing_store = s.backing_store)
    (hf : t.frame_size = s.frame_size) (p : Int) :
    readFromBackingStore t p = readFromBackingStore s p := by
  unfold readFromBackingStore
  rw [hB, hf]

/-- The free-frame branch of `loadPage` keeps the invariant when the page is
not valid in the page table. -/
theorem inv_afterLoad {s : MMUState} (h : Inv s) (p : Nat)
    (hp : (p : Int) < s.page_table_size) (hnf : s.next_frame < s.total_frames)
    (e : PageTableEntry) (he : s.page_table[p]? = some e) (hev : e.valid = false) :
    Inv (afterLoad s p) := by
  have h0 := h.nf_nonneg
  have hpc : s.next_frame = s.page_counter := by
    have := h.nf_eq
    omega
  have hnfl : s.next_frame.toNat < s.physical_memory.length := by
    have := h.pm_len
    omega
  have hpl : p < s.page_table.length := by
    have := h.pt_len
    omega
  have hvalid_ne : ∀ (p' : Nat) (e' : PageTableEntry), s.page_table[p']? = some e' →
      e'.valid = true → p' ≠ p := by
    intro p' e' hp' hv' e2
    subst e2
    rw [he] at hp'
    injection hp' with hp'
    rw [hp'] at hev
    rw [hev] at hv'
    cases hv'
  obtain ⟨h1, h2, h3, h4, h5, h6, h7, h8, h9, h10, h11, h12, h13, h14⟩ := h
  refine ⟨h1, h2, h3, h4, ?_, ?_, ?_, ?_, ?_, ?_, ?_, ?_, h13, h14⟩
  · show ((s.page_table.set p _).length : Int) = s.page_table_size
    rw [List.length_set]; exact h5
  · show ((s.physical_memory.set _ _).length : Int) = s.total_frames
    rw [List.length_set]; exact h6
  · show 0 ≤ s.page_counter + 1
    omega
  · show s.next_frame + 1 = min (s.page_counter + 1) s.total_frames
    omega
  · intro f fr hf hlt
    replace hf : (s.physical_memory.set s.next_frame.toNat _)[f]? = some fr := hf
    replace hlt : (f : Int) < s.next_frame + 1 := hlt
    show 0 ≤ fr.page_number ∧ (s.page_table.set p _)[fr.page_number.toNat]? = _ ∧
      readFromBackingStore (afterLoad s p) fr.page_number = some fr.data ∧
      0 ≤ fr.time ∧ fr.time % s.total_frames = (f : Int) ∧
      s.page_counter + 1 - s.total_frames ≤ fr.time ∧ fr.time < s.page_counter + 1
    rw [readFromBackingStore_congr (t := afterLoad s p) (s := s) rfl rfl]
    rcases getElem?_set_cases hf with ⟨hfe, rfl⟩ | ⟨hfe, hold⟩
    · refine ⟨by show (0 : Int) ≤ (p : Int); omega, ?_, ?_, ?_, ?_, ?_, ?_⟩
      · show (s.page_table.set p _)[((p : Int)).toNat]? = _
        rw [Int.toNat_natCast, getElem?_set_self' _ _ hpl]
        congr 2
        omega
      · exact readFromBackingStore_some h1 h3 p hp
      · show 0 ≤ s.page_counter
        omega
      · show s.page_counter % s.total_frames = (f : Int)
        rw [Int.emod_eq_of_lt (by omega) (by omega)]
        omega
      · show s.page_counter + 1 - s.total_frames ≤ s.page_counter
        omega
      · show s.page_counter < s.page_counter + 1
        omega
    · have hfn : (f : Int) < s.next_frame := by omega
      obtain ⟨a1, a2, a3, a4, a5, a6, a7⟩ := h9 f fr hold hfn
      refine ⟨a1, ?_, a3, a4, a5, by omega, by omega⟩
      rw [getElem?_set_ne' _ _ (hvalid_ne _ _ a2 rfl)]
      exact a2
  · intro f fr hf hge
    replace hf : (s.physical_memory.set s.next_frame.toNat _)[f]? = some fr := hf
    replace hge : s.next_frame + 1 ≤ (f : Int) := hge
    rw [getElem?_set_ne' _ _ (by omega)] at hf
    exact h10 f fr hf (by omega)
  · intro p' e' hp' hv'
    replace hp' : (s.page_table.set p _)[p']? = some e' := hp'
    show 0 ≤ e'.frame_number ∧ e'.frame_number < s.next_frame + 1 ∧
      ∃ fr, (s.physical_memory.set s.next_frame.toNat _)[e'.frame_number.toNat]? = some fr ∧
        fr.page_number = (p' : Int)
    rcases getElem?_set_cases hp' with ⟨hpe, rfl⟩ | ⟨hpe, hold⟩
    · refine ⟨h0, by show s.next_frame < s.next_frame + 1; omega, _,
        getElem?_set_self' _ _ hnfl, ?_⟩
      show (p : Int) = (p' : Int)
      omega
    · obtain ⟨b1, b2, fr, b3, b4⟩ := h11 p' e' hold hv'
      refine ⟨b1, by omega, fr, ?_, b4⟩
      rw [getElem?_set_ne' _ _ (by omega)]
      exact b3
  · intro i e' hi hv'
    obtain ⟨c1, c2, c3⟩ := h12 i e' hi hv'
    refine ⟨c1, ?_, c3⟩
    show (s.page_table.set p _)[e'.page_number.toNat]? = _
    rw [getElem?_set_ne' _ _ (hvalid_ne _ _ c2 rfl)]
    exact c2

/-! ## `replacePage` -/

/-- With every frame in use, `replacePage` returns the index `v` of the oldest
frame and the state `afterReplace`. -/
theorem replacePage_full {s : MMUState} (h : Inv s) (p : Nat)
    (hp : (p : Int) < s.page_table_size) (hnf : ¬ s.next_frame < s.total_frames) :
    ∃ (q : Nat) (fr : Frame),
      s.physical_memory[oldestIndex (s.physical_memory.map (fun f => f.time))]? = some fr ∧
      fr.page_number = (q : Int) ∧
      replacePage s (p : Int) =
        some (afterReplace s p (oldestIndex (s.physical_memory.map (fun f => f.time))) q,
          ((oldestIndex (s.physical_memory.map (fun f => f.time)) : Nat) : Int)) := by
  have hnfe : s.next_frame = s.total_frames := by
    have := h.nf_le
    omega
  have hne : s.physical_memory ≠ [] := by
    intro e
    have := h.pm_len
    have := h.tf_pos
    rw [e] at *
    simp at *
    omega
  have hlt := oldestIndex_lt (s.physical_memory.map (fun f => f.time)) (by simpa using hne)
  rw [List.length_map] at hlt
  generalize hv : oldestIndex (s.physical_memory.map (fun f => f.time)) = v at hlt
  have hfr := List.getElem?_eq_getElem hlt
  generalize s.physical_memory[v] = fr at hfr
  have hvn : (v : Int) < s.next_frame := by
    have := h.pm_len
    omega
  obtain ⟨a1, a2, _⟩ := h.frame_loaded v fr hfr hvn
  obtain ⟨q, hq⟩ := Int.eq_ofNat_of_zero_le a1
  rw [hq, Int.toNat_natCast] at a2
  obtain ⟨e, he⟩ := h.pt_get p hp
  have hp2 : ∃ e2, (s.page_table.set q { frame_number := (v : Int), valid := false })[p]? =
      some e2 := by
    have hl := h.pt_len
    have : p < (s.page_table.set q { frame_number := (v : Int), valid := false }).length := by
      rw [List.length_set]; omega
    exact ⟨_, List.getElem?_eq_getElem this⟩
  obtain ⟨e2, he2⟩ := hp2
  refine ⟨q, fr, hfr, hq, ?_⟩
  unfold replacePage
  split
  · rename_i heq
    exact absurd heq hne
  · simp only [hv, arrGet_natCast, hfr, Option.some_bind,
      readFromBackingStore_some h.cfg h.store p hp, hq, arrModify_natCast _ a2,
      updatePageTable, arrModify_natCast _ he2, Option.map_some']
    unfold afterReplace victimTLB
    cases hfi : s.tlb.findIdx? (fun e => e.valid && e.page_number == (q : Int)) with
    | none => rfl
    | some i =>
      obtain ⟨⟨ei, hei, _⟩, _⟩ := findIdx?_eq_some_get hfi
      simp only [modifyNth_of_get _ hei]

theorem emod_window {x c n : Int} (hn : 0 < n) (hm : x % n = c % n) (h1 : c - n ≤ x)
    (h2 : x < c) : x = c - n := by
  have hd : n ∣ (c - x) :=
    Int.dvd_of_emod_eq_zero (Int.emod_eq_emod_iff_emod_sub_eq_zero.mp hm.symm)
  obtain ⟨k, hk⟩ := hd
  have hk1 : 1 ≤ k := by
    by_contra hc
    have : k ≤ 0 := by omega
    have : n * k ≤ 0 := Int.mul_nonpos_of_nonneg_of_nonpos (le_of_lt hn) this
    omega
  have hk2 : k ≤ 1 := by
    by_contra hc
    have : 2 ≤ k := by omega
    have : n * 2 ≤ n * k := Int.mul_le_mul_of_nonneg_left this (le_of_lt hn)
    omega
  have : k = 1 := by omega
  subst this
  omega

/-- The two outcomes of the TLB loop of `replacePage`. -/
theorem victimTLB_cases (s : MMUState) (p v q : Nat) :
    (victimTLB s p v q = (s.tlb, s.tlb_counter) ∧
      ∀ (j : Nat) (e : TLBEntry), s.tlb[j]? = some e → e.valid = true →
        e.page_number ≠ (q : Int)) ∨
    (∃ (i : Nat) (ei : TLBEntry), s.tlb[i]? = some ei ∧ ei.valid = true ∧
      ei.page_number = (q : Int) ∧
      (∀ (j : Nat) (b : TLBEntry), j < i → s.tlb[j]? = some b →
        ¬ (b.valid = true ∧ b.page_number = (q : Int))) ∧
      victimTLB s p v q =
        (s.tlb.set i
          { valid := true, page_number := (p : Int), frame_number := (v : Int),
            time := s.tlb_counter },
         s.tlb_counter + 1)) := by
  unfold victimTLB
  cases hfi : s.tlb.findIdx? (fun e => e.valid && e.page_number == (q : Int)) with
  | none =>
    left
    refine ⟨rfl, ?_⟩
    intro j e hj hv hp
    have := findIdx?_eq_none_get hfi j e hj
    simp [hv, hp] at this
  | some i =>
    right
    obtain ⟨⟨ei, hei, hpe⟩, hfirst⟩ := findIdx?_eq_some_get hfi
    simp only [Bool.and_eq_true, beq_iff_eq] at hpe
    refine ⟨i, ei, hei, hpe.1, hpe.2, ?_, rfl⟩
    intro j b hj hb hc
    have := hfirst j b hj hb
    simp [hc.1, hc.2] at this

/-- What the invariant says about the victim chosen by `replacePage` when every
frame is in use: it is the frame `page_counter mod total_frames`, loaded exactly
`total_frames` loads ago, and every other frame was loaded later. -/
theorem victim_facts {s : MMUState} (h : Inv s) (hnf : ¬ s.next_frame < s.total_frames)
    (fr : Frame)
    (hfr : s.physical_memory[oldestIndex (s.physical_memory.map (fun f => f.time))]? = some fr) :
    fr.time = s.page_counter - s.total_frames ∧
    ((oldestIndex (s.physical_memory.map (fun f => f.time)) : Nat) : Int) =
      s.page_counter % s.total_frames ∧
    ∀ (f : Nat) (fr' : Frame), s.physical_memory[f]? = some fr' →
      f ≠ oldestIndex (s.physical_memory.map (fun f => f.time)) →
      s.page_counter - s.total_frames < fr'.time := by
  have hnfe : s.next_frame = s.total_frames := by
    have := h.nf_le
    omega
  have htf := h.tf_pos
  have hpm := h.pm_len
  have hne : s.physical_memory.map (fun f => f.time) ≠ [] := by
    intro e
    have := congrArg List.length e
    simp at this
    rw [this] at hpm
    simp at hpm
    omega
  obtain ⟨m, hm, hmin, _⟩ := oldestIndex_spec _ hne
  generalize oldestIndex (s.physical_memory.map (fun f => f.time)) = v at *
  rw [List.getElem?_map, hfr] at hm
  simp only [Option.map_some', Option.some.injEq] at hm
  subst hm
  have hvl : v < s.physical_memory.length := by
    rcases Nat.lt_or_ge v s.physical_memory.length with hl | hl
    · exact hl
    · rw [List.getElem?_eq_none hl] at hfr; cases hfr
  obtain ⟨_, _, _, _, a5, a6, a7⟩ := h.frame_loaded v fr hfr (by omega)
  have hmin' : ∀ (f : Nat) (fr' : Frame), s.physical_memory[f]? = some fr' →
      fr.time ≤ fr'.time := by
    intro f fr' hf
    apply hmin f
    rw [List.getElem?_map, hf]
    rfl
  -- the frame `page_counter mod total_frames`
  have hs0 : 0 ≤ s.page_counter % s.total_frames := Int.emod_nonneg _ (by omega)
  have hs1 : s.page_counter % s.total_frames < s.total_frames := Int.emod_lt_of_pos _ (by omega)
  obtain ⟨fs, hfs⟩ := h.pm_get (s.page_counter % s.total_frames).toNat (by omega)
  obtain ⟨_, _, _, _, b5, b6, b7⟩ := h.frame_loaded _ fs hfs (by omega)
  rw [Int.toNat_of_nonneg hs0] at b5
  have hfst : fs.time = s.page_counter - s.total_frames :=
    emod_window (by omega) b5 b6 b7
  have hle := hmin' _ fs hfs
  have hvt : fr.time = s.page_counter - s.total_frames := by omega
  refine ⟨hvt, ?_, ?_⟩
  · rw [← a5, hvt]
    simp
  · intro f fr' hf hfv
    have hfl : f < s.physical_memory.length := by
      rcases Nat.lt_or_ge f s.physical_memory.length with hl | hl
      · exact hl
      · rw [List.getElem?_eq_none hl] at hf; cases hf
    obtain ⟨_, _, _, _, c5, c6, _⟩ := h.frame_loaded f fr' hf (by omega)
    rcases lt_or_eq_of_le c6 with hlt | heq
    · exact hlt
    · exfalso
      apply hfv
      have : (f : Int) = (v : Int) := by rw [← c5, ← a5, ← heq, hvt]
      omega

/-- The function `replacePage` keeps the invariant when every frame is in use and the
page is not valid in the page table. -/
theorem inv_afterReplace {s : MMUState} (h : Inv s) (p : Nat)
    (hp : (p : Int) < s.page_table_size) (hnf : ¬ s.next_frame < s.total_frames)
    (e : PageTableEntry) (he : s.page_table[p]? = some e) (hev : e.valid = false)
    (q : Nat) (fr : Frame)
    (hfr : s.physical_memory[oldestIndex (s.physical_memory.map (fun f => f.time))]? = some fr)
    (hq : fr.page_number = (q : Int)) :
    Inv (afterReplace s p (oldestIndex (s.physical_memory.map (fun f => f.time))) q) := by
  obtain ⟨hvt, hvpc, hother⟩ := victim_facts h hnf fr hfr
  generalize oldestIndex (s.physical_memory.map (fun f => f.time)) = v at *
  have hnfe : s.next_frame = s.total_frames := by
    have := h.nf_le
    omega
  have hpcge : s.total_frames ≤ s.page_counter := by
    have := h.nf_eq
    omega
  have hvl : v < s.physical_memory.length := by
    rcases Nat.lt_or_ge v s.physical_memory.length with hl | hl
    · exact hl
    · rw [List.getElem?_eq_none hl] at hfr; cases hfr
  have hpml := h.pm_len
  have hptl := h.pt_len
  have hpl : p < s.page_table.length := by omega
  obtain ⟨a1, a2, a3, a4, a5, a6, a7⟩ := h.frame_loaded v fr hfr (by omega)
  rw [hq, Int.toNat_natCast] at a2
  have hvalid_ne : ∀ (p' : Nat) (e' : PageTableEntry), s.page_table[p']? = some e' →
      e'.valid = true → p' ≠ p := by
    intro p' e' hp' hv' e2
    subst e2
    rw [he] at hp'
    injection hp' with hp'
    rw [hp'] at hev
    rw [hev] at hv'
    cases hv'
  have hqp : q ≠ p := hvalid_ne q _ a2 rfl
  have hptp : ((s.page_table.set q { frame_number := (v : Int), valid := false }).set p
      { frame_number := (v : Int), valid := true })[p]? =
      some { frame_number := (v : Int), valid := true } :=
    getElem?_set_self' _ _ (by rw [List.length_set]; exact hpl)
  -- a page-table entry other than those of `p` and `q` is untouched
  have hpt_old : ∀ (p' : Nat), p' ≠ p → p' ≠ q →
      ((s.page_table.set q { frame_number := (v : Int), valid := false }).set p
        { frame_number := (v : Int), valid := true })[p']? = s.page_table[p']? := by
    intro p' h1 h2
    rw [getElem?_set_ne' _ _ h1, getElem?_set_ne' _ _ h2]
  -- a valid TLB entry for a page other than `q` stays coherent
  have htlb_old : ∀ (i : Nat) (e' : TLBEntry), s.tlb[i]? = some e' → e'.valid = true →
      e'.page_number ≠ (q : Int) →
      0 ≤ e'.page_number ∧
      ((s.page_table.set q { frame_number := (v : Int), valid := false }).set p
        { frame_number := (v : Int), valid := true })[e'.page_number.toNat]? =
        some { frame_number := e'.frame_number, valid := true } ∧
      e'.time < s.tlb_counter ∧ e'.page_number ≠ (p : Int) := by
    intro i e' hi hv' hne
    obtain ⟨c1, c2, c3⟩ := h.tlb_coh i e' hi hv'
    have hnp : e'.page_number.toNat ≠ p := hvalid_ne _ _ c2 rfl
    refine ⟨c1, ?_, c3, by omega⟩
    rw [hpt_old _ hnp (by omega)]
    exact c2
  obtain ⟨h1, h2, h3, h4, h5, h6, h7, h8, h9, h10, h11, h12, h13, h14⟩ := h
  have hmem : (((s.page_table.set q { frame_number := (v : Int), valid := false }).set p
        { frame_number := (v : Int), valid := true }).length : Int) = s.page_table_size ∧
      ((s.physical_memory.set v
        { data := (s.backing_store.drop (p * s.frame_size.toNat)).take s.frame_size.toNat
          page_number := (p : Int)
          time := s.page_counter }).length : Int) = s.total_frames := by
    rw [List.length_set, List.length_set, List.length_set]
    exact ⟨h5, h6⟩
  refine ⟨h1, h2, h3, ?_, hmem.1, hmem.2, ?_, ?_, ?_, ?_, ?_, ?_, ?_, ?_⟩
  · show (victimTLB s p v q).1.length = TLB_SIZE
    rcases victimTLB_cases s p v q with ⟨hc, _⟩ | ⟨i, ei, _, _, _, _, hc⟩
    · rw [hc]; exact h4
    · rw [hc]; show (s.tlb.set i _).length = _
      rw [List.length_set]; exact h4
  · show 0 ≤ s.page_counter + 1
    omega
  · show s.next_frame = min (s.page_counter + 1) s.total_frames
    omega
  · intro f fr' hf hlt
    replace hf : (s.physical_memory.set v _)[f]? = some fr' := hf
    replace hlt : (f : Int) < s.next_frame := hlt
    show 0 ≤ fr'.page_number ∧
      ((s.page_table.set q _).set p _)[fr'.page_number.toNat]? = _ ∧
      readFromBackingStore (afterReplace s p v q) fr'.page_number = some fr'.data ∧
      0 ≤ fr'.time ∧ fr'.time % s.total_frames = (f : Int) ∧
      s.page_counter + 1 - s.total_frames ≤ fr'.time ∧ fr'.time < s.page_counter + 1
    rw [readFromBackingStore_congr (t := afterReplace s p v q) (s := s) rfl rfl]
    rcases getElem?_set_cases hf with ⟨hfe, rfl⟩ | ⟨hfe, hold⟩
    · refine ⟨by show (0 : Int) ≤ (p : Int); omega, ?_, ?_, ?_, ?_, ?_, ?_⟩
      · show ((s.page_table.set q _).set p _)[((p : Int)).toNat]? = _
        rw [Int.toNat_natCast, hptp, hfe]
      · exact readFromBackingStore_some h1 h3 p hp
      · show 0 ≤ s.page_counter
        omega
      · show s.page_counter % s.total_frames = (f : Int)
        rw [hfe, hvpc]
      · show s.page_counter + 1 - s.total_frames ≤ s.page_counter
        omega
      · show s.page_counter < s.page_counter + 1
        omega
    · obtain ⟨b1, b2, b3, b4, b5, b6, b7⟩ := h9 f fr' hold hlt
      have hlate := hother f fr' hold hfe
      refine ⟨b1, ?_, b3, b4, b5, by omega, by omega⟩
      have hnp : fr'.page_number.toNat ≠ p := hvalid_ne _ _ b2 rfl
      have hnq : fr'.page_number.toNat ≠ q := by
        intro e2
        rw [e2, a2] at b2
        injection b2 with b2
        injection b2 with b2
        omega
      rw [hpt_old _ hnp hnq]
      exact b2
  · intro f fr' hf hge
    replace hf : (s.physical_memory.set v _)[f]? = some fr' := hf
    replace hge : s.next_frame ≤ (f : Int) := hge
    rw [getElem?_set_ne' _ _ (by omega)] at hf
    exact h10 f fr' hf hge
  · intro p' e' hp' hv'
    replace hp' : ((s.page_table.set q _).set p _)[p']? = some e' := hp'
    show 0 ≤ e'.frame_number ∧ e'.frame_number < s.next_frame ∧
      ∃ fr', (s.physical_memory.set v _)[e'.frame_number.toNat]? = some fr' ∧
        fr'.page_number = (p' : Int)
    rcases getElem?_set_cases hp' with ⟨hpe, rfl⟩ | ⟨hpe, hp''⟩
    · have hnew : (s.physical_memory.set v
          { data := (s.backing_store.drop (p * s.frame_size.toNat)).take s.frame_size.toNat
            page_number := (p : Int)
            time := s.page_counter })[((v : Int)).toNat]? = some
          { data := (s.backing_store.drop (p * s.frame_size.toNat)).take s.frame_size.toNat
            page_number := (p : Int)
            time := s.page_counter } := by
        rw [Int.toNat_natCast]
        exact getElem?_set_self' _ _ hvl
      refine ⟨by show (0 : Int) ≤ (v : Int); omega, by show (v : Int) < s.next_frame; omega, _,
        hnew, ?_⟩
      show (p : Int) = (p' : Int)
      omega
    · rcases getElem?_set_cases hp'' with ⟨hqe, rfl⟩ | ⟨hqe, hold⟩
      · cases hv'
      · obtain ⟨b1, b2, fr', b3, b4⟩ := h11 p' e' hold hv'
        refine ⟨b1, b2, fr', ?_, b4⟩
        have hne : e'.frame_number.toNat ≠ v := by
          intro e2
          rw [e2, hfr] at b3
          injection b3 with b3
          rw [← b3, hq] at b4
          omega
        rw [getElem?_set_ne' _ _ hne]
        exact b3
  · intro i e' hi hv'
    replace hi : (victimTLB s p v q).1[i]? = some e' := hi
    show 0 ≤ e'.page_number ∧ ((s.page_table.set q _).set p _)[e'.page_number.toNat]? = _ ∧
      e'.time < (victimTLB s p v q).2
    rcases victimTLB_cases s p v q with ⟨hc, hnq⟩ | ⟨i0, ei, hei, hvi, hpi, _, hc⟩
    · rw [hc] at hi ⊢
      obtain ⟨c1, c2, c3, _⟩ := htlb_old i e' hi hv' (hnq i e' hi hv')
      exact ⟨c1, c2, c3⟩
    · rw [hc] at hi ⊢
      replace hi : (s.tlb.set i0 _)[i]? = some e' := hi
      show _ ∧ _ ∧ e'.time < s.tlb_counter + 1
      rcases getElem?_set_cases hi with ⟨hie, rfl⟩ | ⟨hie, hold⟩
      · refine ⟨by show (0 : Int) ≤ (p : Int); omega, ?_, ?_⟩
        · show ((s.page_table.set q _).set p _)[((p : Int)).toNat]? = _
          rw [Int.toNat_natCast, hptp]
        · show s.tlb_counter < s.tlb_counter + 1
          omega
      · have hne : e'.page_number ≠ (q : Int) := by
          intro e2
          exact hie (h13 i i0 e' ei hold hei hv' hvi (by rw [e2, hpi]))
        obtain ⟨c1, c2, c3, _⟩ := htlb_old i e' hold hv' hne
        exact ⟨c1, c2, by omega⟩
  · intro i j ei ej hi hj hvi hvj hpp
    replace hi : (victimTLB s p v q).1[i]? = some ei := hi
    replace hj : (victimTLB s p v q).1[j]? = some ej := hj
    rcases victimTLB_cases s p v q with ⟨hc, hnq⟩ | ⟨i0, e0, he0, hv0, hp0, _, hc⟩
    · rw [hc] at hi hj
      exact h13 i j ei ej hi hj hvi hvj hpp
    · rw [hc] at hi hj
      replace hi : (s.tlb.set i0 _)[i]? = some ei := hi
      replace hj : (s.tlb.set i0 _)[j]? = some ej := hj
      have hold_ne : ∀ (k : Nat) (ek : TLBEntry), k ≠ i0 → s.tlb[k]? = some ek →
          ek.valid = true → ek.page_number ≠ (p : Int) := by
        intro k ek hk hek hvk
        have hne : ek.page_number ≠ (q : Int) := by
          intro e2
          exact hk (h13 k i0 ek e0 hek he0 hvk hv0 (by rw [e2, hp0]))
        exact (htlb_old k ek hek hvk hne).2.2.2
      rcases getElem?_set_cases hi with ⟨hie, rfl⟩ | ⟨hie, holdi⟩
      · rcases getElem?_set_cases hj with ⟨hje, rfl⟩ | ⟨hje, holdj⟩
        · omega
        · exact absurd hpp.symm (hold_ne j ej hje holdj hvj)
      · rcases getElem?_set_cases hj with ⟨hje, rfl⟩ | ⟨hje, holdj⟩
        · exact absurd hpp (hold_ne i ei hie holdi hvi)
        · exact h13 i j ei ej holdi holdj hvi hvj hpp
  · intro i j ei ej hi hj hvi hvj htt
    replace hi : (victimTLB s p v q).1[i]? = some ei := hi
    replace hj : (victimTLB s p v q).1[j]? = some ej := hj
    rcases victimTLB_cases s p v q with ⟨hc, hnq⟩ | ⟨i0, e0, he0, hv0, hp0, _, hc⟩
    · rw [hc] at hi hj
      exact h14 i j ei ej hi hj hvi hvj htt
    · rw [hc] at hi hj
      replace hi : (s.tlb.set i0 _)[i]? = some ei := hi
      replace hj : (s.tlb.set i0 _)[j]? = some ej := hj
      rcases getElem?_set_cases hi with ⟨hie, rfl⟩ | ⟨hie, holdi⟩
      · rcases getElem?_set_cases hj with ⟨hje, rfl⟩ | ⟨hje, holdj⟩
        · omega
        · have := (h12 j ej holdj hvj).2.2
          replace htt : s.tlb_counter = ej.time := htt
          omega
      · rcases getElem?_set_cases hj with ⟨hje, rfl⟩ | ⟨hje, holdj⟩
        · have := (h12 i ei holdi hvi).2.2
          replace htt : ei.time = s.tlb_counter := htt
          omega
        · exact h14 i j ei ej holdi holdj hvi hvj htt

/-! ## One translation -/

/-- The three exits of `translateAddress`, with the updates of the statistics
counters made explicit. -/
theorem translateAddress_eq (s : MMUState) (a : Nat) :
    translateAddress s a =
      match checkTLB s (pageOf s a) with
      | some f =>
        (readByte s f (offsetOf s a)).bind fun data =>
          some ({ s with total_addresses := s.total_addresses + 1, tlb_hits := s.tlb_hits + 1 },
            Int.lor (f <<< s.offset_bits) (offsetOf s a), data)
      | none =>
        (checkPageTable s (pageOf s a)).bind fun hit =>
          match hit with
          | some f =>
            (readByte s f (offsetOf s a)).bind fun data =>
              some (updateTLB { s with total_addresses := s.total_addresses + 1 } (pageOf s a) f,
                Int.lor (f <<< s.offset_bits) (offsetOf s a), data)
          | none =>
            (loadPage { s with total_addresses := s.total_addresses + 1,
                               page_faults := s.page_faults + 1 } (pageOf s a)).bind fun r =>
              (readByte r.1 r.2 (offsetOf s a)).bind fun data =>
                some (updateTLB r.1 (pageOf s a) r.2,
                  Int.lor (r.2 <<< r.1.offset_bits) (offsetOf s a), data) := by
  rfl

/-- The page number of an address is a valid index of the page table. -/
theorem Inv.page_lt {s : MMUState} (h : Inv s) (a : Nat) :
    ∃ pn : Nat, pageOf s a = (pn : Int) ∧ (pn : Int) < s.page_table_size ∧
      pn < s.page_table.length := by
  obtain ⟨ob, hob, e1, e2, e3, e4⟩ := h.cfg
  have hpg := pageOf_eq s ob e1 hob (by rw [e2, e1]; omega) a
  have hlt : (((a / 2 ^ ob % 2 ^ (16 - ob) : Nat)) : Int) < s.page_table_size := by
    rw [e4]
    exact_mod_cast Nat.mod_lt _ (Nat.two_pow_pos _)
  refine ⟨_, hpg, hlt, ?_⟩
  have := h.pt_len
  omega

/-- On a page that is not valid in the page table, `loadPage` returns: either
by the free-frame branch or by `replacePage`; the invariant holds afterwards
and the page table maps the page to the returned frame. -/
theorem loadPage_spec {s : MMUState} (h : Inv s) (p : Nat)
    (hp : (p : Int) < s.page_table_size)
    (e : PageTableEntry) (he : s.page_table[p]? = some e) (hev : e.valid = false) :
    ∃ (s2 : MMUState) (f : Int), loadPage s (p : Int) = some (s2, f) ∧ Inv s2 ∧
      s2.page_table[p]? = some { frame_number := f, valid := true } ∧ SameCfg s s2 ∧
      ((s.next_frame < s.total_frames ∧ s2 = afterLoad s p ∧ f = s.next_frame) ∨
       (¬ s.next_frame < s.total_frames ∧ ∃ (q : Nat) (fr : Frame),
          s.physical_memory[oldestIndex (s.physical_memory.map (fun f => f.time))]? = some fr ∧
          fr.page_number = (q : Int) ∧
          s2 = afterReplace s p (oldestIndex (s.physical_memory.map (fun f => f.time))) q ∧
          f = ((oldestIndex (s.physical_memory.map (fun f => f.time)) : Nat) : Int))) := by
  have hpl : p < s.page_table.length := by
    have := h.pt_len
    omega
  by_cases hnf : s.next_frame < s.total_frames
  · refine ⟨afterLoad s p, s.next_frame, loadPage_free h p hp hnf,
      inv_afterLoad h p hp hnf e he hev, ?_, ?_, Or.inl ⟨hnf, rfl, rfl⟩⟩
    · exact getElem?_set_self' _ _ hpl
    · exact ⟨rfl, rfl, rfl, rfl, rfl, rfl, rfl, rfl, rfl, rfl⟩
  · obtain ⟨q, fr, hfr, hq, hrep⟩ := replacePage_full h p hp hnf
    refine ⟨_, _, ?_, inv_afterReplace h p hp hnf e he hev q fr hfr hq, ?_, ?_,
      Or.inr ⟨hnf, q, fr, hfr, hq, rfl, rfl⟩⟩
    · unfold loadPage
      rw [if_neg hnf]
      exact hrep
    · exact getElem?_set_self' _ _ (by rw [List.length_set]; exact hpl)
    · exact ⟨rfl, rfl, rfl, rfl, rfl, rfl, rfl, rfl, rfl, rfl⟩

theorem Inv.store_get {s : MMUState} (h : Inv s) (a : Nat) (ha : a < 65536) :
    ∃ b, s.backing_store[a]? = some b := by
  have := h.store
  exact ⟨_, List.getElem?_eq_getElem (by omega)⟩

/-- A TLB hit: only the two counters change, and the byte is the byte of the
backing store at the logical address. -/
theorem translateAddress_tlb_hit {s : MMUState} (h : Inv s) (a : Nat) (ha : a < 65536)
    (f : Int) (hc : checkTLB s (pageOf s a) = some f) :
    ∃ b, s.backing_store[a]? = some b ∧
      s.page_table[(pageOf s a).toNat]? = some { frame_number := f, valid := true } ∧
      translateAddress s a =
        some ({ s with total_addresses := s.total_addresses + 1, tlb_hits := s.tlb_hits + 1 },
          Int.lor (f <<< s.offset_bits) (offsetOf s a), b) := by
  obtain ⟨b, hb⟩ := h.store_get a ha
  obtain ⟨j, e, hj, hv, hp, hf⟩ := checkTLB_eq_some hc
  obtain ⟨_, hpt, _⟩ := h.tlb_coh j e hj hv
  rw [hp, hf] at hpt
  refine ⟨b, hb, hpt, ?_⟩
  rw [translateAddress_eq, hc]
  simp only [readByte_loaded h a ha f hpt, hb, Option.some_bind]

/-- A page-table hit: the TLB is updated, the counters of hits and faults are
not, and the byte is the byte of the backing store at the logical address. -/
theorem translateAddress_pt_hit {s : MMUState} (h : Inv s) (a : Nat) (ha : a < 65536)
    (hc : checkTLB s (pageOf s a) = none) (f : Int)
    (hpt : s.page_table[(pageOf s a).toNat]? = some { frame_number := f, valid := true }) :
    ∃ b, s.backing_store[a]? = some b ∧
      translateAddress s a =
        some (updateTLB { s with total_addresses := s.total_addresses + 1 } (pageOf s a) f,
          Int.lor (f <<< s.offset_bits) (offsetOf s a), b) := by
  obtain ⟨b, hb⟩ := h.store_get a ha
  obtain ⟨pn, hpn, _, _⟩ := h.page_lt a
  refine ⟨b, hb, ?_⟩
  rw [translateAddress_eq, hc]
  have hcp : checkPageTable s (pageOf s a) = some (some f) := by
    unfold checkPageTable
    rw [arrGet_of_nonneg _ (by omega), hpt]
    rfl
  simp only [hcp, readByte_loaded h a ha f hpt, hb, Option.some_bind]

/-- A page fault: `loadPage` runs on the state with both counters incremented,
then the TLB is updated; the byte is the byte of the backing store at the
logical address. -/
theorem translateAddress_fault {s : MMUState} (h : Inv s) (a : Nat) (ha : a < 65536)
    (hc : checkTLB s (pageOf s a) = none) (e : PageTableEntry)
    (he : s.page_table[(pageOf s a).toNat]? = some e) (hev : e.valid = false) :
    ∃ (b : UInt8) (s2 : MMUState) (f : Int), s.backing_store[a]? = some b ∧
      loadPage { s with total_addresses := s.total_addresses + 1,
                        page_faults := s.page_faults + 1 } (pageOf s a) = some (s2, f) ∧
      Inv s2 ∧
      s2.page_table[(pageOf s a).toNat]? = some { frame_number := f, valid := true } ∧
      translateAddress s a =
        some (updateTLB s2 (pageOf s a) f, Int.lor (f <<< s.offset_bits) (offsetOf s a), b) := by
  obtain ⟨b, hb⟩ := h.store_get a ha
  obtain ⟨pn, hpn, hplt, _⟩ := h.page_lt a
  have h1 : Inv { s with total_addresses := s.total_addresses + 1,
                         page_faults := s.page_faults + 1 } :=
    h.setCounters s.tlb_hits (s.page_faults + 1) (s.total_addresses + 1)
  rw [hpn, Int.toNat_natCast] at he
  obtain ⟨s2, f, hload, hinv2, hpt2, hsame, _⟩ := loadPage_spec h1 pn hplt e he hev
  obtain ⟨c1, c2, c3, c4, c5, c6, c7, c8, c9, c10⟩ := hsame
  replace c1 : s2.backing_store = s.backing_store := c1
  replace c2 : s2.page_bits = s.page_bits := c2
  replace c4 : s2.offset_bits = s.offset_bits := c4
  have hpg2 : pageOf s2 a = pageOf s a := by
    unfold pageOf
    rw [c2, c4]
  have hof2 : offsetOf s2 a = offsetOf s a := by
    unfold offsetOf
    rw [c4]
  have hpt2' : s2.page_table[(pageOf s2 a).toNat]? =
      some { frame_number := f, valid := true } := by
    rw [hpg2, hpn, Int.toNat_natCast]
    exact hpt2
  have hrb := readByte_loaded hinv2 a ha f hpt2'
  rw [hof2, c1, hb] at hrb
  refine ⟨b, s2, f, hb, ?_, hinv2, ?_, ?_⟩
  · rw [hpn]; exact hload
  · rw [hpn, Int.toNat_natCast]; exact hpt2
  · rw [translateAddress_eq, hc]
    have hcp : checkPageTable s (pageOf s a) = some none := by
      unfold checkPageTable
      rw [hpn, arrGet_natCast, he]
      simp [hev]
    rw [hpn] at hcp ⊢
    simp only [hcp, Option.some_bind, hload, hrb, c4]

/-- Every translation of a 16-bit address returns, keeps the invariant, and
returns the byte of the backing store at the logical address. -/
theorem inv_translateAddress {s : MMUState} (h : Inv s) (a : Nat) (ha : a < 65536) :
    ∃ (s' : MMUState) (pa : Int) (b : UInt8), translateAddress s a = some (s', pa, b) ∧
      Inv s' ∧ s.backing_store[a]? = some b ∧ s'.backing_store = s.backing_store ∧
      s'.offset_bits = s.offset_bits ∧ s'.page_bits = s.page_bits ∧
      s'.total_frames = s.total_frames := by
  obtain ⟨pn, hpn, hplt, hpl⟩ := h.page_lt a
  cases hc : checkTLB s (pageOf s a) with
  | some f =>
    obtain ⟨b, hb, _, ht⟩ := translateAddress_tlb_hit h a ha f hc
    exact ⟨_, _, b, ht, h.setCounters _ _ _, hb, rfl, rfl, rfl, rfl⟩
  | none =>
    obtain ⟨e, he⟩ := h.pt_get pn hplt
    have he' : s.page_table[(pageOf s a).toNat]? = some e := by
      rw [hpn, Int.toNat_natCast]; exact he
    cases hev : e.valid with
    | true =>
      have hpt : s.page_table[(pageOf s a).toNat]? =
          some { frame_number := e.frame_number, valid := true } := by
        rw [he', ← hev]
      obtain ⟨b, hb, ht⟩ := translateAddress_pt_hit h a ha hc e.frame_number hpt
      have h1 : Inv { s with total_addresses := s.total_addresses + 1 } :=
        h.setCounters s.tlb_hits s.page_faults (s.total_addresses + 1)
      have hinv := inv_updateTLB h1 (pageOf s a) e.frame_number (by omega) hpt
      obtain ⟨i0, _, heq, _⟩ := updateTLB_set { s with total_addresses := s.total_addresses + 1 }
        (pageOf s a) e.frame_number h1.tlb_ne h1.tlb_inj
      refine ⟨_, _, b, ht, hinv, hb, ?_, ?_, ?_, ?_⟩ <;> rw [heq]
    | false =>
      obtain ⟨b, s2, f, hb, hload, hinv2, hpt2, ht⟩ := translateAddress_fault h a ha hc e he' hev
      have hinv := inv_updateTLB hinv2 (pageOf s a) f (by omega) hpt2
      obtain ⟨i0, _, heq, _⟩ := updateTLB_set s2 (pageOf s a) f hinv2.tlb_ne hinv2.tlb_inj
      have h1 : Inv { s with total_addresses := s.total_addresses + 1,
                             page_faults := s.page_faults + 1 } :=
        h.setCounters s.tlb_hits (s.page_faults + 1) (s.total_addresses + 1)
      rw [hpn] at hload
      obtain ⟨s2', f', hload', _, _, hsame, _⟩ := loadPage_spec h1 pn hplt e he hev
      rw [hload] at hload'
      injection hload' with hload'
      injection hload' with hs2 hf2
      subst hs2
      obtain ⟨c1, c2, c3, c4, c5, c6, c7, c8, c9, c10⟩ := hsame
      refine ⟨_, _, b, ht, hinv, hb, ?_, ?_, ?_, ?_⟩ <;> rw [heq]
      · exact c1
      · exact c4
      · exact c2
      · exact c7

/-- The four ways a translation resolves in a state that satisfies the
invariant, each with the exact resulting state: TLB hit, page-table hit,
page fault served by a free frame, page fault served by `replacePage`. -/
theorem translateAddress_cases {s : MMUState} (h : Inv s) (a : Nat) (ha : a < 65536) :
    ∃ (pn : Nat) (b : UInt8), pageOf s a = (pn : Int) ∧ (pn : Int) < s.page_table_size ∧
      s.backing_store[a]? = some b ∧
      ((∃ f : Int, checkTLB s (pn : Int) = some f ∧
          s.page_table[pn]? = some { frame_number := f, valid := true } ∧
          translateAddress s a =
            some ({ s with total_addresses := s.total_addresses + 1,
                           tlb_hits := s.tlb_hits + 1 },
              Int.lor (f <<< s.offset_bits) (offsetOf s a), b)) ∨
       (∃ f : Int, checkTLB s (pn : Int) = none ∧
          s.page_table[pn]? = some { frame_number := f, valid := true } ∧
          translateAddress s a =
            some (updateTLB { s with total_addresses := s.total_addresses + 1 } (pn : Int) f,
              Int.lor (f <<< s.offset_bits) (offsetOf s a), b)) ∨
       (∃ e : PageTableEntry, checkTLB s (pn : Int) = none ∧
          s.page_table[pn]? = some e ∧ e.valid = false ∧ s.next_frame < s.total_frames ∧
          translateAddress s a =
            some (updateTLB
                (afterLoad { s with total_addresses := s.total_addresses + 1,
                                    page_faults := s.page_faults + 1 } pn)
                (pn : Int) s.next_frame,
              Int.lor (s.next_frame <<< s.offset_bits) (offsetOf s a), b)) ∨
       (∃ (e : PageTableEntry) (q : Nat) (fr : Frame), checkTLB s (pn : Int) = none ∧
          s.page_table[pn]? = some e ∧ e.valid = false ∧ ¬ s.next_frame < s.total_frames ∧
          s.physical_memory[oldestIndex (s.physical_memory.map (fun f => f.time))]? = some fr ∧
          fr.page_number = (q : Int) ∧
          translateAddress s a =
            some (updateTLB
                (afterReplace { s with total_addresses := s.total_addresses + 1,
                                       page_faults := s.page_faults + 1 } pn
                  (oldestIndex (s.physical_memory.map (fun f => f.time))) q)
                (pn : Int)
                ((oldestIndex (s.physical_memory.map (fun f => f.time)) : Nat) : Int),
              Int.lor (((oldestIndex (s.physical_memory.map (fun f => f.time)) : Nat) : Int)
                <<< s.offset_bits) (offsetOf s a), b))) := by
  obtain ⟨pn, hpn, hplt, hpl⟩ := h.page_lt a
  obtain ⟨b, hb⟩ := h.store_get a ha
  refine ⟨pn, b, hpn, hplt, hb, ?_⟩
  cases hc : checkTLB s (pageOf s a) with
  | some f =>
    obtain ⟨b', hb', hpt, ht⟩ := translateAddress_tlb_hit h a ha f hc
    rw [hb] at hb'
    injection hb' with hb'
    subst hb'
    rw [hpn, Int.toNat_natCast] at hpt
    rw [hpn] at hc
    exact Or.inl ⟨f, hc, hpt, ht⟩
  | none =>
    obtain ⟨e, he⟩ := h.pt_get pn hplt
    have he' : s.page_table[(pageOf s a).toNat]? = some e := by
      rw [hpn, Int.toNat_natCast]; exact he
    cases hev : e.valid with
    | true =>
      have hpt : s.page_table[(pageOf s a).toNat]? =
          some { frame_number := e.frame_number, valid := true } := by
        rw [he', ← hev]
      obtain ⟨b', hb', ht⟩ := translateAddress_pt_hit h a ha hc e.frame_number hpt
      rw [hb] at hb'
      injection hb' with hb'
      subst hb'
      rw [hpn, Int.toNat_natCast] at hpt
      rw [hpn] at hc ht
      exact Or.inr (Or.inl ⟨e.frame_number, hc, hpt, ht⟩)
    | false =>
      obtain ⟨b', s2, f, hb', hload, hinv2, hpt2, ht⟩ :=
        translateAddress_fault h a ha hc e he' hev
      rw [hb] at hb'
      injection hb' with hb'
      subst hb'
      have h1 : Inv { s with total_addresses := s.total_addresses + 1,
                             page_faults := s.page_faults + 1 } :=
        h.setCounters s.tlb_hits (s.page_faults + 1) (s.total_addresses + 1)
      rw [hpn] at hload hc ht
      obtain ⟨s2', f', hload', _, _, _, hcases⟩ := loadPage_spec h1 pn hplt e he hev
      rw [hload] at hload'
      injection hload' with hload'
      injection hload' with hs2 hf2
      subst hs2 hf2
      rcases hcases with ⟨hnf, hs2, hf⟩ | ⟨hnf, q, fr, hfr, hq, hs2, hf⟩
      · rw [hs2, hf] at ht
        exact Or.inr (Or.inr (Or.inl ⟨e, hc, he, hev, hnf, ht⟩))
      · rw [hs2, hf] at ht
        exact Or.inr (Or.inr (Or.inr ⟨e, q, fr, hc, he, hev, hnf, hfr, hq, ht⟩))

/-! ## Runs -/

/-- A run over 16-bit addresses never stops early and keeps the invariant and
the configuration. -/
theorem inv_run {s : MMUState} (h : Inv s) (addrs : List Nat)
    (hadr : ∀ a ∈ addrs, a < 65536) :
    ∃ s', run s addrs = some s' ∧ Inv s' ∧ s'.backing_store = s.backing_store ∧
      s'.offset_bits = s.offset_bits ∧ s'.page_bits = s.page_bits ∧
      s'.total_frames = s.total_frames := by
  induction addrs generalizing s with
  | nil => exact ⟨s, rfl, h, rfl, rfl, rfl, rfl⟩
  | cons a rest ih =>
    obtain ⟨s1, pa, b, ht, hinv1, _, c1, c2, c3, c4⟩ :=
      inv_translateAddress h a (hadr a (List.mem_cons_self _ _))
    obtain ⟨s', hr, hinv', d1, d2, d3, d4⟩ :=
      ih hinv1 (fun x hx => hadr x (List.mem_cons_of_mem _ hx))
    refine ⟨s', ?_, hinv', by rw [d1, c1], by rw [d2, c2], by rw [d3, c3], by rw [d4, c4]⟩
    show (translateAddress s a).bind (fun r => run r.1 rest) = some s'
    rw [ht]
    exact hr

/-- Every reachable state satisfies the invariant and keeps the configuration
given to `initializeSystem`. -/
theorem Reachable.inv {B : List UInt8} {fb tf : Int} {s : MMUState}
    (h0 : 0 ≤ fb) (h16 : fb ≤ 16) (htf : 1 ≤ tf) (hB : 65536 ≤ B.length)
    (hr : Reachable B fb tf s) :
    Inv s ∧ s.backing_store = B ∧ s.offset_bits = fb ∧ s.page_bits = 16 - fb ∧
      s.total_frames = tf := by
  obtain ⟨addrs, hadr, hrun⟩ := hr
  obtain ⟨s', hr', hinv, c1, c2, c3, c4⟩ :=
    inv_run (inv_initializeSystem B fb tf h0 h16 htf hB) addrs hadr
  rw [hrun] at hr'
  injection hr' with hr'
  subst hr'
  exact ⟨hinv, c1, c2, c3, c4⟩

theorem reachable_run {B : List UInt8} {fb tf : Int} (h0 : 0 ≤ fb) (h16 : fb ≤ 16)
    (htf : 1 ≤ tf) (hB : 65536 ≤ B.length) (addrs : List Nat)
    (hadr : ∀ a ∈ addrs, a < 65536) :
    ∃ s, run (initializeSystem B fb tf) addrs = some s ∧ Reachable B fb tf s := by
  obtain ⟨s', hr', _⟩ := inv_run (inv_initializeSystem B fb tf h0 h16 htf hB) addrs hadr
  exact ⟨s', hr', addrs, hadr, hr'⟩

/-! ## Fields `updateTLB` leaves alone -/

@[simp]
theorem updateTLB_page_table (s : MMUState) (p f : Int) :
    (updateTLB s p f).page_table = s.page_table := by
  unfold updateTLB
  split
  · rfl
  · split <;> rfl

@[simp]
theorem updateTLB_physical_memory (s : MMUState) (p f : Int) :
    (updateTLB s p f).physical_memory = s.physical_memory := by
  unfold updateTLB
  split
  · rfl
  · split <;> rfl

@[simp]
theorem updateTLB_backing_store (s : MMUState) (p f : Int) :
    (updateTLB s p f).backing_store = s.backing_store := by
  unfold updateTLB
  split
  · rfl
  · split <;> rfl

@[simp]
theorem updateTLB_page_bits (s : MMUState) (p f : Int) :
    (updateTLB s p f).page_bits = s.page_bits := by
  unfold updateTLB
  split
  · rfl
  · split <;> rfl

@[simp]
theorem updateTLB_frame_bits (s : MMUState) (p f : Int) :
    (updateTLB s p f).frame_bits = s.frame_bits := by
  unfold updateTLB
  split
  · rfl
  · split <;> rfl

@[simp]
theorem updateTLB_offset_bits (s : MMUState) (p f : Int) :
    (updateTLB s p f).offset_bits = s.offset_bits := by
  unfold updateTLB
  split
  · rfl
  · split <;> rfl

@[simp]
theorem updateTLB_page_table_size (s : MMUState) (p f : Int) :
    (updateTLB s p f).page_table_size = s.page_table_size := by
  unfold updateTLB
  split
  · rfl
  · split <;> rfl

@[simp]
theorem updateTLB_frame_size (s : MMUState) (p f : Int) :
    (updateTLB s p f).frame_size = s.frame_size := by
  unfold updateTLB
  split
  · rfl
  · split <;> rfl

@[simp]
theorem updateTLB_total_frames (s : MMUState) (p f : Int) :
    (updateTLB s p f).total_frames = s.total_frames := by
  unfold updateTLB
  split
  · rfl
  · split <;> rfl

@[simp]
theorem updateTLB_tlb_hits (s : MMUState) (p f : Int) :
    (updateTLB s p f).tlb_hits = s.tlb_hits := by
  unfold updateTLB
  split
  · rfl
  · split <;> rfl

@[simp]
theorem updateTLB_page_faults (s : MMUState) (p f : Int) :
    (updateTLB s p f).page_faults = s.page_faults := by
  unfold updateTLB
  split
  · rfl
  · split <;> rfl

@[simp]
theorem updateTLB_total_addresses (s : MMUState) (p f : Int) :
    (updateTLB s p f).total_addresses = s.total_addresses := by
  unfold updateTLB
  split
  · rfl
  · split <;> rfl

@[simp]
theorem updateTLB_next_frame (s : MMUState) (p f : Int) :
    (updateTLB s p f).next_frame = s.next_frame := by
  unfold updateTLB
  split
  · rfl
  · split <;> rfl

@[simp]
theorem updateTLB_page_counter (s : MMUState) (p f : Int) :
    (updateTLB s p f).page_counter = s.page_counter := by
  unfold updateTLB
  split
  · rfl
  · split <;> rfl

@[simp]
theorem updateTLB_tlb_counter (s : MMUState) (p f : Int) :
    (updateTLB s p f).tlb_counter = s.tlb_counter + 1 := by
  unfold updateTLB
  split
  · rfl
  · split <;> rfl

@[simp]
theorem updateTLB_tlb_length (s : MMUState) (p f : Int) :
    (updateTLB s p f).tlb.length = s.tlb.length := by
  unfold updateTLB
  split
  · exact length_modifyNth _ _ _
  · split
    · exact length_modifyNth _ _ _
    · exact length_modifyNth _ _ _

/-! ## A concrete store and run, used to instantiate the theorems -/

theorem storeFrom_length (n i : Nat) : (storeFrom n i).length = n := by
  induction n generalizing i with
  | zero => rfl
  | succ n ih => simp [storeFrom, ih]

theorem exampleStore_length : 65536 ≤ exampleStore.length := by
  unfold exampleStore
  rw [storeFrom_length]

theorem eq_some_getD_of_isSome {α : Type} (o : Option α) (d : α) (h : o.isSome = true) :
    o = some (o.getD d) := by
  cases o with
  | none => cases h
  | some x => rfl

set_option maxRecDepth 100000 in
theorem exampleState_reachable : Reachable exampleStore 8 2 exampleState :=
  ⟨[0, 256, 512], by decide, eq_some_getD_of_isSome _ _ (by decide)⟩

/-! ## The statistics counters -/

/-- One translation in a state that satisfies the invariant: `total_addresses`
grows by one, and exactly one of three things happens to the other two
counters, according to the stage that resolves the address. -/
theorem translateAddress_counters_step {s : MMUState} (h : Inv s) (a : Nat) (ha : a < 65536) :
    ∃ (s' : MMUState) (pa : Int) (b : UInt8), translateAddress s a = some (s', pa, b) ∧
      Inv s' ∧ s'.total_addresses = s.total_addresses + 1 ∧
      ((∃ f, checkTLB s (pageOf s a) = some f ∧
          s'.tlb_hits = s.tlb_hits + 1 ∧ s'.page_faults = s.page_faults) ∨
       (∃ f, checkTLB s (pageOf s a) = none ∧ checkPageTable s (pageOf s a) = some (some f) ∧
          s'.tlb_hits = s.tlb_hits ∧ s'.page_faults = s.page_faults) ∨
       (checkTLB s (pageOf s a) = none ∧ checkPageTable s (pageOf s a) = some none ∧
          s'.tlb_hits = s.tlb_hits ∧ s'.page_faults = s.page_faults + 1)) := by
  obtain ⟨s', pa, b, ht, hinv', _⟩ := inv_translateAddress h a ha
  refine ⟨s', pa, b, ht, hinv', ?_⟩
  obtain ⟨pn, b', hpn, _, _, hcases⟩ := translateAddress_cases h a ha
  rw [hpn]
  rcases hcases with ⟨f, hc, hpt, ht'⟩ | ⟨f, hc, hpt, ht'⟩ | ⟨e, hc, he, hev, hnf, ht'⟩ |
    ⟨e, q, fr, hc, he, hev, hnf, _, _, ht'⟩
  · rw [ht] at ht'
    injection ht' with ht'
    injection ht' with hs _
    subst hs
    exact ⟨rfl, Or.inl ⟨f, hc, rfl, rfl⟩⟩
  · rw [ht] at ht'
    injection ht' with ht'
    injection ht' with hs _
    subst hs
    refine ⟨by simp, Or.inr (Or.inl ⟨f, hc, ?_, by simp, by simp⟩)⟩
    unfold checkPageTable
    rw [arrGet_natCast, hpt]
    rfl
  · rw [ht] at ht'
    injection ht' with ht'
    injection ht' with hs _
    subst hs
    refine ⟨by simp [afterLoad], Or.inr (Or.inr ⟨hc, ?_, by simp [afterLoad],
      by simp [afterLoad]⟩)⟩
    unfold checkPageTable
    rw [arrGet_natCast, he]
    simp [hev]
  · rw [ht] at ht'
    injection ht' with ht'
    injection ht' with hs _
    subst hs
    refine ⟨by simp [afterReplace], Or.inr (Or.inr ⟨hc, ?_, by simp [afterReplace],
      by simp [afterReplace]⟩)⟩
    unfold checkPageTable
    rw [arrGet_natCast, he]
    simp [hev]

/-- Along a run the counters never decrease, `total_addresses` counts the
translations, and hits plus faults grow by at most the number of translations. -/
theorem run_counters {s : MMUState} (h : Inv s) (addrs : List Nat)
    (hadr : ∀ a ∈ addrs, a < 65536) (s' : MMUState) (hrun : run s addrs = some s') :
    s'.total_addresses = s.total_addresses + addrs.length ∧
    s.tlb_hits ≤ s'.tlb_hits ∧ s.page_faults ≤ s'.page_faults ∧
    s'.tlb_hits + s'.page_faults ≤ s.tlb_hits + s.page_faults + addrs.length := by
  induction addrs generalizing s with
  | nil =>
    injection hrun with hrun
    subst hrun
    simp
  | cons a rest ih =>
    obtain ⟨s1, pa, b, ht, hinv1, htot, hcases⟩ :=
      translateAddress_counters_step h a (hadr a (List.mem_cons_self _ _))
    replace hrun : (translateAddress s a).bind (fun r => run r.1 rest) = some s' := hrun
    rw [ht] at hrun
    obtain ⟨i1, i2, i3, i4⟩ := ih hinv1 (fun x hx => hadr x (List.mem_cons_of_mem _ hx)) hrun
    simp only [List.length_cons, Nat.cast_add, Nat.cast_one]
    rcases hcases with ⟨f, _, c1, c2⟩ | ⟨f, _, _, c1, c2⟩ | ⟨_, _, c1, c2⟩ <;>
      refine ⟨?_, ?_, ?_, ?_⟩ <;> omega

/-! ## The frame cursor and the load counter -/

/-- One translation moves `page_counter` exactly as it moves `page_faults`, and
never moves it back. -/
theorem translateAddress_page_counter {s : MMUState} (h : Inv s) (a : Nat) (ha : a < 65536)
    (s' : MMUState) (pa : Int) (b : UInt8) (ht : translateAddress s a = some (s', pa, b)) :
    s'.page_counter - s.page_counter = s'.page_faults - s.page_faults ∧
    s.page_counter ≤ s'.page_counter ∧ s.next_frame ≤ s'.next_frame := by
  obtain ⟨pn, b', hpn, _, _, hcases⟩ := translateAddress_cases h a ha
  rcases hcases with ⟨f, hc, hpt, ht'⟩ | ⟨f, hc, hpt, ht'⟩ | ⟨e, hc, he, hev, hnf, ht'⟩ |
    ⟨e, q, fr, hc, he, hev, hnf, _, _, ht'⟩ <;>
  · rw [ht] at ht'
    injection ht' with ht'
    injection ht' with hs _
    subst hs
    simp [afterLoad, afterReplace]

theorem run_page_counter {s : MMUState} (h : Inv s) (addrs : List Nat)
    (hadr : ∀ a ∈ addrs, a < 65536) (s' : MMUState) (hrun : run s addrs = some s') :
    s'.page_counter - s.page_counter = s'.page_faults - s.page_faults ∧
    s.page_counter ≤ s'.page_counter ∧ s.next_frame ≤ s'.next_frame := by
  induction addrs generalizing s with
  | nil =>
    injection hrun with hrun
    subst hrun
    simp
  | cons a rest ih =>
    obtain ⟨s1, pa, b, ht, hinv1, _⟩ :=
      inv_translateAddress h a (hadr a (List.mem_cons_self _ _))
    obtain ⟨k1, k2, k3⟩ :=
      translateAddress_page_counter h a (hadr a (List.mem_cons_self _ _)) s1 pa b ht
    replace hrun : (translateAddress s a).bind (fun r => run r.1 rest) = some s' := hrun
    rw [ht] at hrun
    obtain ⟨i1, i2, i3⟩ := ih hinv1 (fun x hx => hadr x (List.mem_cons_of_mem _ hx)) hrun
    refine ⟨?_, ?_, ?_⟩ <;> omega

/-- The frame `loadPage` returns is `next_frame` by the free-frame branch, or
the frame `replacePage` returns when no frame is free. -/
theorem loadPage_frame {t : MMUState} {p : Int} {s2 : MMUState} {f : Int}
    (h : loadPage t p = some (s2, f)) :
    (t.next_frame < t.total_frames ∧ f = t.next_frame) ∨
    (¬ t.next_frame < t.total_frames ∧ replacePage t p = some (s2, f)) := by
  unfold loadPage at h
  split at h
  · rename_i hlt
    left
    simp only [Option.bind_eq_some] at h
    obtain ⟨_, _, _, _, _, _, h⟩ := h
    injection h with h
    injection h with _ h
    exact ⟨hlt, h.symm⟩
  · rename_i hlt
    exact Or.inr ⟨hlt, h⟩

/-- The frame `replacePage` returns is an index of the frame array. -/
theorem replacePage_frame {t : MMUState} {p : Int} {s2 : MMUState} {f : Int}
    (h : replacePage t p = some (s2, f)) :
    0 ≤ f ∧ f < (t.physical_memory.length : Int) := by
  unfold replacePage at h
  split at h
  · cases h
  · rename_i fr rest heq
    simp only [Option.bind_eq_some] at h
    obtain ⟨_, _, _, _, _, _, _, _, h⟩ := h
    injection h with h
    injection h with _ h
    have hlt := oldestIndex_lt (t.physical_memory.map (fun f => f.time))
      (by rw [heq]; simp)
    rw [List.length_map] at hlt
    rw [← h]
    omega

/-- The function `updateTLB` keeps the valid pages of the TLB pairwise distinct, in any
state. -/
theorem updateTLB_distinct (t : MMUState) (p f : Int) (hd : TLBDistinct t.tlb) :
    TLBDistinct (updateTLB t p f).tlb := by
  by_cases hne : t.tlb = []
  · have h1 : t.tlb.findIdx? (fun e => e.valid && e.page_number == p) = none := by
      rw [hne]; rfl
    have h2 : t.tlb.findIdx? (fun e => !e.valid) = none := by
      rw [hne]; rfl
    intro i j ei ej hi
    unfold updateTLB at hi
    simp only [h1, h2, hne, modifyNth] at hi
    simp at hi
  · obtain ⟨i0, _, heq, huniq⟩ := updateTLB_set t p f hne hd
    rw [heq]
    intro i j ei ej hi hj hvi hvj hpp
    replace hi : (t.tlb.set i0 _)[i]? = some ei := hi
    replace hj : (t.tlb.set i0 _)[j]? = some ej := hj
    rcases getElem?_set_cases hi with ⟨hi0, rfl⟩ | ⟨hi0, holdi⟩
    · rcases getElem?_set_cases hj with ⟨hj0, rfl⟩ | ⟨hj0, holdj⟩
      · omega
      · exact absurd (huniq j ej holdj hvj hpp.symm) hj0
    · rcases getElem?_set_cases hj with ⟨hj0, rfl⟩ | ⟨hj0, holdj⟩
      · exact absurd (huniq i ei holdi hvi hpp) hi0
      · exact hd i j ei ej holdi holdj hvi hvj hpp

/-! ## Filling the empty TLB -/

theorem findIdx?_eq_some_of_get {α : Type} {xs : List α} {p : α → Bool} {i : Nat} {a : α}
    (ha : xs[i]? = some a) (hp : p a = true)
    (hlt : ∀ (j : Nat) (b : α), j < i → xs[j]? = some b → p b = false) :
    xs.findIdx? p = some i := by
  rw [List.findIdx?_eq_some_iff_getElem]
  have hi : i < xs.length := by
    rcases Nat.lt_or_ge i xs.length with h | h
    · exact h
    · rw [List.getElem?_eq_none h] at ha; cases ha
  refine ⟨hi, ?_, ?_⟩
  · rw [List.getElem?_eq_getElem hi] at ha
    injection ha with ha
    rw [ha]; exact hp
  · intro j hj
    have := hlt j _ hj (List.getElem?_eq_getElem (Nat.lt_trans hj hi))
    simp [this]

theorem filled_init (B : List UInt8) (fb tf : Int) : Filled [] (initializeSystem B fb tf) := by
  refine ⟨by simp [initializeSystem, TLB_SIZE], rfl, ?_, ?_⟩
  · intro i p f h
    simp at h
  · intro i _ hi
    simp only [initializeSystem, TLB_SIZE]
    rw [List.getElem?_replicate, if_pos hi]

/-- A valid entry of a filled TLB is one of the pairs. -/
theorem Filled.valid_entry {es : List (Int × Int)} {s : MMUState} (h : Filled es s)
    {j : Nat} {e : TLBEntry} (hj : s.tlb[j]? = some e)
    (hv : e.valid = true) :
    es[j]? = some (e.page_number, e.frame_number) ∧ e.time = (j : Int) := by
  obtain ⟨h1, h2, h3, h4⟩ := h
  have hj16 : j < 16 := by
    rcases Nat.lt_or_ge j s.tlb.length with hl | hl
    · omega
    · rw [List.getElem?_eq_none hl] at hj; cases hj
  rcases Nat.lt_or_ge j es.length with hl | hl
  · have hes := List.getElem?_eq_getElem hl
    generalize es[j] = pf at hes
    obtain ⟨p, f⟩ := pf
    have := h3 j p f hes
    rw [hj] at this
    injection this with this
    subst this
    exact ⟨hes, rfl⟩
  · have := h4 j hl hj16
    rw [hj] at this
    injection this with this
    subst this
    cases hv

/-- Inserting a page that is absent into a filled TLB with a free slot fills the
next slot. -/
theorem filled_step {es : List (Int × Int)} {s : MMUState} (h : Filled es s)
    (hlt : es.length < 16) (p f : Int) (hp : ∀ x ∈ es, x.1 ≠ p) :
    Filled (es ++ [(p, f)]) (updateTLB s p f) := by
  have h' := h
  obtain ⟨h1, h2, h3, h4⟩ := h
  have hf1 : s.tlb.findIdx? (fun e => e.valid && e.page_number == p) = none := by
    apply findIdx?_eq_none_of_get
    intro j e hj
    cases hv : e.valid with
    | false => simp
    | true =>
      obtain ⟨hes, _⟩ := h'.valid_entry hj hv
      have := hp _ (List.getElem?_mem hes)
      simpa using this
  have hk := h4 es.length (le_refl _) hlt
  have hf2 : s.tlb.findIdx? (fun e => !e.valid) = some es.length := by
    apply findIdx?_eq_some_of_get hk rfl
    intro j b hj hb
    have hes := List.getElem?_eq_getElem hj
    generalize es[j] = pf at hes
    obtain ⟨p', f'⟩ := pf
    have := h3 j p' f' hes
    rw [hb] at this
    injection this with this
    subst this
    rfl
  rw [updateTLB_fill f hf1 hf2]
  refine ⟨?_, ?_, ?_, ?_⟩
  · show (s.tlb.set es.length _).length = 16
    rw [List.length_set]; exact h1
  · show s.tlb_counter + 1 = ((es ++ [(p, f)]).length : Int)
    rw [h2]; simp
  · intro i p' f' hi
    show (s.tlb.set es.length _)[i]? = _
    rcases Nat.lt_or_ge i es.length with hl | hl
    · rw [List.getElem?_append_left hl] at hi
      rw [getElem?_set_ne' _ _ (by omega)]
      exact h3 i p' f' hi
    · rw [List.getElem?_append_right hl] at hi
      have hi0 : i - es.length = 0 := by
        rcases Nat.eq_zero_or_pos (i - es.length) with h0 | h0
        · exact h0
        · rw [List.getElem?_eq_none (by simp only [List.length_singleton]; omega)] at hi; cases hi
      rw [hi0] at hi
      simp only [List.getElem?_cons_zero, Option.some.injEq, Prod.mk.injEq] at hi
      have hie : i = es.length := by omega
      subst hie
      rw [getElem?_set_self' _ _ (by omega), h2, hi.1, hi.2]
  · intro i hi hi16
    show (s.tlb.set es.length _)[i]? = _
    simp only [List.length_append, List.length_singleton] at hi
    rw [getElem?_set_ne' _ _ (by omega)]
    exact h4 i (by omega) hi16

/-- Inserting pairwise distinct absent pages, at most 16 in all, fills the TLB
slot by slot. -/
theorem filled_updates (more : List (Int × Int)) : ∀ (es : List (Int × Int)) (s : MMUState),
    Filled es s → (es ++ more).length ≤ 16 → ((es ++ more).map Prod.fst).Nodup →
    Filled (es ++ more) (updates s more) := by
  induction more with
  | nil =>
    intro es s h _ _
    simpa [updates] using h
  | cons x rest ih =>
    intro es s h hlen hnd
    obtain ⟨p, f⟩ := x
    have hlt : es.length < 16 := by
      simp only [List.length_append, List.length_cons] at hlen
      omega
    have hp : ∀ y ∈ es, y.1 ≠ p := by
      intro y hy hyp
      rw [List.map_append, List.map_cons] at hnd
      have hdis := (List.nodup_append.mp hnd).2.2
      exact hdis (List.mem_map_of_mem Prod.fst hy) (by rw [hyp]; exact List.mem_cons_self _ _)
    have hstep := filled_step h hlt p f hp
    have hassoc : es ++ (p, f) :: rest = (es ++ [(p, f)]) ++ rest := by simp
    rw [hassoc] at hlen hnd ⊢
    exact ih (es ++ [(p, f)]) (updateTLB s p f) hstep hlen hnd

/-- Inserting an absent page into a TLB filled with 16 pairs overwrites slot 0,
the oldest entry. -/
theorem filled_evict {es : List (Int × Int)} {s : MMUState} (h : Filled es s)
    (hlen : es.length = 16) (p f : Int) (hp : ∀ x ∈ es, x.1 ≠ p) :
    updateTLB s p f = { s with
      tlb := s.tlb.set 0
        { valid := true, page_number := p, frame_number := f, time := s.tlb_counter }
      tlb_counter := s.tlb_counter + 1 } := by
  have h' := h
  obtain ⟨h1, h2, h3, h4⟩ := h
  have hall : ∀ (j : Nat) (e : TLBEntry), s.tlb[j]? = some e →
      e.valid = true ∧ e.time = (j : Int) ∧ e.page_number ≠ p := by
    intro j e hj
    have hj16 : j < es.length := by
      rcases Nat.lt_or_ge j s.tlb.length with hl | hl
      · omega
      · rw [List.getElem?_eq_none hl] at hj; cases hj
    have hes := List.getElem?_eq_getElem hj16
    generalize es[j] = pf at hes
    obtain ⟨p', f'⟩ := pf
    have := h3 j p' f' hes
    rw [hj] at this
    injection this with this
    subst this
    exact ⟨rfl, rfl, hp _ (List.getElem?_mem hes)⟩
  have hf1 : s.tlb.findIdx? (fun e => e.valid && e.page_number == p) = none := by
    apply findIdx?_eq_none_of_get
    intro j e hj
    have := (hall j e hj).2.2
    simp [this]
  have hf2 : s.tlb.findIdx? (fun e => !e.valid) = none := by
    apply findIdx?_eq_none_of_get
    intro j e hj
    have := (hall j e hj).1
    simp [this]
  have hne : s.tlb ≠ [] := by
    intro e
    rw [e] at h1
    simp at h1
  have hold : oldestIndex (s.tlb.map (fun e => e.time)) = 0 := by
    obtain ⟨m, hm, hmin, _⟩ := oldestIndex_spec (s.tlb.map (fun e => e.time))
      (by simpa using hne)
    generalize oldestIndex (s.tlb.map (fun e => e.time)) = r at hm
    rw [List.getElem?_map] at hm
    cases hr : s.tlb[r]? with
    | none => rw [hr] at hm; cases hm
    | some er =>
      rw [hr] at hm
      simp only [Option.map_some', Option.some.injEq] at hm
      have h0 : s.tlb[0]? = some s.tlb[0] := List.getElem?_eq_getElem (by omega)
      have hm0 := hmin 0 (s.tlb[0]).time (by rw [List.getElem?_map, h0]; rfl)
      have t0 := (hall 0 _ h0).2.1
      have tr := (hall r er hr).2.1
      omega
  rw [updateTLB_evict f hf1 hf2 hne, hold]

theorem nodup_get_inj {α : Type} {l : List α} (h : l.Nodup) {i j : Nat} {a : α}
    (hi : l[i]? = some a) (hj : l[j]? = some a) : i = j := by
  have hil : i < l.length := by
    rcases Nat.lt_or_ge i l.length with hl | hl
    · exact hl
    · rw [List.getElem?_eq_none hl] at hi; cases hi
  exact List.getElem?_inj hil h (by rw [hi, hj])

theorem tlbDistinct_init (B : List UInt8) (fb tf : Int) :
    TLBDistinct (initializeSystem B fb tf).tlb := by
  intro i j ei ej hi _ hv
  simp only [initializeSystem] at hi
  rw [List.getElem?_replicate] at hi
  split at hi
  · cases hi
    cases hv
  · cases hi

theorem updates_distinct (ps : List (Int × Int)) : ∀ (s : MMUState), TLBDistinct s.tlb →
    TLBDistinct (updates s ps).tlb := by
  induction ps with
  | nil => intro s h; exact h
  | cons x rest ih =>
    intro s h
    exact ih (updateTLB s x.1 x.2) (updateTLB_distinct s x.1 x.2 h)

theorem updates_append (s : MMUState) (l1 l2 : List (Int × Int)) :
    updates s (l1 ++ l2) = updates (updates s l1) l2 := by
  unfold updates
  rw [List.foldl_append]

/-- With frame 0 the physical address is the offset. -/
theorem lor_zero_shiftLeft_offset (s : MMUState) (ob : Nat) (hob : s.offset_bits = (ob : Int))
    (a : Nat) : Int.lor ((0 : Int) <<< s.offset_bits) (offsetOf s a) = offsetOf s a := by
  rw [Int.zero_shiftLeft, offsetOf_eq s ob hob a]
  show (((0 ||| (a % 2 ^ ob) : Nat)) : Int) = _
  rw [Nat.zero_or]

theorem pageOf_congr {s t : MMUState} (h1 : t.offset_bits = s.offset_bits)
    (h2 : t.page_bits = s.page_bits) (a : Nat) : pageOf t a = pageOf s a := by
  unfold pageOf
  rw [h1, h2]

theorem offsetOf_congr {s t : MMUState} (h1 : t.offset_bits = s.offset_bits) (a : Nat) :
    offsetOf t a = offsetOf s a := by
  unfold offsetOf
  rw [h1]

theorem initializeSystem_page_table (B : List UInt8) (fb tf : Int) (p : Nat)
    (e : PageTableEntry) (h : (initializeSystem B fb tf).page_table[p]? = some e) :
    e = { frame_number := -1, valid := false } := by
  simp only [initializeSystem] at h
  rw [List.getElem?_replicate] at h
  split at h
  · injection h with h
    exact h.symm
  · cases h

/-! ## Translating pairwise distinct pages from the initial state -/

theorem trk_init (B : List UInt8) (fb tf : Int) (h0 : 0 ≤ fb) (h16 : fb ≤ 16)
    (htf : 1 ≤ tf) (hB : 65536 ≤ B.length) :
    Trk (initializeSystem B fb tf) [] (initializeSystem B fb tf) where
  inv := inv_initializeSystem B fb tf h0 h16 htf hB
  ob := rfl
  pb := rfl
  tf := rfl
  nodup := List.nodup_nil
  nonneg := by
    intro p hp
    simp at hp
  pt_sub := by
    intro p e he hv
    rw [initializeSystem_page_table B fb tf p e he] at hv
    cases hv
  pc := rfl
  first_time := by
    intro p1 f h
    simp at h
  pt_all := by
    intro _ p hp
    simp at hp
  fill := fun _ _ => ⟨[], rfl, filled_init B fb tf⟩

theorem filled_congr {es : List (Int × Int)} {s t : MMUState} (h : Filled es s)
    (h1 : t.tlb = s.tlb) (h2 : t.tlb_counter = s.tlb_counter) : Filled es t := by
  unfold Filled at *
  rw [h1, h2]
  exact h

/-- Translating an address whose page was not referenced before is a page
fault, and the tracked facts carry over to the longer list of pages.  When it is
the 17th such page and more than 16 frames exist, the TLB entry of the first
page is the one evicted. -/
theorem trk_step {s0 : MMUState} {P : List Int} {s : MMUState} (h : Trk s0 P s)
    (a : Nat) (ha : a < 65536) (hnew : pageOf s0 a ∉ P) :
    ∃ (s' : MMUState) (pa : Int) (b : UInt8), translateAddress s a = some (s', pa, b) ∧
      Trk s0 (P ++ [pageOf s0 a]) s' ∧ s'.tlb_hits = s.tlb_hits ∧
      s'.page_faults = s.page_faults + 1 ∧
      (P.length = 16 → (16 : Int) < s.total_frames → ∀ p1, P[0]? = some p1 →
        checkTLB s' p1 = none) := by
  have hinv := h.inv
  have hpg : pageOf s a = pageOf s0 a := pageOf_congr h.ob h.pb a
  obtain ⟨s', pa, b, ht, hinv', _, c1, c2, c3, c4⟩ := inv_translateAddress hinv a ha
  obtain ⟨pn, b', hpn, hplt, _, hcases⟩ := translateAddress_cases hinv a ha
  have hpn0 : pageOf s0 a = (pn : Int) := by rw [← hpg, hpn]
  rw [hpn0] at hnew ⊢
  have hpl : pn < s.page_table.length := by
    have := hinv.pt_len
    omega
  have hnodup : (P ++ [(pn : Int)]).Nodup := by
    rw [List.nodup_append]
    refine ⟨h.nodup, List.nodup_singleton _, ?_⟩
    intro x hx hx'
    rw [List.mem_singleton] at hx'
    subst hx'
    exact hnew hx
  have hnonneg : ∀ p ∈ P ++ [(pn : Int)], (0 : Int) ≤ p := by
    intro p hp
    rcases List.mem_append.mp hp with hp | hp
    · exact h.nonneg p hp
    · rw [List.mem_singleton] at hp
      omega
  have hne_toNat : ∀ p ∈ P, p.toNat ≠ pn := by
    intro p hp hpe
    have := h.nonneg p hp
    have : p = (pn : Int) := by omega
    subst this
    exact hnew hp
  have hpc := h.pc
  have hnfeq := hinv.nf_eq
  have htfp := hinv.tf_pos
  rcases hcases with ⟨f, _, hpt, _⟩ | ⟨f, _, hpt, _⟩ | ⟨e, hc, he, hev, hnf, ht'⟩ |
    ⟨e, q, fr, hc, he, hev, hnf, hfr, hq, ht'⟩
  · exact absurd (h.pt_sub pn _ hpt rfl) hnew
  · exact absurd (h.pt_sub pn _ hpt rfl) hnew
  · -- free frame
    rw [ht] at ht'
    injection ht' with ht'
    injection ht' with hs' _
    have hnfl : s.next_frame.toNat < s.physical_memory.length := by
      have := hinv.pm_len
      have := hinv.nf_nonneg
      omega
    have hpt' : s'.page_table = s.page_table.set pn
        { frame_number := s.next_frame, valid := true } := by
      rw [hs', updateTLB_page_table]; rfl
    have hpm' : s'.physical_memory = s.physical_memory.set s.next_frame.toNat
        { data := (s.backing_store.drop (pn * s.frame_size.toNat)).take s.frame_size.toNat
          page_number := (pn : Int)
          time := s.page_counter } := by
      rw [hs', updateTLB_physical_memory]; rfl
    refine ⟨s', pa, b, ht, ?_, ?_, ?_, ?_⟩
    · refine
        { inv := hinv', ob := c2.trans h.ob, pb := c3.trans h.pb, tf := c4.trans h.tf
          nodup := hnodup, nonneg := hnonneg
          pt_sub := ?_, pc := ?_, first_time := ?_, pt_all := ?_, fill := ?_ }
      · intro p e hp hv
        rw [hpt'] at hp
        rcases getElem?_set_cases hp with ⟨hpe, _⟩ | ⟨_, hold⟩
        · subst hpe
          exact List.mem_append_right _ (List.mem_singleton_self _)
        · exact List.mem_append_left _ (h.pt_sub p e hold hv)
      · rw [hs', updateTLB_page_counter]
        show s.page_counter + 1 = _
        rw [hpc]
        simp
      · intro p1 f hp1 hptf
        rw [hpt'] at hptf
        rw [hpm']
        cases hP : P with
        | nil =>
          rw [hP] at hp1 hpc
          simp only [List.nil_append, List.getElem?_cons_zero, Option.some.injEq] at hp1
          subst hp1
          rw [Int.toNat_natCast, getElem?_set_self' _ _ hpl] at hptf
          injection hptf with hptf
          injection hptf with hptf
          subst hptf
          refine ⟨_, getElem?_set_self' _ _ hnfl, ?_⟩
          show s.page_counter = 0
          rw [hpc]; rfl
        | cons p0 rest =>
          have hp1P : p1 ∈ P := by
            rw [hP] at hp1 ⊢
            simp only [List.cons_append, List.getElem?_cons_zero, Option.some.injEq] at hp1
            subst hp1
            exact List.mem_cons_self _ _
          have hp1' : P[0]? = some p1 := by
            rw [hP] at hp1 ⊢
            simpa using hp1
          rw [getElem?_set_ne' _ _ (hne_toNat p1 hp1P)] at hptf
          obtain ⟨fr0, hfr0, ht0⟩ := h.first_time p1 f hp1' hptf
          obtain ⟨g1, g2, _⟩ := hinv.pt_valid _ _ hptf rfl
          replace g1 : 0 ≤ f := g1
          replace g2 : f < s.next_frame := g2
          refine ⟨fr0, ?_, ht0⟩
          rw [getElem?_set_ne' _ _ (by omega)]
          exact hfr0
      · intro hle p hp
        rw [c4] at hle
        simp only [List.length_append, List.length_singleton, Nat.cast_add, Nat.cast_one] at hle
        rw [hpt']
        rcases List.mem_append.mp hp with hp | hp
        · obtain ⟨k1, f, k2⟩ := h.pt_all (by omega) p hp
          refine ⟨k1, f, ?_⟩
          rw [getElem?_set_ne' _ _ (hne_toNat p hp)]
          exact k2
        · rw [List.mem_singleton] at hp
          subst hp
          refine ⟨by omega, s.next_frame, ?_⟩
          rw [Int.toNat_natCast]
          exact getElem?_set_self' _ _ hpl
      · intro hle hle16
        rw [c4] at hle
        simp only [List.length_append, List.length_singleton, Nat.cast_add, Nat.cast_one] at hle hle16
        obtain ⟨es, hes, hfil⟩ := h.fill (by omega) (by omega)
        have hesl : es.length = P.length := by rw [← hes, List.length_map]
        have hfil' : Filled es (afterLoad
            { s with total_addresses := s.total_addresses + 1,
                     page_faults := s.page_faults + 1 } pn) := filled_congr hfil rfl rfl
        have hstep := filled_step hfil' (by omega) (pn : Int) s.next_frame (by
          intro x hx hxe
          apply hnew
          rw [← hes, ← hxe]
          exact List.mem_map_of_mem Prod.fst hx)
        rw [← hs'] at hstep
        exact ⟨_, by rw [List.map_append, hes]; rfl, hstep⟩
    · rw [hs', updateTLB_tlb_hits]; rfl
    · rw [hs', updateTLB_page_faults]; rfl
    · intro hl16 hlt p1 hp1
      obtain ⟨es, hes, hfil⟩ := h.fill (by omega) (by omega)
      have hesl : es.length = 16 := by rw [← hl16, ← hes, List.length_map]
      have hfil' : Filled es (afterLoad
          { s with total_addresses := s.total_addresses + 1,
                   page_faults := s.page_faults + 1 } pn) := filled_congr hfil rfl rfl
      have hev' := filled_evict hfil' hesl (pn : Int) s.next_frame (by
        intro x hx hxe
        apply hnew
        rw [← hes, ← hxe]
        exact List.mem_map_of_mem Prod.fst hx)
      rw [hs', hev', checkTLB_eq_none]
      intro j e' hj hv hpe
      replace hj : (s.tlb.set 0 _)[j]? = some e' := hj
      rcases getElem?_set_cases hj with ⟨_, rfl⟩ | ⟨hj0, hold⟩
      · apply hnew
        replace hpe : (pn : Int) = p1 := hpe
        rw [hpe]
        exact List.getElem?_mem hp1
      · obtain ⟨hesj, _⟩ := hfil.valid_entry hold hv
        have hPj : P[j]? = some e'.page_number := by
          rw [← hes, List.getElem?_map, hesj]; rfl
        rw [hpe] at hPj
        exact hj0 (nodup_get_inj h.nodup hPj hp1)
  · -- replacement
    rw [ht] at ht'
    injection ht' with ht'
    injection ht' with hs' _
    have hfull : s.total_frames ≤ (P.length : Int) := by omega
    generalize hv : oldestIndex (s.physical_memory.map (fun f => f.time)) = v at *
    have hpt' : s'.page_table = (s.page_table.set q
        { frame_number := (v : Int), valid := false }).set pn
        { frame_number := (v : Int), valid := true } := by
      rw [hs', updateTLB_page_table]; rfl
    have hpm' : s'.physical_memory = s.physical_memory.set v
        { data := (s.backing_store.drop (pn * s.frame_size.toNat)).take s.frame_size.toNat
          page_number := (pn : Int)
          time := s.page_counter } := by
      rw [hs', updateTLB_physical_memory]; rfl
    refine ⟨s', pa, b, ht, ?_, ?_, ?_, ?_⟩
    · refine
        { inv := hinv', ob := c2.trans h.ob, pb := c3.trans h.pb, tf := c4.trans h.tf
          nodup := hnodup, nonneg := hnonneg
          pt_sub := ?_, pc := ?_, first_time := ?_, pt_all := ?_, fill := ?_ }
      · intro p e' hp hv'
        rw [hpt'] at hp
        rcases getElem?_set_cases hp with ⟨hpe, _⟩ | ⟨_, hp2⟩
        · subst hpe
          exact List.mem_append_right _ (List.mem_singleton_self _)
        · rcases getElem?_set_cases hp2 with ⟨_, rfl⟩ | ⟨_, hold⟩
          · cases hv'
          · exact List.mem_append_left _ (h.pt_sub p e' hold hv')
      · rw [hs', updateTLB_page_counter]
        show s.page_counter + 1 = _
        rw [hpc]
        simp
      · intro p1 f hp1 hptf
        rw [hpt'] at hptf
        rw [hpm']
        have hPne : P ≠ [] := by
          intro hP
          rw [hP] at hfull
          simp at hfull
          omega
        obtain ⟨p0, rest, hP⟩ := List.exists_cons_of_ne_nil hPne
        have hp1P : p1 ∈ P := by
          rw [hP] at hp1 ⊢
          simp only [List.cons_append, List.getElem?_cons_zero, Option.some.injEq] at hp1
          subst hp1
          exact List.mem_cons_self _ _
        have hp1' : P[0]? = some p1 := by
          rw [hP] at hp1 ⊢
          simpa using hp1
        rw [getElem?_set_ne' _ _ (hne_toNat p1 hp1P)] at hptf
        rcases getElem?_set_cases hptf with ⟨_, hbad⟩ | ⟨hnq, hold⟩
        · injection hbad with _ hbad
          cases hbad
        · obtain ⟨fr0, hfr0, ht0⟩ := h.first_time p1 f hp1' hold
          obtain ⟨g1, g2, fr', g3, g4⟩ := hinv.pt_valid _ _ hold rfl
          replace g3 : s.physical_memory[f.toNat]? = some fr' := g3
          refine ⟨fr0, ?_, ht0⟩
          have hfv : f.toNat ≠ v := by
            intro hfe
            rw [hfe, hfr] at g3
            injection g3 with g3
            rw [← g3, hq] at g4
            omega
          rw [getElem?_set_ne' _ _ hfv]
          exact hfr0
      · intro hle
        rw [c4] at hle
        simp only [List.length_append, List.length_singleton, Nat.cast_add, Nat.cast_one] at hle
        omega
      · intro hle
        rw [c4] at hle
        simp only [List.length_append, List.length_singleton, Nat.cast_add, Nat.cast_one] at hle
        omega
    · rw [hs', updateTLB_tlb_hits]; rfl
    · rw [hs', updateTLB_page_faults]; rfl
    · intro hl16 hlt
      omega

theorem run_append (s : MMUState) (l1 l2 : List Nat) :
    run s (l1 ++ l2) = (run s l1).bind (fun t => run t l2) := by
  induction l1 generalizing s with
  | nil => rfl
  | cons a rest ih =>
    show (translateAddress s a).bind (fun r => run r.1 (rest ++ l2)) =
      ((translateAddress s a).bind (fun r => run r.1 rest)).bind (fun t => run t l2)
    cases translateAddress s a with
    | none => rfl
    | some r =>
      simp only [Option.some_bind]
      exact ih r.1

/-- Translating addresses on pairwise distinct, not yet referenced pages: the
run returns, every translation is a page fault, and the tracked facts hold for
the whole list of pages. -/
theorem trk_run {s0 : MMUState} (addrs : List Nat) : ∀ (P : List Int) (s : MMUState),
    Trk s0 P s → (∀ x ∈ addrs, x < 65536) → (P ++ addrs.map (pageOf s0)).Nodup →
    ∃ s', run s addrs = some s' ∧ Trk s0 (P ++ addrs.map (pageOf s0)) s' ∧
      s'.tlb_hits = s.tlb_hits ∧ s'.page_faults = s.page_faults + (addrs.length : Int) := by
  induction addrs with
  | nil =>
    intro P s h _ _
    exact ⟨s, rfl, by simpa using h, rfl, by simp⟩
  | cons a rest ih =>
    intro P s h hadr hnd
    have hnew : pageOf s0 a ∉ P := by
      intro hmem
      rw [List.map_cons] at hnd
      exact (List.nodup_append.mp hnd).2.2 hmem (List.mem_cons_self _ _)
    obtain ⟨s1, pa, b, ht, htrk, hh, hf, _⟩ := trk_step h a (hadr a (List.mem_cons_self _ _)) hnew
    have hassoc : P ++ List.map (pageOf s0) (a :: rest) =
        (P ++ [pageOf s0 a]) ++ List.map (pageOf s0) rest := by simp
    rw [hassoc] at hnd ⊢
    obtain ⟨s', hrun, htrk', hh', hf'⟩ :=
      ih (P ++ [pageOf s0 a]) s1 htrk (fun x hx => hadr x (List.mem_cons_of_mem _ hx)) hnd
    refine ⟨s', ?_, htrk', by rw [hh', hh], ?_⟩
    · show (translateAddress s a).bind (fun r => run r.1 rest) = some s'
      rw [ht]
      exact hrun
    · rw [hf', hf]
      simp only [List.length_cons, Nat.cast_add, Nat.cast_one]
      omega

/-! ## Counters of the reachable states -/

/-- In a reachable state the counters are non-negative, hits plus faults do not
exceed the number of translations, and `page_counter` equals `page_faults`. -/
theorem Reachable.counters {B : List UInt8} {fb tf : Int} {s : MMUState}
    (h0 : 0 ≤ fb) (h16 : fb ≤ 16) (htf : 1 ≤ tf) (hB : 65536 ≤ B.length)
    (hr : Reachable B fb tf s) :
    0 ≤ s.tlb_hits ∧ 0 ≤ s.page_faults ∧ 0 ≤ s.total_addresses ∧
    s.tlb_hits + s.page_faults ≤ s.total_addresses ∧ s.page_counter = s.page_faults := by
  obtain ⟨addrs, hadr, hrun⟩ := hr
  have hinv0 := inv_initializeSystem B fb tf h0 h16 htf hB
  obtain ⟨i1, i2, i3, i4⟩ := run_counters hinv0 addrs hadr s hrun
  obtain ⟨j1, _, _⟩ := run_page_counter hinv0 addrs hadr s hrun
  have z1 : (initializeSystem B fb tf).tlb_hits = 0 := rfl
  have z2 : (initializeSystem B fb tf).page_faults = 0 := rfl
  have z3 : (initializeSystem B fb tf).total_addresses = 0 := rfl
  have z4 : (initializeSystem B fb tf).page_counter = 0 := rfl
  refine ⟨?_, ?_, ?_, ?_, ?_⟩ <;> omega

/-! ## Counting the valid page-table entries -/

/-- Overwriting one element of a list moves the count of the elements that
satisfy `p` by the difference between the old and the new element. -/
theorem countP_set_of_get {α : Type} (p : α → Bool) (l : List α) (i : Nat) (a b : α)
    (h : l[i]? = some b) :
    (l.set i a).countP p + (if p b then 1 else 0) = l.countP p + (if p a then 1 else 0) := by
  induction l generalizing i with
  | nil => simp at h
  | cons x xs ih =>
    cases i with
    | zero =>
      simp only [List.getElem?_cons_zero, Option.some.injEq] at h
      subst h
      simp only [List.set_cons_zero, List.countP_cons]
      omega
    | succ n =>
      simp only [List.getElem?_cons_succ] at h
      have := ih n h
      simp only [List.set_cons_succ, List.countP_cons]
      omega

/-- One translation keeps the number of valid page-table entries equal to
`next_frame`. -/
theorem translateAddress_validCount {s : MMUState} (h : Inv s) (a : Nat) (ha : a < 65536)
    (s' : MMUState) (pa : Int) (b : UInt8) (ht : translateAddress s a = some (s', pa, b))
    (hc : ((s.page_table.countP (fun e => e.valid) : Nat) : Int) = s.next_frame) :
    ((s'.page_table.countP (fun e => e.valid) : Nat) : Int) = s'.next_frame := by
  obtain ⟨pn, b', hpn, hplt, _, hcases⟩ := translateAddress_cases h a ha
  rcases hcases with ⟨f, _, hpt, ht'⟩ | ⟨f, _, hpt, ht'⟩ | ⟨e, _, he, hev, hnf, ht'⟩ |
    ⟨e, q, fr, _, he, hev, hnf, hfr, hq, ht'⟩
  · rw [ht] at ht'
    injection ht' with ht'
    injection ht' with hs _
    subst hs
    exact hc
  · rw [ht] at ht'
    injection ht' with ht'
    injection ht' with hs _
    subst hs
    rw [updateTLB_page_table, updateTLB_next_frame]
    exact hc
  · rw [ht] at ht'
    injection ht' with ht'
    injection ht' with hs _
    subst hs
    rw [updateTLB_page_table, updateTLB_next_frame]
    show (((s.page_table.set pn { frame_number := s.next_frame, valid := true }).countP
      (fun e => e.valid) : Nat) : Int) = s.next_frame + 1
    have := countP_set_of_get (fun e : PageTableEntry => e.valid) s.page_table pn
      { frame_number := s.next_frame, valid := true } e he
    simp only [hev] at this
    simp at this
    omega
  · rw [ht] at ht'
    injection ht' with ht'
    injection ht' with hs _
    subst hs
    rw [updateTLB_page_table, updateTLB_next_frame]
    generalize oldestIndex (s.physical_memory.map (fun f => f.time)) = v at *
    have hvl : (v : Int) < s.next_frame := by
      have hl : v < s.physical_memory.length := by
        rcases Nat.lt_or_ge v s.physical_memory.length with hl | hl
        · exact hl
        · rw [List.getElem?_eq_none hl] at hfr; cases hfr
      have := h.pm_len
      have := h.nf_le
      omega
    obtain ⟨_, a2, _⟩ := h.frame_loaded v fr hfr hvl
    rw [hq, Int.toNat_ofNat] at a2
    have hpq : pn ≠ q := by
      intro hpq
      rw [hpq, a2] at he
      injection he with he
      rw [← he] at hev
      cases hev
    show ((((s.page_table.set q { frame_number := (v : Int), valid := false }).set pn
      { frame_number := (v : Int), valid := true }).countP (fun e => e.valid) : Nat) : Int) =
      s.next_frame
    have h1 := countP_set_of_get (fun e : PageTableEntry => e.valid) s.page_table q
      { frame_number := (v : Int), valid := false } _ a2
    have he2 : (s.page_table.set q { frame_number := (v : Int), valid := false })[pn]? =
        some e := by
      rw [List.getElem?_set_ne (Ne.symm hpq)]
      exact he
    have h2 := countP_set_of_get (fun e : PageTableEntry => e.valid)
      (s.page_table.set q { frame_number := (v : Int), valid := false }) pn
      { frame_number := (v : Int), valid := true } e he2
    simp only [hev] at h2
    simp at h1 h2
    omega

theorem run_validCount {s : MMUState} (h : Inv s) (addrs : List Nat)
    (hadr : ∀ a ∈ addrs, a < 65536) (s' : MMUState) (hrun : run s addrs = some s')
    (hc : ((s.page_table.countP (fun e => e.valid) : Nat) : Int) = s.next_frame) :
    ((s'.page_table.countP (fun e => e.valid) : Nat) : Int) = s'.next_frame := by
  induction addrs generalizing s with
  | nil =>
    injection hrun with hrun
    subst hrun
    exact hc
  | cons a rest ih =>
    obtain ⟨s1, pa, b, ht, hinv1, _⟩ :=
      inv_translateAddress h a (hadr a (List.mem_cons_self _ _))
    have hc1 := translateAddress_validCount h a (hadr a (List.mem_cons_self _ _)) s1 pa b ht hc
    replace hrun : (translateAddress s a).bind (fun r => run r.1 rest) = some s' := hrun
    rw [ht] at hrun
    exact ih hinv1 (fun x hx => hadr x (List.mem_cons_of_mem _ hx)) hrun hc1

/-- In a reachable state the number of valid page-table entries is `next_frame`. -/
theorem Reachable.validCount {B : List UInt8} {fb tf : Int} {s : MMUState}
    (h0 : 0 ≤ fb) (h16 : fb ≤ 16) (htf : 1 ≤ tf) (hB : 65536 ≤ B.length)
    (hr : Reachable B fb tf s) :
    ((s.page_table.countP (fun e => e.valid) : Nat) : Int) = s.next_frame := by
  obtain ⟨addrs, hadr, hrun⟩ := hr
  apply run_validCount (inv_initializeSystem B fb tf h0 h16 htf hB) addrs hadr s hrun
  show (((List.replicate _ _).countP (fun e : PageTableEntry => e.valid) : Nat) : Int) = 0
  rw [List.countP_replicate]
  simp

/-! ## The claims -/

/-- Claim C1.  For every configuration with `0 ≤ frame_bits ≤ 16` and
`total_frames ≥ 1`, a backing store `B` of at least 65536 bytes, every finite
sequence `addrs` of 16-bit addresses translated after `initializeSystem`, and
every 16-bit address `a`: the run returns a state `s`, the next call
`translateAddress(a)` returns, and its byte is `B[a]`, which is the byte at
offset `offset` of block `page_number` (`page_number * frame_size + offset = a`). -/
theorem translateAddress_returns_store_byte (B : List UInt8) (fb tf : Int)
    (h0 : 0 ≤ fb) (h16 : fb ≤ 16) (htf : 1 ≤ tf) (hB : 65536 ≤ B.length)
    (addrs : List Nat) (hadr : ∀ x ∈ addrs, x < 65536) (a : Nat) (ha : a < 65536) :
    ∃ (s s' : MMUState) (pa : Int) (b : UInt8),
      run (initializeSystem B fb tf) addrs = some s ∧
      translateAddress s a = some (s', pa, b) ∧
      B[a]? = some b ∧
      pageOf s a * s.frame_size + offsetOf s a = (a : Int) ∧
      B[(pageOf s a * s.frame_size + offsetOf s a).toNat]? = some b := by
  obtain ⟨s, hrun, hreach⟩ := reachable_run h0 h16 htf hB addrs hadr
  obtain ⟨hinv, hBs, _, _, _⟩ := hreach.inv h0 h16 htf hB
  obtain ⟨s', pa, b, ht, _, hb, _⟩ := inv_translateAddress hinv a ha
  rw [hBs] at hb
  obtain ⟨ob, hob, e1, e2, e3, e4⟩ := hinv.cfg
  have hsum : pageOf s a * s.frame_size + offsetOf s a = (a : Int) := by
    rw [pageOf_eq s ob e1 hob (by rw [e2, e1]; omega) a, offsetOf_eq s ob e1 a, e3]
    exact_mod_cast split_sum ob a hob ha
  refine ⟨s, s', pa, b, hrun, ht, hb, hsum, ?_⟩
  rw [hsum, Int.toNat_natCast]
  exact hb

/-- Witness of claim C1: frame size `2 ^ 4`, 16 frames, a zero-filled store of
65536 bytes, the run `[0, 1, 4096]` and the address `17`. -/
theorem translateAddress_returns_store_byte_witness :
    ∃ (s s' : MMUState) (pa : Int) (b : UInt8),
      run (initializeSystem (List.replicate 65536 0) 4 16) [0, 1, 4096] = some s ∧
      translateAddress s 17 = some (s', pa, b) ∧
      (List.replicate 65536 (0 : UInt8))[17]? = some b ∧
      pageOf s 17 * s.frame_size + offsetOf s 17 = ((17 : Nat) : Int) ∧
      (List.replicate 65536 (0 : UInt8))[(pageOf s 17 * s.frame_size + offsetOf s 17).toNat]? =
        some b :=
  translateAddress_returns_store_byte (List.replicate 65536 0) 4 16 (by decide) (by decide)
    (by decide) (by rw [List.length_replicate]) [0, 1, 4096] (by decide) 17 (by decide)

/-- Claim C2.  In a state reachable from `initializeSystem` (`0 ≤ frame_bits ≤ 16`,
`total_frames ≥ 1`), if `page_table[p]` is valid with frame `f`, then for every
16-bit address `a` whose page number is `p` the call `translateAddress(a)`
returns and stores `physical_address = (f << offset_bits) | offset`, where
`offset` is `a` modulo `2 ^ frame_bits`; and a TLB hit for `p` yields no frame
other than `f`. -/
theorem translateAddress_physical_address (B : List UInt8) (fb tf : Int)
    (h0 : 0 ≤ fb) (h16 : fb ≤ 16) (htf : 1 ≤ tf) (hB : 65536 ≤ B.length)
    (s : MMUState) (hr : Reachable B fb tf s) (p : Nat) (f : Int)
    (hpe : s.page_table[p]? = some { frame_number := f, valid := true })
    (a : Nat) (ha : a < 65536) (hpa : pageOf s a = (p : Int)) :
    ∃ (s' : MMUState) (b : UInt8),
      translateAddress s a =
        some (s', Int.lor (f <<< s.offset_bits) (offsetOf s a), b) ∧
      offsetOf s a = ((a % 2 ^ fb.toNat : Nat) : Int) ∧
      ∀ f' : Int, checkTLB s (p : Int) = some f' → f' = f := by
  obtain ⟨hinv, _, hob, _, _⟩ := hr.inv h0 h16 htf hB
  have hoff : offsetOf s a = ((a % 2 ^ fb.toNat : Nat) : Int) :=
    offsetOf_eq s fb.toNat (by rw [hob]; omega) a
  have htlb : ∀ f' : Int, checkTLB s (p : Int) = some f' → f' = f := by
    intro f' hc
    obtain ⟨j, e, hj, hv, hp, hf⟩ := checkTLB_eq_some hc
    obtain ⟨_, hpt, _⟩ := hinv.tlb_coh j e hj hv
    rw [hp, Int.toNat_natCast, hpe] at hpt
    injection hpt with hpt
    injection hpt with hpt
    rw [← hf, ← hpt]
  obtain ⟨pn, b, hpn, _, _, hcases⟩ := translateAddress_cases hinv a ha
  have hpp : pn = p := by
    rw [hpa] at hpn
    omega
  subst hpp
  rcases hcases with ⟨f1, _, hpt, ht⟩ | ⟨f1, _, hpt, ht⟩ | ⟨e, _, he, hev, _⟩ |
    ⟨e, q, fr, _, he, hev, _⟩
  · rw [hpe] at hpt
    injection hpt with hpt
    injection hpt with hpt
    subst hpt
    exact ⟨_, b, ht, hoff, htlb⟩
  · rw [hpe] at hpt
    injection hpt with hpt
    injection hpt with hpt
    subst hpt
    exact ⟨_, b, ht, hoff, htlb⟩
  · rw [hpe] at he
    injection he with he
    rw [← he] at hev
    cases hev
  · rw [hpe] at he
    injection he with he
    rw [← he] at hev
    cases hev

set_option maxRecDepth 100000 in
/-- Witness of claim C2: in the example state page 1 is valid with frame 1, and
address 257 lies on page 1. -/
theorem translateAddress_physical_address_witness :
    ∃ (s' : MMUState) (b : UInt8),
      translateAddress exampleState 257 =
        some (s', Int.lor ((1 : Int) <<< exampleState.offset_bits)
          (offsetOf exampleState 257), b) ∧
      offsetOf exampleState 257 = ((257 % 2 ^ (8 : Int).toNat : Nat) : Int) ∧
      ∀ f' : Int, checkTLB exampleState ((1 : Nat) : Int) = some f' → f' = 1 :=
  translateAddress_physical_address exampleStore 8 2 (by decide) (by decide) (by decide)
    exampleStore_length exampleState exampleState_reachable 1 1 (by decide) 257 (by decide)
    (by decide)

/-- Claim C3.  In a state `s` reachable from `initializeSystem`, the call
`translateAddress(a)` returns a state `s'` in which `total_addresses` is larger
by exactly 1 and exactly one of these holds: TLB hit, `tlb_hits` larger by 1 and
`page_faults` unchanged; page-table hit, both unchanged; page fault,
`page_faults` larger by 1 and `tlb_hits` unchanged.  Consequently
`tlb_hits + page_faults ≤ total_addresses` in `s`, and along every further run
none of the three counters decreases. -/
theorem counters_of_one_translation (B : List UInt8) (fb tf : Int)
    (h0 : 0 ≤ fb) (h16 : fb ≤ 16) (htf : 1 ≤ tf) (hB : 65536 ≤ B.length)
    (s : MMUState) (hr : Reachable B fb tf s) (a : Nat) (ha : a < 65536) :
    (∃ (s' : MMUState) (pa : Int) (b : UInt8), translateAddress s a = some (s', pa, b) ∧
      s'.total_addresses = s.total_addresses + 1 ∧
      ((∃ f, checkTLB s (pageOf s a) = some f ∧
          s'.tlb_hits = s.tlb_hits + 1 ∧ s'.page_faults = s.page_faults) ∨
       (∃ f, checkTLB s (pageOf s a) = none ∧ checkPageTable s (pageOf s a) = some (some f) ∧
          s'.tlb_hits = s.tlb_hits ∧ s'.page_faults = s.page_faults) ∨
       (checkTLB s (pageOf s a) = none ∧ checkPageTable s (pageOf s a) = some none ∧
          s'.tlb_hits = s.tlb_hits ∧ s'.page_faults = s.page_faults + 1))) ∧
    s.tlb_hits + s.page_faults ≤ s.total_addresses ∧
    0 ≤ s.tlb_hits ∧ 0 ≤ s.page_faults ∧
    ∀ (more : List Nat) (s2 : MMUState), (∀ x ∈ more, x < 65536) → run s more = some s2 →
      s.tlb_hits ≤ s2.tlb_hits ∧ s.page_faults ≤ s2.page_faults ∧
      s.total_addresses ≤ s2.total_addresses := by
  obtain ⟨hinv, _⟩ := hr.inv h0 h16 htf hB
  obtain ⟨s', pa, b, ht, _, htot, hcases⟩ := translateAddress_counters_step hinv a ha
  obtain ⟨addrs, hadr, hrun⟩ := hr
  obtain ⟨i1, i2, i3, i4⟩ :=
    run_counters (inv_initializeSystem B fb tf h0 h16 htf hB) addrs hadr s hrun
  have z1 : (initializeSystem B fb tf).tlb_hits = 0 := rfl
  have z2 : (initializeSystem B fb tf).page_faults = 0 := rfl
  have z3 : (initializeSystem B fb tf).total_addresses = 0 := rfl
  refine ⟨⟨s', pa, b, ht, htot, hcases⟩, by omega, by omega, by omega, ?_⟩
  intro more s2 hmore hrun2
  obtain ⟨j1, j2, j3, _⟩ := run_counters hinv more hmore s2 hrun2
  exact ⟨j2, j3, by omega⟩

set_option maxRecDepth 100000 in
/-- Witness of claim C3: the example state and the address 300. -/
theorem counters_of_one_translation_witness :
    (∃ (s' : MMUState) (pa : Int) (b : UInt8),
      translateAddress exampleState 300 = some (s', pa, b) ∧
      s'.total_addresses = exampleState.total_addresses + 1 ∧
      ((∃ f, checkTLB exampleState (pageOf exampleState 300) = some f ∧
          s'.tlb_hits = exampleState.tlb_hits + 1 ∧
          s'.page_faults = exampleState.page_faults) ∨
       (∃ f, checkTLB exampleState (pageOf exampleState 300) = none ∧
          checkPageTable exampleState (pageOf exampleState 300) = some (some f) ∧
          s'.tlb_hits = exampleState.tlb_hits ∧ s'.page_faults = exampleState.page_faults) ∨
       (checkTLB exampleState (pageOf exampleState 300) = none ∧
          checkPageTable exampleState (pageOf exampleState 300) = some none ∧
          s'.tlb_hits = exampleState.tlb_hits ∧
          s'.page_faults = exampleState.page_faults + 1))) ∧
    exampleState.tlb_hits + exampleState.page_faults ≤ exampleState.total_addresses ∧
    0 ≤ exampleState.tlb_hits ∧ 0 ≤ exampleState.page_faults ∧
    ∀ (more : List Nat) (s2 : MMUState), (∀ x ∈ more, x < 65536) →
      run exampleState more = some s2 →
      exampleState.tlb_hits ≤ s2.tlb_hits ∧ exampleState.page_faults ≤ s2.page_faults ∧
      exampleState.total_addresses ≤ s2.total_addresses :=
  counters_of_one_translation exampleStore 8 2 (by decide) (by decide) (by decide)
    exampleStore_length exampleState exampleState_reachable 300 (by decide)

/-- Claim C4.  In a state `s` reachable from `initializeSystem` with
`total_frames ≥ 1`: `next_frame` lies in `[0, total_frames]`; every frame number
stored in a valid page-table entry or in a valid TLB entry, and every frame
number returned by `loadPage` or `replacePage` (whatever the statistics counters
hold at the call), lies in `[0, total_frames)`; and once
`next_frame = total_frames`, in every state of every further run `next_frame`
still equals `total_frames`, so that `loadPage` is `replacePage` there and the
free-frame branch is never taken again. -/
theorem frame_numbers_in_range (B : List UInt8) (fb tf : Int)
    (h0 : 0 ≤ fb) (h16 : fb ≤ 16) (htf : 1 ≤ tf) (hB : 65536 ≤ B.length)
    (s : MMUState) (hr : Reachable B fb tf s) :
    (0 ≤ s.next_frame ∧ s.next_frame ≤ s.total_frames ∧ s.total_frames = tf) ∧
    (∀ (p : Nat) (e : PageTableEntry), s.page_table[p]? = some e → e.valid = true →
      0 ≤ e.frame_number ∧ e.frame_number < s.total_frames) ∧
    (∀ (i : Nat) (e : TLBEntry), s.tlb[i]? = some e → e.valid = true →
      0 ≤ e.frame_number ∧ e.frame_number < s.total_frames) ∧
    (∀ (x y z p : Int) (s2 : MMUState) (f : Int),
      loadPage { s with tlb_hits := x, page_faults := y, total_addresses := z } p =
        some (s2, f) → 0 ≤ f ∧ f < s.total_frames) ∧
    (∀ (x y z p : Int) (s2 : MMUState) (f : Int),
      replacePage { s with tlb_hits := x, page_faults := y, total_addresses := z } p =
        some (s2, f) → 0 ≤ f ∧ f < s.total_frames) ∧
    (s.next_frame = s.total_frames →
      ∀ (more : List Nat) (s2 : MMUState), (∀ x ∈ more, x < 65536) → run s more = some s2 →
        s2.next_frame = s2.total_frames ∧ ¬ s2.next_frame < s2.total_frames ∧
        ∀ (x y z p : Int),
          loadPage { s2 with tlb_hits := x, page_faults := y, total_addresses := z } p =
            replacePage { s2 with tlb_hits := x, page_faults := y, total_addresses := z } p) := by
  obtain ⟨hinv, _, _, _, htfs⟩ := hr.inv h0 h16 htf hB
  have hnf0 := hinv.nf_nonneg
  have hnfle := hinv.nf_le
  have hpm := hinv.pm_len
  have hrep : ∀ (x y z p : Int) (s2 : MMUState) (f : Int),
      replacePage { s with tlb_hits := x, page_faults := y, total_addresses := z } p =
        some (s2, f) → 0 ≤ f ∧ f < s.total_frames := by
    intro x y z p s2 f h
    have := replacePage_frame h
    replace this : 0 ≤ f ∧ f < (s.physical_memory.length : Int) := this
    omega
  refine ⟨⟨hnf0, hnfle, htfs⟩, ?_, ?_, ?_, hrep, ?_⟩
  · intro p e hp hv
    obtain ⟨a1, a2, _⟩ := hinv.pt_valid p e hp hv
    exact ⟨a1, by omega⟩
  · intro i e hi hv
    obtain ⟨_, hpt, _⟩ := hinv.tlb_coh i e hi hv
    obtain ⟨a1, a2, _⟩ := hinv.pt_valid _ _ hpt rfl
    replace a1 : 0 ≤ e.frame_number := a1
    replace a2 : e.frame_number < s.next_frame := a2
    exact ⟨a1, by omega⟩
  · intro x y z p s2 f h
    rcases loadPage_frame h with ⟨hlt, hf⟩ | ⟨_, hr2⟩
    · replace hlt : s.next_frame < s.total_frames := hlt
      replace hf : f = s.next_frame := hf
      omega
    · exact hrep x y z p s2 f hr2
  · intro hfull more s2 hmore hrun
    obtain ⟨s2', hrun', hinv2, _, _, _, htf2⟩ := inv_run hinv more hmore
    rw [hrun] at hrun'
    injection hrun' with hrun'
    subst hrun'
    obtain ⟨_, _, hmono⟩ := run_page_counter hinv more hmore s2 hrun
    have hle2 := hinv2.nf_le
    have hfull2 : s2.next_frame = s2.total_frames := by omega
    refine ⟨hfull2, by omega, ?_⟩
    intro x y z p
    unfold loadPage
    rw [if_neg]
    show ¬ s2.next_frame < s2.total_frames
    omega

set_option maxRecDepth 100000 in
/-- Witness of claim C4: the example state, in which both frames are in use. -/
theorem frame_numbers_in_range_witness :
    exampleState.next_frame = exampleState.total_frames ∧
    ((0 ≤ exampleState.next_frame ∧ exampleState.next_frame ≤ exampleState.total_frames ∧
        exampleState.total_frames = 2) ∧
    (∀ (p : Nat) (e : PageTableEntry), exampleState.page_table[p]? = some e →
      e.valid = true → 0 ≤ e.frame_number ∧ e.frame_number < exampleState.total_frames) ∧
    (∀ (i : Nat) (e : TLBEntry), exampleState.tlb[i]? = some e → e.valid = true →
      0 ≤ e.frame_number ∧ e.frame_number < exampleState.total_frames) ∧
    (∀ (x y z p : Int) (s2 : MMUState) (f : Int),
      loadPage { exampleState with tlb_hits := x, page_faults := y, total_addresses := z } p =
        some (s2, f) → 0 ≤ f ∧ f < exampleState.total_frames) ∧
    (∀ (x y z p : Int) (s2 : MMUState) (f : Int),
      replacePage { exampleState with tlb_hits := x, page_faults := y, total_addresses := z }
        p = some (s2, f) → 0 ≤ f ∧ f < exampleState.total_frames) ∧
    (exampleState.next_frame = exampleState.total_frames →
      ∀ (more : List Nat) (s2 : MMUState), (∀ x ∈ more, x < 65536) →
        run exampleState more = some s2 →
        s2.next_frame = s2.total_frames ∧ ¬ s2.next_frame < s2.total_frames ∧
        ∀ (x y z p : Int),
          loadPage { s2 with tlb_hits := x, page_faults := y, total_addresses := z } p =
            replacePage { s2 with tlb_hits := x, page_faults := y, total_addresses := z }
              p)) :=
  ⟨by decide,
   frame_numbers_in_range exampleStore 8 2 (by decide) (by decide) (by decide)
    exampleStore_length exampleState exampleState_reachable⟩

/-- Claim C5.  In a state reachable from `initializeSystem` with
`total_frames ≥ 1`, two valid page-table entries with the same frame number
belong to the same page: a frame has at most one valid owner. -/
theorem frame_owner_unique (B : List UInt8) (fb tf : Int)
    (h0 : 0 ≤ fb) (h16 : fb ≤ 16) (htf : 1 ≤ tf) (hB : 65536 ≤ B.length)
    (s : MMUState) (hr : Reachable B fb tf s) (f : Int) (p1 p2 : Nat)
    (e1 e2 : PageTableEntry) (hp1 : s.page_table[p1]? = some e1)
    (hp2 : s.page_table[p2]? = some e2) (hv1 : e1.valid = true) (hv2 : e2.valid = true)
    (hf1 : e1.frame_number = f) (hf2 : e2.frame_number = f) : p1 = p2 := by
  obtain ⟨hinv, _⟩ := hr.inv h0 h16 htf hB
  obtain ⟨_, _, fr1, a1, a2⟩ := hinv.pt_valid p1 e1 hp1 hv1
  obtain ⟨_, _, fr2, b1, b2⟩ := hinv.pt_valid p2 e2 hp2 hv2
  rw [hf1] at a1
  rw [hf2, a1] at b1
  injection b1 with b1
  rw [b1] at a2
  omega

set_option maxRecDepth 100000 in
/-- Witness of claim C5: in the example state frame 1 is owned by page 1. -/
theorem frame_owner_unique_witness :
    exampleState.page_table[1]? = some { frame_number := 1, valid := true } ∧ (1 : Nat) = 1 :=
  ⟨by decide, frame_owner_unique exampleStore 8 2 (by decide) (by decide) (by decide)
    exampleStore_length exampleState exampleState_reachable 1 1 1
    { frame_number := 1, valid := true } { frame_number := 1, valid := true }
    (by decide) (by decide) rfl rfl rfl rfl⟩

/-- Claim C6.  In a state `s` reachable from `initializeSystem` with
`total_frames ≥ 1` the TLB has 16 slots, hence at most 16 valid entries, and two
distinct valid slots hold different pages.  The property is kept by `updateTLB`
(from any state and for any page and frame), and by the in-place overwrite in
`replacePage` whenever `translateAddress` reaches it (TLB miss, page not valid
in the page table, no free frame). -/
theorem tlb_entries_distinct (B : List UInt8) (fb tf : Int)
    (h0 : 0 ≤ fb) (h16 : fb ≤ 16) (htf : 1 ≤ tf) (hB : 65536 ≤ B.length)
    (s : MMUState) (hr : Reachable B fb tf s) :
    s.tlb.length = 16 ∧ s.tlb.countP (fun e => e.valid) ≤ 16 ∧ TLBDistinct s.tlb ∧
    (∀ (t : MMUState) (p f : Int), TLBDistinct t.tlb →
      TLBDistinct (updateTLB t p f).tlb ∧ (updateTLB t p f).tlb.length = t.tlb.length) ∧
    (∀ (a : Nat) (s2 : MMUState) (f : Int), a < 65536 →
      checkTLB s (pageOf s a) = none → checkPageTable s (pageOf s a) = some none →
      ¬ s.next_frame < s.total_frames →
      replacePage { s with total_addresses := s.total_addresses + 1,
                           page_faults := s.page_faults + 1 } (pageOf s a) = some (s2, f) →
      s2.tlb.length = 16 ∧ TLBDistinct s2.tlb) := by
  obtain ⟨hinv, _⟩ := hr.inv h0 h16 htf hB
  have hlen : s.tlb.length = 16 := hinv.tlb_len
  refine ⟨hlen, ?_, hinv.tlb_inj, ?_, ?_⟩
  · have := List.countP_le_length (fun e : TLBEntry => e.valid) (l := s.tlb)
    omega
  · intro t p f hd
    exact ⟨updateTLB_distinct t p f hd, updateTLB_tlb_length t p f⟩
  · intro a s2 f ha hc hpt hnf hrep
    obtain ⟨pn, hpn, hplt, _⟩ := hinv.page_lt a
    obtain ⟨e, he⟩ := hinv.pt_get pn hplt
    have hev : e.valid = false := by
      unfold checkPageTable at hpt
      rw [hpn, arrGet_natCast, he] at hpt
      cases hv : e.valid with
      | false => rfl
      | true => simp [hv] at hpt
    have h1 : Inv { s with total_addresses := s.total_addresses + 1,
                           page_faults := s.page_faults + 1 } :=
      hinv.setCounters s.tlb_hits (s.page_faults + 1) (s.total_addresses + 1)
    obtain ⟨q, fr, hfr, hq, hrep'⟩ := replacePage_full h1 pn hplt hnf
    rw [hpn, hrep'] at hrep
    injection hrep with hrep
    injection hrep with hs2 _
    have hinv2 := inv_afterReplace h1 pn hplt hnf e he hev q fr hfr hq
    rw [hs2] at hinv2
    exact ⟨hinv2.tlb_len, hinv2.tlb_inj⟩

set_option maxRecDepth 100000 in
/-- Witness of claim C6: the example state. -/
theorem tlb_entries_distinct_witness :
    exampleState.tlb.length = 16 ∧ exampleState.tlb.countP (fun e => e.valid) ≤ 16 ∧
    TLBDistinct exampleState.tlb ∧
    (∀ (t : MMUState) (p f : Int), TLBDistinct t.tlb →
      TLBDistinct (updateTLB t p f).tlb ∧ (updateTLB t p f).tlb.length = t.tlb.length) ∧
    (∀ (a : Nat) (s2 : MMUState) (f : Int), a < 65536 →
      checkTLB exampleState (pageOf exampleState a) = none →
      checkPageTable exampleState (pageOf exampleState a) = some none →
      ¬ exampleState.next_frame < exampleState.total_frames →
      replacePage { exampleState with total_addresses := exampleState.total_addresses + 1,
                                      page_faults := exampleState.page_faults + 1 }
        (pageOf exampleState a) = some (s2, f) →
      s2.tlb.length = 16 ∧ TLBDistinct s2.tlb) :=
  tlb_entries_distinct exampleStore 8 2 (by decide) (by decide) (by decide)
    exampleStore_length exampleState exampleState_reachable

/-- Claim C7.  From the TLB as `initializeSystem` leaves it, after `updateTLB`
on 17 (page, frame) pairs with pairwise distinct pages, in order: `checkTLB`
of the first page returns 0 (`none`), `checkTLB` of each of the other 16 pages
returns 1 with the frame given at insertion, and before the 17th call
`checkTLB` of the first page still returned 1 with its frame. -/
theorem tlb_fifo_seventeen (B : List UInt8) (fb tf : Int) (ps : List (Int × Int))
    (hlen : ps.length = 17) (hnd : (ps.map Prod.fst).Nodup) :
    (∀ (p f : Int), ps[0]? = some (p, f) →
      checkTLB (updates (initializeSystem B fb tf) ps) p = none ∧
      checkTLB (updates (initializeSystem B fb tf) (ps.take 16)) p = some f) ∧
    (∀ (k : Nat) (p f : Int), 1 ≤ k → ps[k]? = some (p, f) →
      checkTLB (updates (initializeSystem B fb tf) ps) p = some f) := by
  have hsplit : ps = ps.take 16 ++ ps.drop 16 := (List.take_append_drop 16 ps).symm
  obtain ⟨⟨p17, f17⟩, hlast⟩ : ∃ x, ps[16]? = some x :=
    ⟨_, List.getElem?_eq_getElem (by omega)⟩
  have hdrop : ps.drop 16 = [(p17, f17)] := by
    apply List.ext_getElem?
    intro n
    rw [List.getElem?_drop]
    cases n with
    | zero => simpa using hlast
    | succ n =>
      rw [List.getElem?_eq_none (by omega)]
      simp
  have htake : ∀ (i : Nat) (x : Int × Int), (ps.take 16)[i]? = some x →
      ps[i]? = some x ∧ i < 16 := by
    intro i x hi
    rw [List.getElem?_take] at hi
    split at hi
    · rename_i h; exact ⟨hi, h⟩
    · cases hi
  have hpages : ∀ (i j : Nat) (x y : Int × Int), ps[i]? = some x → ps[j]? = some y →
      x.1 = y.1 → i = j := by
    intro i j x y hi hj hxy
    apply nodup_get_inj hnd (a := x.1)
    · rw [List.getElem?_map, hi]; rfl
    · rw [List.getElem?_map, hj, hxy]; rfl
  have hfill : Filled (ps.take 16) (updates (initializeSystem B fb tf) (ps.take 16)) := by
    have := filled_updates (ps.take 16) [] (initializeSystem B fb tf) (filled_init B fb tf)
      (by simp)
      (by
        rw [List.nil_append]
        exact hnd.sublist ((List.take_sublist 16 ps).map Prod.fst))
    simpa using this
  have hnotin : ∀ x ∈ ps.take 16, x.1 ≠ p17 := by
    intro x hx hxp
    obtain ⟨i, hi⟩ := List.mem_iff_getElem?.mp hx
    obtain ⟨hi', hi16⟩ := htake i x hi
    have := hpages i 16 x (p17, f17) hi' hlast hxp
    omega
  have h17eq : updates (initializeSystem B fb tf) ps =
      { updates (initializeSystem B fb tf) (ps.take 16) with
        tlb := (updates (initializeSystem B fb tf) (ps.take 16)).tlb.set 0
          { valid := true, page_number := p17, frame_number := f17,
            time := (updates (initializeSystem B fb tf) (ps.take 16)).tlb_counter }
        tlb_counter := (updates (initializeSystem B fb tf) (ps.take 16)).tlb_counter + 1 } := by
    have hev := filled_evict hfill (by rw [List.length_take]; omega) p17 f17 hnotin
    rw [← hev]
    conv => lhs; rw [hsplit, updates_append, hdrop]
    rfl
  have hd16 := updates_distinct (ps.take 16) _ (tlbDistinct_init B fb tf)
  have hd17 := updates_distinct ps _ (tlbDistinct_init B fb tf)
  generalize updates (initializeSystem B fb tf) (ps.take 16) = s16 at *
  generalize updates (initializeSystem B fb tf) ps = s17 at *
  subst h17eq
  obtain ⟨g1, g2, g3, g4⟩ := hfill
  refine ⟨?_, ?_⟩
  · intro p f h0
    have h0t : (ps.take 16)[0]? = some (p, f) := by
      rw [List.getElem?_take, if_pos (by omega)]; exact h0
    have hslot0 := g3 0 p f h0t
    refine ⟨?_, ?_⟩
    · rw [checkTLB_eq_none]
      intro j e hj hv hpe
      replace hj : (s16.tlb.set 0 _)[j]? = some e := hj
      rcases getElem?_set_cases hj with ⟨hj0, rfl⟩ | ⟨hj0, hold⟩
      · have := hpages 0 16 (p, f) (p17, f17) h0 hlast hpe.symm
        omega
      · obtain ⟨hes, _⟩ := Filled.valid_entry ⟨g1, g2, g3, g4⟩ hold hv
        obtain ⟨hes', _⟩ := htake j _ hes
        exact hj0 (hpages j 0 _ (p, f) hes' h0 hpe)
    · exact checkTLB_of_entry hd16 hslot0 rfl
  · intro k p f hk hkp
    have hk17 : k < 17 := by
      rcases Nat.lt_or_ge k ps.length with hl | hl
      · omega
      · rw [List.getElem?_eq_none hl] at hkp; cases hkp
    rcases Nat.lt_or_ge k 16 with hlt | hge
    · have hkt : (ps.take 16)[k]? = some (p, f) := by
        rw [List.getElem?_take, if_pos hlt]; exact hkp
      have hslot := g3 k p f hkt
      have hnew : (s16.tlb.set 0
          { valid := true, page_number := p17, frame_number := f17,
            time := s16.tlb_counter })[k]? =
          some { page_number := p, frame_number := f, valid := true, time := (k : Int) } := by
        rw [getElem?_set_ne' _ _ (by omega)]
        exact hslot
      exact checkTLB_of_entry hd17 hnew rfl
    · have hk16 : k = 16 := by omega
      subst hk16
      rw [hlast] at hkp
      injection hkp with hkp
      injection hkp with hp hf
      subst hp hf
      have hnew := getElem?_set_self' s16.tlb
        { valid := true, page_number := p17, frame_number := f17, time := s16.tlb_counter }
        (show 0 < s16.tlb.length by omega)
      exact checkTLB_of_entry hd17 hnew rfl

/-- Witness of claim C7: after inserting the pages `0 .. 16`, page 0 is gone,
page 16 is present with its frame, and page 0 was present after 16 insertions. -/
theorem tlb_fifo_seventeen_witness :
    examplePairs.length = 17 ∧ (examplePairs.map Prod.fst).Nodup ∧
    checkTLB (updates (initializeSystem [] 4 16) examplePairs) 0 = none ∧
    checkTLB (updates (initializeSystem [] 4 16) (examplePairs.take 16)) 0 = some 100 ∧
    checkTLB (updates (initializeSystem [] 4 16) examplePairs) 16 = some 116 :=
  ⟨by decide, by decide,
   ((tlb_fifo_seventeen [] 4 16 examplePairs (by decide) (by decide)).1 0 100
      (by decide)).1,
   ((tlb_fifo_seventeen [] 4 16 examplePairs (by decide) (by decide)).1 0 100
      (by decide)).2,
   (tlb_fifo_seventeen [] 4 16 examplePairs (by decide) (by decide)).2 16 16 116
      (by decide) (by decide)⟩

/-- Claim C8.  For every configuration with `0 ≤ frame_bits ≤ 11` and
`total_frames ≥ 1`, after translating from the initial state 17 addresses with
pairwise distinct page numbers, a translation of any address `a` on the page of
the first of them returns and is not a TLB hit: `checkTLB` misses and `tlb_hits`
is unchanged.  The call is a page-table hit (no fault) when `total_frames ≥ 17`
and a page fault when `total_frames < 17`. -/
theorem first_of_seventeen_pages_misses_tlb (B : List UInt8) (fb tf : Int)
    (h0 : 0 ≤ fb) (h11 : fb ≤ 11) (htf : 1 ≤ tf) (hB : 65536 ≤ B.length)
    (addrs : List Nat) (hlen : addrs.length = 17) (hadr : ∀ x ∈ addrs, x < 65536)
    (hnd : (addrs.map (pageOf (initializeSystem B fb tf))).Nodup)
    (a1 : Nat) (hfirst : addrs[0]? = some a1) (a : Nat) (ha : a < 65536)
    (hsame : pageOf (initializeSystem B fb tf) a = pageOf (initializeSystem B fb tf) a1) :
    ∃ (s s' : MMUState) (pa : Int) (b : UInt8),
      run (initializeSystem B fb tf) addrs = some s ∧
      translateAddress s a = some (s', pa, b) ∧
      checkTLB s (pageOf s a) = none ∧ s'.tlb_hits = s.tlb_hits ∧
      (17 ≤ tf → (∃ f, checkPageTable s (pageOf s a) = some (some f)) ∧
        s'.page_faults = s.page_faults) ∧
      (tf < 17 → checkPageTable s (pageOf s a) = some none ∧
        s'.page_faults = s.page_faults + 1) := by
  have h16 : fb ≤ 16 := by omega
  generalize hs0 : initializeSystem B fb tf = s0 at *
  have htf0 : s0.total_frames = tf := by rw [← hs0]; rfl
  have htrk0 : Trk s0 [] s0 := by
    rw [← hs0]
    exact trk_init B fb tf h0 h16 htf hB
  -- the first 16 addresses, then the 17th
  obtain ⟨a17, hlast⟩ : ∃ x, addrs[16]? = some x := ⟨_, List.getElem?_eq_getElem (by omega)⟩
  have hdrop : addrs.drop 16 = [a17] := by
    apply List.ext_getElem?
    intro n
    rw [List.getElem?_drop]
    cases n with
    | zero => simpa using hlast
    | succ n =>
      rw [List.getElem?_eq_none (by omega)]
      simp
  have hsplit : addrs = addrs.take 16 ++ [a17] := by
    rw [← hdrop, List.take_append_drop]
  have hnd' : ((addrs.take 16).map (pageOf s0) ++ [pageOf s0 a17]).Nodup := by
    have := hnd
    rw [hsplit, List.map_append] at this
    exact this
  have htake_len : (addrs.take 16).length = 16 := by
    rw [List.length_take]; omega
  obtain ⟨s16, hrun16, htrk16, _, _⟩ := trk_run (addrs.take 16) [] s0 htrk0
    (fun x hx => hadr x (List.mem_of_mem_take hx))
    (by
      rw [List.nil_append]
      exact (List.nodup_append.mp hnd').1)
  rw [List.nil_append] at htrk16
  have hnew : pageOf s0 a17 ∉ (addrs.take 16).map (pageOf s0) := by
    intro hmem
    exact (List.nodup_append.mp hnd').2.2 hmem (List.mem_singleton_self _)
  obtain ⟨s17, pa17, b17, ht17, htrk17, _, _, hevict⟩ :=
    trk_step htrk16 a17 (hadr a17 (List.getElem?_mem hlast)) hnew
  have hrun : run s0 addrs = some s17 := by
    rw [hsplit, run_append, hrun16]
    show (translateAddress s16 a17).bind (fun r => run r.1 []) = some s17
    rw [ht17]
    rfl
  -- the page of the first address
  have hP0 : ((addrs.take 16).map (pageOf s0))[0]? = some (pageOf s0 a1) := by
    rw [List.getElem?_map, List.getElem?_take, if_pos (by omega), hfirst]
    rfl
  have hP0' : ((addrs.take 16).map (pageOf s0) ++ [pageOf s0 a17])[0]? =
      some (pageOf s0 a1) := by
    rw [List.getElem?_append_left (by rw [List.length_map, htake_len]; omega)]
    exact hP0
  have hinv := htrk17.inv
  have hpg : pageOf s17 a = pageOf s0 a1 := by
    rw [pageOf_congr htrk17.ob htrk17.pb a, hsame]
  have hp1mem : pageOf s0 a1 ∈ (addrs.take 16).map (pageOf s0) ++ [pageOf s0 a17] :=
    List.getElem?_mem hP0'
  have hp1nn : 0 ≤ pageOf s0 a1 := htrk17.nonneg _ hp1mem
  have hlen17 : ((addrs.take 16).map (pageOf s0) ++ [pageOf s0 a17]).length = 17 := by
    rw [List.length_append, List.length_map, htake_len]
    rfl
  obtain ⟨s', pa, b, ht, _, _, hcases⟩ := translateAddress_counters_step hinv a ha
  rw [hpg] at hcases
  refine ⟨s17, s', pa, b, hrun, ht, ?_⟩
  rw [hpg]
  by_cases hbig : 17 ≤ tf
  · -- more than 16 frames: the 17th insertion evicted the first page from the TLB
    have hmiss : checkTLB s17 (pageOf s0 a1) = none := by
      apply hevict (by rw [List.length_map, htake_len])
        (by rw [htrk16.tf, htf0]; omega) _ hP0
    obtain ⟨_, f, hptf⟩ := htrk17.pt_all (by rw [hlen17, htrk17.tf, htf0]; exact hbig)
      _ hp1mem
    have hcp : checkPageTable s17 (pageOf s0 a1) = some (some f) := by
      unfold checkPageTable
      rw [arrGet_of_nonneg _ hp1nn, hptf]
      rfl
    rcases hcases with ⟨f', hc, _⟩ | ⟨f', _, _, k1, k2⟩ | ⟨_, hcp', _⟩
    · rw [hmiss] at hc; cases hc
    · exact ⟨hmiss, k1, fun _ => ⟨⟨f, hcp⟩, k2⟩, fun hlt => by omega⟩
    · rw [hcp] at hcp'
      cases hcp'
  · -- at most 16 frames: the first page has been replaced
    have hpc := htrk17.pc
    rw [hlen17] at hpc
    have hinvalid : ∀ f : Int, s17.page_table[(pageOf s0 a1).toNat]? ≠
        some { frame_number := f, valid := true } := by
      intro f hptf
      obtain ⟨fr, hfr, htime⟩ := htrk17.first_time _ f hP0' hptf
      obtain ⟨g1, g2, _⟩ := hinv.pt_valid _ _ hptf rfl
      replace g1 : 0 ≤ f := g1
      replace g2 : f < s17.next_frame := g2
      obtain ⟨_, _, _, _, _, k6, _⟩ := hinv.frame_loaded f.toNat fr hfr (by omega)
      have := htrk17.tf
      omega
    have hmiss : checkTLB s17 (pageOf s0 a1) = none := by
      cases hc : checkTLB s17 (pageOf s0 a1) with
      | none => rfl
      | some f =>
        exfalso
        obtain ⟨j, e, hj, hv, hp, hf⟩ := checkTLB_eq_some hc
        obtain ⟨_, hpt, _⟩ := hinv.tlb_coh j e hj hv
        rw [hp] at hpt
        exact hinvalid _ hpt
    rcases hcases with ⟨f', hc, _⟩ | ⟨f', _, hcp, _⟩ | ⟨_, hcp, k1, k2⟩
    · rw [hmiss] at hc; cases hc
    · exfalso
      unfold checkPageTable at hcp
      rw [arrGet_of_nonneg _ hp1nn] at hcp
      cases hg : s17.page_table[(pageOf s0 a1).toNat]? with
      | none => rw [hg] at hcp; cases hcp
      | some e =>
        rw [hg] at hcp
        simp only [Option.map_some', Option.some.injEq] at hcp
        cases hev : e.valid with
        | false => rw [hev] at hcp; simp at hcp
        | true =>
          apply hinvalid e.frame_number
          rw [hg, ← hev]
    · exact ⟨hmiss, k1, fun h17 => absurd h17 hbig, fun _ => ⟨hcp, k2⟩⟩

/-- Witness of claim C8: 256-byte frames, 17 frames, the pages `0 .. 16`, then
address 5 on page 0. -/
theorem first_of_seventeen_pages_misses_tlb_witness :
    ∃ (s s' : MMUState) (pa : Int) (b : UInt8),
      run (initializeSystem exampleStore 8 17) seventeenAddrs = some s ∧
      translateAddress s 5 = some (s', pa, b) ∧
      checkTLB s (pageOf s 5) = none ∧ s'.tlb_hits = s.tlb_hits ∧
      ((17 : Int) ≤ 17 → (∃ f, checkPageTable s (pageOf s 5) = some (some f)) ∧
        s'.page_faults = s.page_faults) ∧
      ((17 : Int) < 17 → checkPageTable s (pageOf s 5) = some none ∧
        s'.page_faults = s.page_faults + 1) :=
  first_of_seventeen_pages_misses_tlb exampleStore 8 17 (by decide) (by decide) (by decide)
    exampleStore_length seventeenAddrs (by decide) (by decide) (by decide) 0 (by decide)
    5 (by decide) (by decide)

/-- Claim C9.  For every configuration with `0 ≤ frame_bits ≤ 16` and
`total_frames ≥ 1`: the first `translateAddress(a)` after `initializeSystem`
returns with `page_faults = 1` and `tlb_hits = 0`, the page of `a` valid in the
page table with frame 0, `physical_memory[0].page_number` equal to that page,
`physical_address = offset`, and the byte at offset `offset` of the page's block
of the backing store (which is `B[a]`).  A following `translateAddress(b)` for
`b` on the same page returns with `page_faults` still 1, `physical_address`
equal to the offset of `b` (frame 0), and the byte at the offset of `b` in the
same block (which is `B[b]`). -/
theorem first_reference_faults_into_frame_zero (B : List UInt8) (fb tf : Int)
    (h0 : 0 ≤ fb) (h16 : fb ≤ 16) (htf : 1 ≤ tf) (hB : 65536 ≤ B.length)
    (a b : Nat) (ha : a < 65536) (hb : b < 65536)
    (hsame : pageOf (initializeSystem B fb tf) b = pageOf (initializeSystem B fb tf) a) :
    ∃ (s1 s2 : MMUState) (d1 d2 : UInt8),
      translateAddress (initializeSystem B fb tf) a =
        some (s1, offsetOf (initializeSystem B fb tf) a, d1) ∧
      s1.page_faults = 1 ∧ s1.tlb_hits = 0 ∧
      s1.page_table[(pageOf (initializeSystem B fb tf) a).toNat]? =
        some { frame_number := 0, valid := true } ∧
      (∃ fr, s1.physical_memory[0]? = some fr ∧
        fr.page_number = pageOf (initializeSystem B fb tf) a) ∧
      B[a]? = some d1 ∧
      B[(pageOf (initializeSystem B fb tf) a * (initializeSystem B fb tf).frame_size +
          offsetOf (initializeSystem B fb tf) a).toNat]? = some d1 ∧
      translateAddress s1 b = some (s2, offsetOf (initializeSystem B fb tf) b, d2) ∧
      s2.page_faults = 1 ∧
      B[b]? = some d2 ∧
      B[(pageOf (initializeSystem B fb tf) a * (initializeSystem B fb tf).frame_size +
          offsetOf (initializeSystem B fb tf) b).toNat]? = some d2 := by
  have hinv := inv_initializeSystem B fb tf h0 h16 htf hB
  obtain ⟨ob, hob, e1, e2, e3, e4⟩ := hinv.cfg
  generalize hs0 : initializeSystem B fb tf = s0 at *
  have hstore : s0.backing_store = B := by rw [← hs0]; rfl
  have hpf0 : s0.page_faults = 0 := by rw [← hs0]; rfl
  have hth0 : s0.tlb_hits = 0 := by rw [← hs0]; rfl
  have hnf0 : s0.next_frame = 0 := by rw [← hs0]; rfl
  have hpt0 : ∀ (p : Nat) (e : PageTableEntry), s0.page_table[p]? = some e →
      e = { frame_number := -1, valid := false } := by
    intro p e h
    rw [← hs0] at h
    exact initializeSystem_page_table B fb tf p e h
  have hsum : ∀ x : Nat, x < 65536 → pageOf s0 x * s0.frame_size + offsetOf s0 x = (x : Int) := by
    intro x hx
    rw [pageOf_eq s0 ob e1 hob (by rw [e2, e1]; omega) x, offsetOf_eq s0 ob e1 x, e3]
    exact_mod_cast split_sum ob x hob hx
  obtain ⟨pn, d1, hpn, hplt, hd1, hcases⟩ := translateAddress_cases hinv a ha
  rw [hstore] at hd1
  obtain ⟨s1', pa', d1', ht1, hinv1, _, c1, c2, c3, c4⟩ := inv_translateAddress hinv a ha
  rcases hcases with ⟨f, _, hpt, _⟩ | ⟨f, _, hpt, _⟩ | ⟨e, hc, he, hev, hnf, ht⟩ |
    ⟨e, q, fr, _, _, _, hnf, _⟩
  · cases hpt0 pn _ hpt
  · cases hpt0 pn _ hpt
  · rw [hnf0, lor_zero_shiftLeft_offset s0 ob e1 a] at ht
    rw [ht] at ht1
    injection ht1 with ht1
    injection ht1 with hs1 _
    have hpl : pn < s0.page_table.length := by
      have := hinv.pt_len
      omega
    have hpm : 0 < s0.physical_memory.length := by
      have := hinv.pm_len
      have := hinv.tf_pos
      omega
    have hpt1 : s1'.page_table[pn]? = some { frame_number := 0, valid := true } := by
      rw [← hs1, updateTLB_page_table]
      show (s0.page_table.set pn _)[pn]? = _
      rw [getElem?_set_self' _ _ hpl]
    have hpf1 : s1'.page_faults = 1 := by
      rw [← hs1, updateTLB_page_faults]
      show s0.page_faults + 1 = 1
      omega
    have hpm1 : ∃ fr, s1'.physical_memory[0]? = some fr ∧ fr.page_number = pageOf s0 a := by
      rw [← hs1, updateTLB_physical_memory, hpn]
      exact ⟨_, getElem?_set_self' s0.physical_memory _ hpm, rfl⟩
    -- the second translation
    have hpgb : pageOf s1' b = (pn : Int) := by
      rw [pageOf_congr c2 c3 b, hsame, hpn]
    have hofb : offsetOf s1' b = offsetOf s0 b := offsetOf_congr c2 b
    obtain ⟨pn2, d2, hpn2, _, hd2, hcases2⟩ := translateAddress_cases hinv1 b hb
    rw [c1, hstore] at hd2
    have hpp : pn2 = pn := by
      rw [hpgb] at hpn2
      omega
    subst hpp
    have hob1 : s1'.offset_bits = (ob : Int) := by rw [c2, e1]
    have hsecond : ∃ s2, translateAddress s1' b = some (s2, offsetOf s0 b, d2) ∧
        s2.page_faults = 1 := by
      rcases hcases2 with ⟨f, _, hpt, ht2⟩ | ⟨f, _, hpt, ht2⟩ | ⟨e', _, he', hev', _⟩ |
        ⟨e', q, fr, _, he', hev', _⟩
      · rw [hpt1] at hpt
        injection hpt with hpt
        injection hpt with hpt
        subst hpt
        rw [lor_zero_shiftLeft_offset s1' ob hob1 b, hofb] at ht2
        exact ⟨_, ht2, hpf1⟩
      · rw [hpt1] at hpt
        injection hpt with hpt
        injection hpt with hpt
        subst hpt
        rw [lor_zero_shiftLeft_offset s1' ob hob1 b, hofb] at ht2
        refine ⟨_, ht2, ?_⟩
        rw [updateTLB_page_faults]
        exact hpf1
      · rw [hpt1] at he'
        injection he' with he'
        rw [← he'] at hev'
        cases hev'
      · rw [hpt1] at he'
        injection he' with he'
        rw [← he'] at hev'
        cases hev'
    obtain ⟨s2, ht2, hpf2⟩ := hsecond
    refine ⟨s1', s2, d1, d2, ?_, hpf1, ?_, ?_, ?_, hd1, ?_, ht2, hpf2, hd2, ?_⟩
    · rw [← hs1]; exact ht
    · rw [← hs1, updateTLB_tlb_hits]
      exact hth0
    · rw [hpn, Int.toNat_natCast]
      exact hpt1
    · exact hpm1
    · rw [hsum a ha, Int.toNat_natCast]
      exact hd1
    · rw [← hsame, hsum b hb, Int.toNat_natCast]
      exact hd2
  · rw [hnf0] at hnf
    have := hinv.tf_pos
    omega

/-- Witness of claim C9: frame size `2 ^ 4`, 16 frames, `a = 0`, `b = 1`. -/
theorem first_reference_faults_into_frame_zero_witness :
    ∃ (s1 s2 : MMUState) (d1 d2 : UInt8),
      translateAddress (initializeSystem exampleStore 4 16) 0 =
        some (s1, offsetOf (initializeSystem exampleStore 4 16) 0, d1) ∧
      s1.page_faults = 1 ∧ s1.tlb_hits = 0 ∧
      s1.page_table[(pageOf (initializeSystem exampleStore 4 16) 0).toNat]? =
        some { frame_number := 0, valid := true } ∧
      (∃ fr, s1.physical_memory[0]? = some fr ∧
        fr.page_number = pageOf (initializeSystem exampleStore 4 16) 0) ∧
      exampleStore[0]? = some d1 ∧
      exampleStore[(pageOf (initializeSystem exampleStore 4 16) 0 *
          (initializeSystem exampleStore 4 16).frame_size +
          offsetOf (initializeSystem exampleStore 4 16) 0).toNat]? = some d1 ∧
      translateAddress s1 1 = some (s2, offsetOf (initializeSystem exampleStore 4 16) 1, d2) ∧
      s2.page_faults = 1 ∧
      exampleStore[1]? = some d2 ∧
      exampleStore[(pageOf (initializeSystem exampleStore 4 16) 0 *
          (initializeSystem exampleStore 4 16).frame_size +
          offsetOf (initializeSystem exampleStore 4 16) 1).toNat]? = some d2 :=
  first_reference_faults_into_frame_zero exampleStore 4 16 (by decide) (by decide) (by decide)
    exampleStore_length 0 1 (by decide) (by decide) (by decide)

/-- Claim C10.  (1) In every state `s` reachable from `initializeSystem`, the
freshly initialised state included, and for every page `p` below
`page_table_size` and every frame `f`: `updatePageTable(p, f)` returns a state
in which `checkPageTable(p)` returns 1 with frame `f` and the entry of every
other page is unchanged.  (2) The same holds in any state `t` whatsoever whose
page table has `page_table_size` entries.  (3) In a reachable state `s`, if
`page_table[p]` is valid with frame `f`, then after any `translateAddress(a)`
the entry is still valid with frame `f`, unless the call is a page fault with no
free frame whose replacement victim is frame `f`, in which case the entry is
invalidated. -/
theorem page_table_entry_stable (B : List UInt8) (fb tf : Int)
    (h0 : 0 ≤ fb) (h16 : fb ≤ 16) (htf : 1 ≤ tf) (hB : 65536 ≤ B.length)
    (s : MMUState) (hr : Reachable B fb tf s) :
    (∀ (p : Nat) (f : Int), (p : Int) < s.page_table_size →
      ∃ t, updatePageTable s (p : Int) f = some t ∧
        checkPageTable t (p : Int) = some (some f) ∧
        ∀ q : Nat, q ≠ p → t.page_table[q]? = s.page_table[q]?) ∧
    (∀ (t : MMUState) (p : Nat) (f : Int),
      (t.page_table.length : Int) = t.page_table_size → (p : Int) < t.page_table_size →
      ∃ t', updatePageTable t (p : Int) f = some t' ∧
        checkPageTable t' (p : Int) = some (some f) ∧
        ∀ q : Nat, q ≠ p → t'.page_table[q]? = t.page_table[q]?) ∧
    (∀ (p : Nat) (f : Int),
      s.page_table[p]? = some { frame_number := f, valid := true } →
      ∀ a : Nat, a < 65536 →
      ∃ (s' : MMUState) (pa : Int) (b : UInt8), translateAddress s a = some (s', pa, b) ∧
        (s'.page_table[p]? = some { frame_number := f, valid := true } ∨
         (checkTLB s (pageOf s a) = none ∧ checkPageTable s (pageOf s a) = some none ∧
          s'.page_faults = s.page_faults + 1 ∧ ¬ s.next_frame < s.total_frames ∧
          ((oldestIndex (s.physical_memory.map (fun fr => fr.time)) : Nat) : Int) = f ∧
          s'.page_table[p]? = some { frame_number := f, valid := false }))) := by
  obtain ⟨hinv, _⟩ := hr.inv h0 h16 htf hB
  have hany : ∀ (t : MMUState) (p : Nat) (f : Int),
      (t.page_table.length : Int) = t.page_table_size → (p : Int) < t.page_table_size →
      ∃ t', updatePageTable t (p : Int) f = some t' ∧
        checkPageTable t' (p : Int) = some (some f) ∧
        ∀ q : Nat, q ≠ p → t'.page_table[q]? = t.page_table[q]? := by
    intro t p f hlen hp
    have hpl : p < t.page_table.length := by omega
    have he : t.page_table[p]? = some t.page_table[p] := List.getElem?_eq_getElem hpl
    refine ⟨{ t with page_table := t.page_table.set p { frame_number := f, valid := true } },
      ?_, ?_, ?_⟩
    · unfold updatePageTable
      rw [arrModify_natCast _ he]
      rfl
    · unfold checkPageTable
      rw [arrGet_natCast]
      show ((t.page_table.set p _)[p]?).map _ = _
      rw [getElem?_set_self' _ _ hpl]
      rfl
    · intro q hq
      show (t.page_table.set p _)[q]? = _
      rw [getElem?_set_ne' _ _ hq]
  refine ⟨fun p f hp => hany s p f hinv.pt_len hp, hany, ?_⟩
  intro p f hpf a ha
  obtain ⟨pn, b, hpn, hplt, _, hcases⟩ := translateAddress_cases hinv a ha
  have hne_of_invalid : ∀ e : PageTableEntry, s.page_table[pn]? = some e →
      e.valid = false → p ≠ pn := by
    intro e he hev hpp
    subst hpp
    rw [hpf] at he
    injection he with he
    rw [← he] at hev
    cases hev
  have hcpt : ∀ e : PageTableEntry, s.page_table[pn]? = some e → e.valid = false →
      checkPageTable s (pageOf s a) = some none := by
    intro e he hev
    unfold checkPageTable
    rw [hpn, arrGet_natCast, he]
    simp [hev]
  rcases hcases with ⟨f1, _, _, ht⟩ | ⟨f1, _, _, ht⟩ | ⟨e, hc, he, hev, hnf, ht⟩ |
    ⟨e, q, fr, hc, he, hev, hnf, hfr, hq, ht⟩
  · exact ⟨_, _, b, ht, Or.inl hpf⟩
  · refine ⟨_, _, b, ht, Or.inl ?_⟩
    rw [updateTLB_page_table]
    exact hpf
  · refine ⟨_, _, b, ht, Or.inl ?_⟩
    rw [updateTLB_page_table]
    show (s.page_table.set pn _)[p]? = _
    rw [getElem?_set_ne' _ _ (hne_of_invalid e he hev)]
    exact hpf
  · have hvn : ((oldestIndex (s.physical_memory.map (fun fr => fr.time)) : Nat) : Int) <
        s.next_frame := by
      have hl : oldestIndex (s.physical_memory.map (fun fr => fr.time)) <
          s.physical_memory.length := by
        rcases Nat.lt_or_ge (oldestIndex (s.physical_memory.map (fun fr => fr.time)))
          s.physical_memory.length with hl | hl
        · exact hl
        · rw [List.getElem?_eq_none hl] at hfr; cases hfr
      have := hinv.pm_len
      have := hinv.nf_le
      omega
    obtain ⟨_, hptq, _⟩ := hinv.frame_loaded _ fr hfr hvn
    rw [hq, Int.toNat_natCast] at hptq
    refine ⟨_, _, b, ht, ?_⟩
    rw [updateTLB_page_table, updateTLB_page_faults]
    show ((s.page_table.set q _).set pn _)[p]? = _ ∨ _
    rw [getElem?_set_ne' _ _ (hne_of_invalid e he hev)]
    by_cases hpq : p = q
    · right
      subst hpq
      rw [hpf] at hptq
      injection hptq with hptq
      injection hptq with hptq
      have hpl : p < s.page_table.length := by
        rcases Nat.lt_or_ge p s.page_table.length with hl | hl
        · exact hl
        · rw [List.getElem?_eq_none hl] at hpf; cases hpf
      have hc' : checkTLB s (pageOf s a) = none := by rw [hpn]; exact hc
      subst hptq
      refine ⟨hc', hcpt e he hev, rfl, hnf, rfl, ?_⟩
      show ((s.page_table.set p _).set pn _)[p]? = _
      rw [getElem?_set_ne' _ _ (hne_of_invalid e he hev)]
      exact getElem?_set_self' s.page_table _ hpl
    · left
      rw [getElem?_set_ne' _ _ hpq]
      exact hpf

set_option maxRecDepth 100000 in
/-- Witness of claim C10: the freshly initialised state for the installation of
an entry, and the example state, where page 1 is valid with frame 1 and the
address 0 is translated. -/
theorem page_table_entry_stable_witness :
    (∀ (p : Nat) (f : Int), (p : Int) < (initializeSystem exampleStore 8 2).page_table_size →
      ∃ t, updatePageTable (initializeSystem exampleStore 8 2) (p : Int) f = some t ∧
        checkPageTable t (p : Int) = some (some f) ∧
        ∀ q : Nat, q ≠ p →
          t.page_table[q]? = (initializeSystem exampleStore 8 2).page_table[q]?) ∧
    exampleState.page_table[1]? = some { frame_number := 1, valid := true } ∧
    ∃ (s' : MMUState) (pa : Int) (b : UInt8),
      translateAddress exampleState 0 = some (s', pa, b) ∧
      (s'.page_table[1]? = some { frame_number := 1, valid := true } ∨
       (checkTLB exampleState (pageOf exampleState 0) = none ∧
        checkPageTable exampleState (pageOf exampleState 0) = some none ∧
        s'.page_faults = exampleState.page_faults + 1 ∧
        ¬ exampleState.next_frame < exampleState.total_frames ∧
        ((oldestIndex (exampleState.physical_memory.map (fun fr => fr.time)) : Nat) : Int) = 1 ∧
        s'.page_table[1]? = some { frame_number := 1, valid := false })) :=
  ⟨(page_table_entry_stable exampleStore 8 2 (by decide) (by decide) (by decide)
      exampleStore_length (initializeSystem exampleStore 8 2)
      ⟨[], fun a ha => absurd ha (List.not_mem_nil a), rfl⟩).1,
   by decide,
   (page_table_entry_stable exampleStore 8 2 (by decide) (by decide) (by decide)
      exampleStore_length exampleState exampleState_reachable).2.2 1 1 (by decide) 0
      (by decide)⟩

set_option maxRecDepth 100000 in
/-- Claim C11, evaluated at the input `(frame_bits_input, total_frames_input) =
(8, 0)`: the loop of `main` computes `total_memory_size = 0`, which passes both
tests although `0 * 2^8` is not a power of two, so `initializeSystem(8, 0)` is
called and sets `total_frames` to 0; on the state it builds the first
`translateAddress` has no result (`replacePage` reads `physical_memory[0]` of an
empty frame array). -/
theorem main_accepts_zero_frames :
    mainAccepts 8 0 = true ∧ totalMemorySize 8 0 = 0 ∧
    (¬ ∃ k : Nat, (0 : Int) * 2 ^ (8 : Nat) = (2 : Int) ^ k) ∧
    (initializeSystem exampleStore 8 0).total_frames = 0 ∧
    translateAddress (initializeSystem exampleStore 8 0) 0 = none := by
  have hsize : totalMemorySize 8 0 = 0 := by decide
  have hland : Int.land 0 (-1) = 0 := by
    show ((Nat.ldiff 0 0 : Nat) : Int) = 0
    simp [Nat.ldiff]
  refine ⟨?_, hsize, ?_, rfl, ?_⟩
  · unfold mainAccepts
    simp only [hsize]
    have h1 : wrap32 (0 - 1) = -1 := by decide
    rw [h1, hland]
    decide
  · rintro ⟨k, hk⟩
    have : (0 : Int) < 2 ^ k := by positivity
    omega
  · have h : (translateAddress (initializeSystem exampleStore 8 0) 0).isNone = true := by
      decide
    cases ht : translateAddress (initializeSystem exampleStore 8 0) 0 with
    | none => rfl
    | some r => rw [ht] at h; cases h

/-- Claim C12 fails on the code: `generateStatistics` has no guard.  Right after
`initializeSystem` (`total_addresses == 0`) both rates are the result of the
division `(double)0 / 0`, the IEEE value NaN, and not a finite value. -/
theorem statistics_divide_by_zero_initially :
    (initializeSystem exampleStore 8 2).total_addresses = 0 ∧
    (generateStatistics (initializeSystem exampleStore 8 2)).1 = doubleDiv 0 0 ∧
    (generateStatistics (initializeSystem exampleStore 8 2)).2 = doubleDiv 0 0 ∧
    doubleDiv 0 0 = DoubleQuotient.nan ∧
    ¬ ∃ q : ℚ, (generateStatistics (initializeSystem exampleStore 8 2)).1 =
      DoubleQuotient.finite q := by
  refine ⟨rfl, rfl, rfl, rfl, ?_⟩
  rintro ⟨q, hq⟩
  have h : (generateStatistics (initializeSystem exampleStore 8 2)).1 = DoubleQuotient.nan :=
    rfl
  rw [h] at hq
  cases hq

/-- Claim C12 as amended.  In a state reachable from `initializeSystem`,
`generateStatistics` computes both rates by the unguarded divisions
`(double)page_faults / total_addresses` and `(double)tlb_hits / total_addresses`:
when `total_addresses ≠ 0` each rate is the quotient, a value between 0 and 1;
when `total_addresses == 0` both are the result of `0.0 / 0`, NaN. -/
theorem statistics_rates_unguarded (B : List UInt8) (fb tf : Int)
    (h0 : 0 ≤ fb) (h16 : fb ≤ 16) (htf : 1 ≤ tf) (hB : 65536 ≤ B.length)
    (s : MMUState) (hr : Reachable B fb tf s) :
    generateStatistics s =
      (doubleDiv s.page_faults s.total_addresses, doubleDiv s.tlb_hits s.total_addresses) ∧
    (s.total_addresses ≠ 0 →
      generateStatistics s =
        (DoubleQuotient.finite ((s.page_faults : ℚ) / (s.total_addresses : ℚ)),
         DoubleQuotient.finite ((s.tlb_hits : ℚ) / (s.total_addresses : ℚ))) ∧
      0 ≤ (s.page_faults : ℚ) / (s.total_addresses : ℚ) ∧
      (s.page_faults : ℚ) / (s.total_addresses : ℚ) ≤ 1 ∧
      0 ≤ (s.tlb_hits : ℚ) / (s.total_addresses : ℚ) ∧
      (s.tlb_hits : ℚ) / (s.total_addresses : ℚ) ≤ 1) ∧
    (s.total_addresses = 0 →
      generateStatistics s = (DoubleQuotient.nan, DoubleQuotient.nan)) := by
  obtain ⟨c1, c2, c3, c4, _⟩ := hr.counters h0 h16 htf hB
  refine ⟨rfl, ?_, ?_⟩
  · intro hne
    have hpos : (0 : ℚ) < (s.total_addresses : ℚ) := by
      have : 0 < s.total_addresses := by omega
      exact_mod_cast this
    have hf0 : (0 : ℚ) ≤ (s.page_faults : ℚ) := by exact_mod_cast c2
    have hh0 : (0 : ℚ) ≤ (s.tlb_hits : ℚ) := by exact_mod_cast c1
    have hf1 : (s.page_faults : ℚ) ≤ (s.total_addresses : ℚ) := by
      have : s.page_faults ≤ s.total_addresses := by omega
      exact_mod_cast this
    have hh1 : (s.tlb_hits : ℚ) ≤ (s.total_addresses : ℚ) := by
      have : s.tlb_hits ≤ s.total_addresses := by omega
      exact_mod_cast this
    refine ⟨?_, div_nonneg hf0 (le_of_lt hpos), (div_le_one hpos).mpr hf1,
      div_nonneg hh0 (le_of_lt hpos), (div_le_one hpos).mpr hh1⟩
    simp [generateStatistics, doubleDiv, hne]
  · intro hz
    have hf : s.page_faults = 0 := by omega
    have hh : s.tlb_hits = 0 := by omega
    simp [generateStatistics, doubleDiv, hz, hf, hh]

set_option maxRecDepth 100000 in
/-- Witness of claim C12 as amended: the example state, after three
translations. -/
theorem statistics_rates_unguarded_witness :
    exampleState.total_addresses = 3 ∧
    generateStatistics exampleState =
      (doubleDiv exampleState.page_faults exampleState.total_addresses,
       doubleDiv exampleState.tlb_hits exampleState.total_addresses) ∧
    (exampleState.total_addresses ≠ 0 →
      generateStatistics exampleState =
        (DoubleQuotient.finite
          ((exampleState.page_faults : ℚ) / (exampleState.total_addresses : ℚ)),
         DoubleQuotient.finite
          ((exampleState.tlb_hits : ℚ) / (exampleState.total_addresses : ℚ))) ∧
      0 ≤ (exampleState.page_faults : ℚ) / (exampleState.total_addresses : ℚ) ∧
      (exampleState.page_faults : ℚ) / (exampleState.total_addresses : ℚ) ≤ 1 ∧
      0 ≤ (exampleState.tlb_hits : ℚ) / (exampleState.total_addresses : ℚ) ∧
      (exampleState.tlb_hits : ℚ) / (exampleState.total_addresses : ℚ) ≤ 1) ∧
    (exampleState.total_addresses = 0 →
      generateStatistics exampleState = (DoubleQuotient.nan, DoubleQuotient.nan)) :=
  ⟨by decide,
   statistics_rates_unguarded exampleStore 8 2 (by decide) (by decide) (by decide)
    exampleStore_length exampleState exampleState_reachable⟩

/-- Claim C13.  In a state reachable from `initializeSystem` (`total_frames ≥ 1`)
with `next_frame == total_frames`, the times of the frames are pairwise distinct,
and `replacePage` returns: its victim `v` is the frame whose time is strictly
smaller than the time of every other frame, and after the call the time of frame
`v` is strictly greater than the time of every other frame. -/
theorem victim_is_unique_oldest_frame (B : List UInt8) (fb tf : Int)
    (h0 : 0 ≤ fb) (h16 : fb ≤ 16) (htf : 1 ≤ tf) (hB : 65536 ≤ B.length)
    (s : MMUState) (hr : Reachable B fb tf s) (hfull : s.next_frame = s.total_frames)
    (p : Nat) (hp : (p : Int) < s.page_table_size) :
    (∀ (i j : Nat) (fi fj : Frame), s.physical_memory[i]? = some fi →
      s.physical_memory[j]? = some fj → fi.time = fj.time → i = j) ∧
    ∃ (v : Nat) (fv : Frame) (s' : MMUState),
      replacePage s (p : Int) = some (s', (v : Int)) ∧
      s.physical_memory[v]? = some fv ∧
      (∀ (j : Nat) (fj : Frame), s.physical_memory[j]? = some fj → j ≠ v →
        fv.time < fj.time) ∧
      s'.physical_memory.length = s.physical_memory.length ∧
      ∃ fv' : Frame, s'.physical_memory[v]? = some fv' ∧
        ∀ (j : Nat) (fj : Frame), s'.physical_memory[j]? = some fj → j ≠ v →
          fj.time < fv'.time := by
  obtain ⟨hinv, _⟩ := hr.inv h0 h16 htf hB
  have hnf : ¬ s.next_frame < s.total_frames := by omega
  have hpm := hinv.pm_len
  have hlt : ∀ (j : Nat) (fj : Frame), s.physical_memory[j]? = some fj →
      (j : Int) < s.next_frame := by
    intro j fj hj
    have : j < s.physical_memory.length := by
      rcases Nat.lt_or_ge j s.physical_memory.length with hl | hl
      · exact hl
      · rw [List.getElem?_eq_none hl] at hj; cases hj
    omega
  refine ⟨?_, ?_⟩
  · intro i j fi fj hi hj ht
    obtain ⟨_, _, _, _, a5, _, _⟩ := hinv.frame_loaded i fi hi (hlt i fi hi)
    obtain ⟨_, _, _, _, b5, _, _⟩ := hinv.frame_loaded j fj hj (hlt j fj hj)
    rw [ht] at a5
    omega
  · obtain ⟨q, fr, hfr, hq, hrep⟩ := replacePage_full hinv p hp hnf
    obtain ⟨hvt, _, hother⟩ := victim_facts hinv hnf fr hfr
    generalize oldestIndex (s.physical_memory.map (fun f => f.time)) = v at *
    have hvl : v < s.physical_memory.length := by
      rcases Nat.lt_or_ge v s.physical_memory.length with hl | hl
      · exact hl
      · rw [List.getElem?_eq_none hl] at hfr; cases hfr
    refine ⟨v, fr, afterReplace s p v q, hrep, hfr, ?_, ?_, ?_⟩
    · intro j fj hj hne
      have := hother j fj hj hne
      omega
    · show (s.physical_memory.set v _).length = _
      rw [List.length_set]
    · refine ⟨{ data := (s.backing_store.drop (p * s.frame_size.toNat)).take s.frame_size.toNat
                page_number := (p : Int)
                time := s.page_counter }, ?_, ?_⟩
      · show (s.physical_memory.set v _)[v]? = _
        rw [List.getElem?_set_self hvl]
      · intro j fj hj hne
        have hj' : s.physical_memory[j]? = some fj := by
          have : (s.physical_memory.set v _)[j]? = some fj := hj
          rwa [List.getElem?_set_ne (Ne.symm hne)] at this
        obtain ⟨_, _, _, _, _, _, b7⟩ := hinv.frame_loaded j fj hj' (hlt j fj hj')
        exact b7

set_option maxRecDepth 100000 in
/-- Witness of claim C13: the example state has both of its two frames in use. -/
theorem victim_is_unique_oldest_frame_witness :
    exampleState.next_frame = exampleState.total_frames ∧
    ((3 : Nat) : Int) < exampleState.page_table_size ∧
    ((∀ (i j : Nat) (fi fj : Frame), exampleState.physical_memory[i]? = some fi →
      exampleState.physical_memory[j]? = some fj → fi.time = fj.time → i = j) ∧
    ∃ (v : Nat) (fv : Frame) (s' : MMUState),
      replacePage exampleState ((3 : Nat) : Int) = some (s', (v : Int)) ∧
      exampleState.physical_memory[v]? = some fv ∧
      (∀ (j : Nat) (fj : Frame), exampleState.physical_memory[j]? = some fj → j ≠ v →
        fv.time < fj.time) ∧
      s'.physical_memory.length = exampleState.physical_memory.length ∧
      ∃ fv' : Frame, s'.physical_memory[v]? = some fv' ∧
        ∀ (j : Nat) (fj : Frame), s'.physical_memory[j]? = some fj → j ≠ v →
          fj.time < fv'.time) :=
  ⟨by decide, by decide,
   victim_is_unique_oldest_frame exampleStore 8 2 (by decide) (by decide) (by decide)
    exampleStore_length exampleState exampleState_reachable (by decide) 3 (by decide)⟩

/-- Claim C14.  Let `s` be a state reachable from `initializeSystem`
(`total_frames ≥ 1`) with no free frame, and `p` a page that is not valid in the
page table (the condition under which `translateAddress` reaches `replacePage`).
Then `replacePage(p)` returns a victim frame `v`, owned before by a page `q`, and
afterwards: `page_table[q]` is invalid, `page_table[p]` is valid with frame `v`,
every other page-table entry is unchanged; if a valid TLB slot `i` held `q`, slot
`i` now is valid and holds `(p, v)` with the time `tlb_counter`, larger than the
time of every other valid slot, `tlb_counter` grows by one and every other slot is
unchanged; if no valid TLB slot held `q`, the TLB and `tlb_counter` are unchanged. -/
theorem replacePage_effect (B : List UInt8) (fb tf : Int)
    (h0 : 0 ≤ fb) (h16 : fb ≤ 16) (htf : 1 ≤ tf) (hB : 65536 ≤ B.length)
    (s : MMUState) (hr : Reachable B fb tf s) (hfull : s.next_frame = s.total_frames)
    (p : Nat) (hctx : checkPageTable s (p : Int) = some none) :
    ∃ (v q : Nat) (fv : Frame) (s' : MMUState),
      replacePage s (p : Int) = some (s', (v : Int)) ∧
      s.physical_memory[v]? = some fv ∧ fv.page_number = (q : Int) ∧
      s.page_table[q]? = some { frame_number := (v : Int), valid := true } ∧
      s'.page_table[q]? = some { frame_number := (v : Int), valid := false } ∧
      s'.page_table[p]? = some { frame_number := (v : Int), valid := true } ∧
      (∀ r : Nat, r ≠ p → r ≠ q → s'.page_table[r]? = s.page_table[r]?) ∧
      (∀ (i : Nat) (ei : TLBEntry), s.tlb[i]? = some ei → ei.valid = true →
        ei.page_number = (q : Int) →
          s'.tlb[i]? = some { page_number := (p : Int), frame_number := (v : Int),
                              valid := true, time := s.tlb_counter } ∧
          s'.tlb_counter = s.tlb_counter + 1 ∧
          (∀ j : Nat, j ≠ i → s'.tlb[j]? = s.tlb[j]?) ∧
          (∀ (j : Nat) (ej : TLBEntry), j ≠ i → s'.tlb[j]? = some ej → ej.valid = true →
            ej.time < s.tlb_counter)) ∧
      ((∀ (i : Nat) (ei : TLBEntry), s.tlb[i]? = some ei → ei.valid = true →
        ei.page_number ≠ (q : Int)) →
          s'.tlb = s.tlb ∧ s'.tlb_counter = s.tlb_counter) := by
  obtain ⟨hinv, _⟩ := hr.inv h0 h16 htf hB
  have hnf : ¬ s.next_frame < s.total_frames := by omega
  -- the calling context: `p` is in range and not valid
  obtain ⟨e, he, hev⟩ : ∃ e, s.page_table[p]? = some e ∧ e.valid = false := by
    unfold checkPageTable at hctx
    rw [arrGet_natCast] at hctx
    cases hpe : s.page_table[p]? with
    | none => rw [hpe] at hctx; cases hctx
    | some e =>
      rw [hpe] at hctx
      refine ⟨e, rfl, ?_⟩
      cases hv : e.valid with
      | false => rfl
      | true => simp [hv] at hctx
  have hpl : p < s.page_table.length := by
    rcases Nat.lt_or_ge p s.page_table.length with hl | hl
    · exact hl
    · rw [List.getElem?_eq_none hl] at he; cases he
  have hp : (p : Int) < s.page_table_size := by
    have := hinv.pt_len
    omega
  obtain ⟨q, fr, hfr, hq, hrep⟩ := replacePage_full hinv p hp hnf
  generalize oldestIndex (s.physical_memory.map (fun f => f.time)) = v at *
  have hvl : v < s.physical_memory.length := by
    rcases Nat.lt_or_ge v s.physical_memory.length with hl | hl
    · exact hl
    · rw [List.getElem?_eq_none hl] at hfr; cases hfr
  have hvnf : (v : Int) < s.next_frame := by
    have := hinv.pm_len
    omega
  obtain ⟨_, a2, _⟩ := hinv.frame_loaded v fr hfr hvnf
  rw [hq, Int.toNat_ofNat] at a2
  have hql : q < s.page_table.length := by
    rcases Nat.lt_or_ge q s.page_table.length with hl | hl
    · exact hl
    · rw [List.getElem?_eq_none hl] at a2; cases a2
  have hpq : p ≠ q := by
    intro hpq
    rw [hpq, a2] at he
    injection he with he
    rw [← he] at hev
    cases hev
  refine ⟨v, q, fr, afterReplace s p v q, hrep, hfr, hq, a2, ?_, ?_, ?_, ?_, ?_⟩
  · show ((s.page_table.set q _).set p _)[q]? = _
    rw [List.getElem?_set_ne hpq, List.getElem?_set_self hql]
  · show ((s.page_table.set q _).set p _)[p]? = _
    rw [List.getElem?_set_self (by rw [List.length_set]; exact hpl)]
  · intro r hrp hrq
    show ((s.page_table.set q _).set p _)[r]? = _
    rw [List.getElem?_set_ne (Ne.symm hrp), List.getElem?_set_ne (Ne.symm hrq)]
  · intro i ei hi hiv hipg
    rcases victimTLB_cases s p v q with ⟨_, hnone⟩ | ⟨i0, e0, hi0, hv0, hp0, _, hvt⟩
    · exact absurd hipg (hnone i ei hi hiv)
    · have hii : i = i0 := hinv.tlb_inj i i0 ei e0 hi hi0 hiv hv0 (by rw [hipg, hp0])
      subst hii
      have hil : i < s.tlb.length := by
        rcases Nat.lt_or_ge i s.tlb.length with hl | hl
        · exact hl
        · rw [List.getElem?_eq_none hl] at hi; cases hi
      have htlb : (afterReplace s p v q).tlb = s.tlb.set i
          { valid := true, page_number := (p : Int), frame_number := (v : Int),
            time := s.tlb_counter } := by
        show (victimTLB s p v q).1 = _
        rw [hvt]
      have hcnt : (afterReplace s p v q).tlb_counter = s.tlb_counter + 1 := by
        show (victimTLB s p v q).2 = _
        rw [hvt]
      refine ⟨?_, hcnt, ?_, ?_⟩
      · rw [htlb, List.getElem?_set_self hil]
      · intro j hj
        rw [htlb, List.getElem?_set_ne (Ne.symm hj)]
      · intro j ej hj hje hjv
        rw [htlb, List.getElem?_set_ne (Ne.symm hj)] at hje
        exact (hinv.tlb_coh j ej hje hjv).2.2
  · intro hnone
    rcases victimTLB_cases s p v q with ⟨hvt, _⟩ | ⟨i0, e0, hi0, hv0, hp0, _, _⟩
    · constructor
      · show (victimTLB s p v q).1 = _
        rw [hvt]
      · show (victimTLB s p v q).2 = _
        rw [hvt]
    · exact absurd hp0 (hnone i0 e0 hi0 hv0)

set_option maxRecDepth 100000 in
/-- Witness of claim C14: in the example state both frames are in use and page 3
is not valid in the page table. -/
theorem replacePage_effect_witness :
    exampleState.next_frame = exampleState.total_frames ∧
    checkPageTable exampleState ((3 : Nat) : Int) = some none ∧
    ∃ (v q : Nat) (fv : Frame) (s' : MMUState),
      replacePage exampleState ((3 : Nat) : Int) = some (s', (v : Int)) ∧
      exampleState.physical_memory[v]? = some fv ∧ fv.page_number = (q : Int) ∧
      exampleState.page_table[q]? = some { frame_number := (v : Int), valid := true } ∧
      s'.page_table[q]? = some { frame_number := (v : Int), valid := false } ∧
      s'.page_table[3]? = some { frame_number := (v : Int), valid := true } ∧
      (∀ r : Nat, r ≠ 3 → r ≠ q → s'.page_table[r]? = exampleState.page_table[r]?) ∧
      (∀ (i : Nat) (ei : TLBEntry), exampleState.tlb[i]? = some ei → ei.valid = true →
        ei.page_number = (q : Int) →
          s'.tlb[i]? = some { page_number := ((3 : Nat) : Int), frame_number := (v : Int),
                              valid := true, time := exampleState.tlb_counter } ∧
          s'.tlb_counter = exampleState.tlb_counter + 1 ∧
          (∀ j : Nat, j ≠ i → s'.tlb[j]? = exampleState.tlb[j]?) ∧
          (∀ (j : Nat) (ej : TLBEntry), j ≠ i → s'.tlb[j]? = some ej → ej.valid = true →
            ej.time < exampleState.tlb_counter)) ∧
      ((∀ (i : Nat) (ei : TLBEntry), exampleState.tlb[i]? = some ei → ei.valid = true →
        ei.page_number ≠ (q : Int)) →
          s'.tlb = exampleState.tlb ∧ s'.tlb_counter = exampleState.tlb_counter) :=
  ⟨by decide, by decide,
   replacePage_effect exampleStore 8 2 (by decide) (by decide) (by decide)
    exampleStore_length exampleState exampleState_reachable (by decide) 3 (by decide)⟩

/-- Claim C15.  Take any state whose 16-slot TLB has valid entries with pairwise
distinct page numbers and pairwise distinct times below `tlb_counter`, and any
`(p, f)`.  After `updateTLB(p, f)`: `checkTLB(p)` finds frame `f`; if `p` was in
a valid slot, only the frame number and the time of that slot change; otherwise,
if there is an invalid slot, the invalid slot of lowest index is filled and every
page found before is still found; otherwise the slot with the strictly smallest
time is overwritten, its page is no longer found and every other page found
before is still found.  In all cases a page `q ≠ p` found before and after has
the same frame number, and the resulting TLB again has pairwise distinct valid
pages and pairwise distinct valid times below the new `tlb_counter`. -/
theorem updateTLB_effect (s : MMUState) (p f : Int)
    (hlen : s.tlb.length = TLB_SIZE)
    (hpg : ∀ (i j : Nat) (ei ej : TLBEntry), s.tlb[i]? = some ei → s.tlb[j]? = some ej →
      ei.valid = true → ej.valid = true → ei.page_number = ej.page_number → i = j)
    (htime : ∀ (i j : Nat) (ei ej : TLBEntry), s.tlb[i]? = some ei → s.tlb[j]? = some ej →
      ei.valid = true → ej.valid = true → ei.time = ej.time → i = j)
    (hlt : ∀ (i : Nat) (ei : TLBEntry), s.tlb[i]? = some ei → ei.valid = true →
      ei.time < s.tlb_counter) :
    checkTLB (updateTLB s p f) p = some f ∧
    (∀ (i : Nat) (ei : TLBEntry), s.tlb[i]? = some ei → ei.valid = true →
      ei.page_number = p →
        (updateTLB s p f).tlb =
          s.tlb.set i { ei with frame_number := f, time := s.tlb_counter }) ∧
    (checkTLB s p = none →
      ∀ (i : Nat) (ei : TLBEntry), s.tlb[i]? = some ei → ei.valid = false →
        (∀ (j : Nat) (ej : TLBEntry), j < i → s.tlb[j]? = some ej → ej.valid = true) →
          (updateTLB s p f).tlb =
            s.tlb.set i { page_number := p, frame_number := f, valid := true,
                          time := s.tlb_counter } ∧
          ∀ (q g : Int), checkTLB s q = some g → checkTLB (updateTLB s p f) q = some g) ∧
    (checkTLB s p = none →
      (∀ (j : Nat) (ej : TLBEntry), s.tlb[j]? = some ej → ej.valid = true) →
        ∃ (i : Nat) (ei : TLBEntry), s.tlb[i]? = some ei ∧
          (∀ (j : Nat) (ej : TLBEntry), s.tlb[j]? = some ej → j ≠ i → ei.time < ej.time) ∧
          (updateTLB s p f).tlb =
            s.tlb.set i { page_number := p, frame_number := f, valid := true,
                          time := s.tlb_counter } ∧
          checkTLB s ei.page_number = some ei.frame_number ∧
          checkTLB (updateTLB s p f) ei.page_number = none ∧
          ∀ (q g : Int), q ≠ ei.page_number → checkTLB s q = some g →
            checkTLB (updateTLB s p f) q = some g) ∧
    (∀ (q g1 g2 : Int), q ≠ p → checkTLB s q = some g1 →
      checkTLB (updateTLB s p f) q = some g2 → g1 = g2) ∧
    ((∀ (i j : Nat) (ei ej : TLBEntry), (updateTLB s p f).tlb[i]? = some ei →
        (updateTLB s p f).tlb[j]? = some ej → ei.valid = true → ej.valid = true →
        ei.page_number = ej.page_number → i = j) ∧
     (∀ (i j : Nat) (ei ej : TLBEntry), (updateTLB s p f).tlb[i]? = some ei →
        (updateTLB s p f).tlb[j]? = some ej → ei.valid = true → ej.valid = true →
        ei.time = ej.time → i = j) ∧
     (∀ (i : Nat) (ei : TLBEntry), (updateTLB s p f).tlb[i]? = some ei → ei.valid = true →
        ei.time < (updateTLB s p f).tlb_counter)) := by
  have hne : s.tlb ≠ [] := by
    intro e
    rw [e] at hlen
    cases hlen
  have hbound : ∀ {j : Nat} {e : TLBEntry}, s.tlb[j]? = some e → j < s.tlb.length := by
    intro j e hj
    rcases Nat.lt_or_ge j s.tlb.length with hl | hl
    · exact hl
    · rw [List.getElem?_eq_none hl] at hj; cases hj
  have hdist : TLBDistinct (updateTLB s p f).tlb := updateTLB_distinct s p f hpg
  obtain ⟨i0, hi0, hupd, huniq⟩ := updateTLB_set s p f hne hpg
  have htlb : (updateTLB s p f).tlb = s.tlb.set i0
      { valid := true, page_number := p, frame_number := f, time := s.tlb_counter } := by
    rw [hupd]
  -- a page found after a write into slot `i` of an entry for `p`
  have keep : ∀ (i : Nat), (updateTLB s p f).tlb = s.tlb.set i
      { valid := true, page_number := p, frame_number := f, time := s.tlb_counter } →
      ∀ (j : Nat) (e : TLBEntry), s.tlb[j]? = some e → e.valid = true → j ≠ i →
        checkTLB (updateTLB s p f) e.page_number = some e.frame_number := by
    intro i hset j e hj hv hji
    have hj' : (updateTLB s p f).tlb[j]? = some e := by
      rw [hset, List.getElem?_set_ne (Ne.symm hji)]
      exact hj
    exact checkTLB_of_entry hdist hj' hv
  have hcnt : (updateTLB s p f).tlb_counter = s.tlb_counter + 1 := by
    rw [hupd]
  have hold : ∀ (j : Nat) (e : TLBEntry), (updateTLB s p f).tlb[j]? = some e →
      e.valid = true → j ≠ i0 → e.time < s.tlb_counter := by
    intro j e hj hv hji
    rw [htlb, List.getElem?_set_ne (Ne.symm hji)] at hj
    exact hlt j e hj hv
  have hnew : ∀ (e : TLBEntry), (updateTLB s p f).tlb[i0]? = some e →
      e.time = s.tlb_counter := by
    intro e hj
    rw [htlb, List.getElem?_set_self hi0] at hj
    injection hj with hj
    rw [← hj]
  refine ⟨?_, ?_, ?_, ?_, ?_, hdist, ?_, ?_⟩
  · have hget : (updateTLB s p f).tlb[i0]? = some
        { valid := true, page_number := p, frame_number := f, time := s.tlb_counter } := by
      rw [htlb, List.getElem?_set_self hi0]
    exact checkTLB_of_entry hdist hget rfl
  · intro i ei hi hv hp
    have hii := huniq i ei hi hv hp
    subst hii
    rw [htlb]
    congr 1
    cases ei with
    | mk pn fn vl tm =>
      simp only at hv hp
      subst hv
      subst hp
      rfl
  · intro hnone i ei hi hv hfirst
    have h1 : s.tlb.findIdx? (fun e => e.valid && e.page_number == p) = none := by
      apply findIdx?_eq_none_of_get
      intro j b hb
      cases hbv : b.valid with
      | false => simp
      | true =>
        have := checkTLB_eq_none.mp hnone j b hb hbv
        simp [this]
    have h2 : s.tlb.findIdx? (fun e => !e.valid) = some i := by
      apply findIdx?_eq_some_of_get hi
      · simp [hv]
      · intro j b hj hb
        simp [hfirst j b hj hb]
    have hset := updateTLB_fill f h1 h2
    have hset' : (updateTLB s p f).tlb = s.tlb.set i
        { valid := true, page_number := p, frame_number := f, time := s.tlb_counter } := by
      rw [hset]
    refine ⟨hset', ?_⟩
    intro q g hq
    obtain ⟨j, e, hj, hjv, hjp, hjf⟩ := checkTLB_eq_some hq
    have hji : j ≠ i := by
      intro h
      rw [h, hi] at hj
      injection hj with hj
      rw [hj, hjv] at hv
      cases hv
    have := keep i hset' j e hj hjv hji
    rw [hjp, hjf] at this
    exact this
  · intro hnone hall
    have h1 : s.tlb.findIdx? (fun e => e.valid && e.page_number == p) = none := by
      apply findIdx?_eq_none_of_get
      intro j b hb
      have := checkTLB_eq_none.mp hnone j b hb (hall j b hb)
      simp [this]
    have h2 : s.tlb.findIdx? (fun e => !e.valid) = none := by
      apply findIdx?_eq_none_of_get
      intro j b hb
      simp [hall j b hb]
    have hset := updateTLB_evict f h1 h2 hne
    have hmne : s.tlb.map (fun e => e.time) ≠ [] := by
      intro e
      exact hne (List.map_eq_nil_iff.mp e)
    obtain ⟨m, hm, hmin, _⟩ := oldestIndex_spec _ hmne
    have hol := oldestIndex_lt _ hmne
    rw [List.length_map] at hol
    generalize oldestIndex (s.tlb.map (fun e => e.time)) = i at *
    have hi : s.tlb[i]? = some s.tlb[i] := List.getElem?_eq_getElem hol
    generalize s.tlb[i] = ei at hi
    have hmi : m = ei.time := by
      rw [List.getElem?_map, hi] at hm
      simpa using hm.symm
    have hset' : (updateTLB s p f).tlb = s.tlb.set i
        { valid := true, page_number := p, frame_number := f, time := s.tlb_counter } := by
      rw [hset]
    refine ⟨i, ei, hi, ?_, hset', checkTLB_of_entry hpg hi (hall i ei hi), ?_, ?_⟩
    · intro j ej hj hji
      have hle : m ≤ ej.time := by
        apply hmin j ej.time
        rw [List.getElem?_map, hj]
        rfl
      have hneq : ei.time ≠ ej.time := by
        intro h
        exact hji (htime i j ei ej hi hj (hall i ei hi) (hall j ej hj) h).symm
      omega
    · apply checkTLB_eq_none.mpr
      intro j e hj hv hpe
      by_cases hji : j = i
      · subst hji
        rw [hset', List.getElem?_set_self hol] at hj
        injection hj with hj
        rw [← hj] at hpe
        simp only at hpe
        exact checkTLB_eq_none.mp hnone j ei hi (hall j ei hi) hpe.symm
      · rw [hset', List.getElem?_set_ne (Ne.symm hji)] at hj
        exact hji (hpg j i e ei hj hi hv (hall i ei hi) hpe)
    · intro q g hqne hq
      obtain ⟨j, e, hj, hjv, hjp, hjf⟩ := checkTLB_eq_some hq
      have hji : j ≠ i := by
        intro h
        rw [h, hi] at hj
        injection hj with hj
        rw [hj] at hqne
        exact hqne hjp.symm
      have := keep i hset' j e hj hjv hji
      rw [hjp, hjf] at this
      exact this
  · intro q g1 g2 hqp hq1 hq2
    obtain ⟨j, e, hj, hjv, hjp, hjf⟩ := checkTLB_eq_some hq1
    obtain ⟨j', e', hj', hjv', hjp', hjf'⟩ := checkTLB_eq_some hq2
    have hne' : j' ≠ i0 := by
      intro h
      rw [h, htlb, List.getElem?_set_self hi0] at hj'
      injection hj' with hj'
      rw [← hj'] at hjp'
      exact hqp hjp'.symm
    rw [htlb, List.getElem?_set_ne (Ne.symm hne')] at hj'
    have hjj := hpg j j' e e' hj hj' hjv hjv' (by rw [hjp, hjp'])
    subst hjj
    rw [hj] at hj'
    injection hj' with hj'
    rw [← hjf, ← hjf', hj']
  · intro i j ei ej hi hj hiv hjv ht
    by_cases hii : i = i0
    · by_cases hji : j = i0
      · rw [hii, hji]
      · subst hii
        have := hnew ei hi
        have := hold j ej hj hjv hji
        omega
    · by_cases hji : j = i0
      · subst hji
        have := hnew ej hj
        have := hold i ei hi hiv hii
        omega
      · rw [htlb, List.getElem?_set_ne (Ne.symm hii)] at hi
        rw [htlb, List.getElem?_set_ne (Ne.symm hji)] at hj
        exact htime i j ei ej hi hj hiv hjv ht
  · intro i ei hi hiv
    rw [hcnt]
    by_cases hii : i = i0
    · subst hii
      have := hnew ei hi
      omega
    · have := hold i ei hi hiv hii
      omega

set_option maxRecDepth 100000 in
/-- Witness of claim C15: the TLB of the example state, which holds pages 2 and 1,
and the pair `(5, 1)`. -/
theorem updateTLB_effect_witness :
    exampleState.tlb.length = TLB_SIZE ∧
    checkTLB exampleState 2 = some 0 ∧ checkTLB exampleState 5 = none ∧
    checkTLB (updateTLB exampleState 5 1) 5 = some 1 ∧
    (∀ (q g1 g2 : Int), q ≠ 5 → checkTLB exampleState q = some g1 →
      checkTLB (updateTLB exampleState 5 1) q = some g2 → g1 = g2) :=
  ⟨by decide, by decide, by decide,
   (updateTLB_effect exampleState 5 1 (by decide)
      (exampleState_reachable.inv (by decide) (by decide) (by decide)
        exampleStore_length).1.tlb_inj
      (exampleState_reachable.inv (by decide) (by decide) (by decide)
        exampleStore_length).1.tlb_time_inj
      (fun i ei hi hv =>
        ((exampleState_reachable.inv (by decide) (by decide) (by decide)
          exampleStore_length).1.tlb_coh i ei hi hv).2.2)).1,
   (updateTLB_effect exampleState 5 1 (by decide)
      (exampleState_reachable.inv (by decide) (by decide) (by decide)
        exampleStore_length).1.tlb_inj
      (exampleState_reachable.inv (by decide) (by decide) (by decide)
        exampleStore_length).1.tlb_time_inj
      (fun i ei hi hv =>
        ((exampleState_reachable.inv (by decide) (by decide) (by decide)
          exampleStore_length).1.tlb_coh i ei hi hv).2.2)).2.2.2.2.1⟩

/-- Claim C16.  In a state reachable from `initializeSystem` (`total_frames ≥ 1`),
when `checkTLB` finds the page of the 16-bit address `a`, `translateAddress(a)`
returns and changes nothing except `tlb_hits` and `total_addresses`, each
incremented by one: the TLB and `tlb_counter`, the page table, the frames,
`next_frame`, `page_counter`, `page_faults`, the backing store and the
configuration are the same before and after. -/
theorem tlb_hit_changes_two_counters (B : List UInt8) (fb tf : Int)
    (h0 : 0 ≤ fb) (h16 : fb ≤ 16) (htf : 1 ≤ tf) (hB : 65536 ≤ B.length)
    (s : MMUState) (hr : Reachable B fb tf s) (a : Nat) (ha : a < 65536) (f : Int)
    (hhit : checkTLB s (pageOf s a) = some f) :
    ∃ (s' : MMUState) (pa : Int) (b : UInt8), translateAddress s a = some (s', pa, b) ∧
      s' = { s with total_addresses := s.total_addresses + 1, tlb_hits := s.tlb_hits + 1 } ∧
      s'.tlb_hits = s.tlb_hits + 1 ∧ s'.total_addresses = s.total_addresses + 1 ∧
      s'.tlb = s.tlb ∧ s'.tlb_counter = s.tlb_counter ∧ s'.page_table = s.page_table ∧
      s'.physical_memory = s.physical_memory ∧ s'.next_frame = s.next_frame ∧
      s'.page_counter = s.page_counter ∧ s'.page_faults = s.page_faults ∧
      s'.backing_store = s.backing_store ∧ s'.page_bits = s.page_bits ∧
      s'.frame_bits = s.frame_bits ∧ s'.offset_bits = s.offset_bits ∧
      s'.page_table_size = s.page_table_size ∧ s'.frame_size = s.frame_size ∧
      s'.total_frames = s.total_frames := by
  obtain ⟨hinv, _⟩ := hr.inv h0 h16 htf hB
  obtain ⟨b, _, _, ht⟩ := translateAddress_tlb_hit hinv a ha f hhit
  exact ⟨_, _, b, ht, rfl, rfl, rfl, rfl, rfl, rfl, rfl, rfl, rfl, rfl, rfl, rfl, rfl, rfl,
    rfl, rfl, rfl⟩

set_option maxRecDepth 100000 in
/-- Witness of claim C16: address 512 lies in page 2, which the TLB of the example
state holds. -/
theorem tlb_hit_changes_two_counters_witness :
    checkTLB exampleState (pageOf exampleState 512) = some 0 ∧
    ∃ (s' : MMUState) (pa : Int) (b : UInt8),
      translateAddress exampleState 512 = some (s', pa, b) ∧
      s' = { exampleState with total_addresses := exampleState.total_addresses + 1,
                               tlb_hits := exampleState.tlb_hits + 1 } ∧
      s'.tlb_hits = exampleState.tlb_hits + 1 ∧
      s'.total_addresses = exampleState.total_addresses + 1 ∧
      s'.tlb = exampleState.tlb ∧ s'.tlb_counter = exampleState.tlb_counter ∧
      s'.page_table = exampleState.page_table ∧
      s'.physical_memory = exampleState.physical_memory ∧
      s'.next_frame = exampleState.next_frame ∧
      s'.page_counter = exampleState.page_counter ∧
      s'.page_faults = exampleState.page_faults ∧
      s'.backing_store = exampleState.backing_store ∧
      s'.page_bits = exampleState.page_bits ∧
      s'.frame_bits = exampleState.frame_bits ∧ s'.offset_bits = exampleState.offset_bits ∧
      s'.page_table_size = exampleState.page_table_size ∧
      s'.frame_size = exampleState.frame_size ∧
      s'.total_frames = exampleState.total_frames :=
  ⟨by decide,
   tlb_hit_changes_two_counters exampleStore 8 2 (by decide) (by decide) (by decide)
    exampleStore_length exampleState exampleState_reachable 512 (by decide) 0 (by decide)⟩

/-- Claim C17.  After `initializeSystem` with `0 ≤ frame_bits ≤ 16`, for every
16-bit logical address `a` the page number and the offset `translateAddress`
computes satisfy `0 ≤ offset < frame_size`, `0 ≤ page_number < page_table_size`
and `(page_number << offset_bits) | offset = page_number * frame_size + offset = a`;
the split is injective on 16-bit addresses and reaches every pair in range.
Every state reached later by `translateAddress` calls computes the same split
with the same sizes. -/
theorem address_split_bijection (B : List UInt8) (fb tf : Int)
    (h0 : 0 ≤ fb) (h16 : fb ≤ 16) :
    (∀ a : Nat, a < 65536 →
      0 ≤ offsetOf (initializeSystem B fb tf) a ∧
      offsetOf (initializeSystem B fb tf) a < (initializeSystem B fb tf).frame_size ∧
      0 ≤ pageOf (initializeSystem B fb tf) a ∧
      pageOf (initializeSystem B fb tf) a < (initializeSystem B fb tf).page_table_size ∧
      Int.lor (pageOf (initializeSystem B fb tf) a <<< (initializeSystem B fb tf).offset_bits)
          (offsetOf (initializeSystem B fb tf) a) =
        pageOf (initializeSystem B fb tf) a * (initializeSystem B fb tf).frame_size +
          offsetOf (initializeSystem B fb tf) a ∧
      pageOf (initializeSystem B fb tf) a * (initializeSystem B fb tf).frame_size +
          offsetOf (initializeSystem B fb tf) a = (a : Int)) ∧
    (∀ a a' : Nat, a < 65536 → a' < 65536 →
      pageOf (initializeSystem B fb tf) a = pageOf (initializeSystem B fb tf) a' →
      offsetOf (initializeSystem B fb tf) a = offsetOf (initializeSystem B fb tf) a' →
      a = a') ∧
    (∀ pn off : Int, 0 ≤ pn → pn < (initializeSystem B fb tf).page_table_size →
      0 ≤ off → off < (initializeSystem B fb tf).frame_size →
      ∃ a : Nat, a < 65536 ∧ pageOf (initializeSystem B fb tf) a = pn ∧
        offsetOf (initializeSystem B fb tf) a = off) ∧
    (∀ s : MMUState, 1 ≤ tf → 65536 ≤ B.length → Reachable B fb tf s →
      s.offset_bits = (initializeSystem B fb tf).offset_bits ∧
      s.frame_size = (initializeSystem B fb tf).frame_size ∧
      s.page_table_size = (initializeSystem B fb tf).page_table_size ∧
      ∀ a : Nat, pageOf s a = pageOf (initializeSystem B fb tf) a ∧
        offsetOf s a = offsetOf (initializeSystem B fb tf) a) := by
  obtain ⟨ob, hob, e1, e2, e3, e4⟩ := cfg_initializeSystem B fb tf h0 h16
  have hreach : ∀ s : MMUState, 1 ≤ tf → 65536 ≤ B.length → Reachable B fb tf s →
      s.offset_bits = (initializeSystem B fb tf).offset_bits ∧
      s.frame_size = (initializeSystem B fb tf).frame_size ∧
      s.page_table_size = (initializeSystem B fb tf).page_table_size ∧
      ∀ a : Nat, pageOf s a = pageOf (initializeSystem B fb tf) a ∧
        offsetOf s a = offsetOf (initializeSystem B fb tf) a := by
    intro s htf hB hr
    obtain ⟨hinv, _, c1, c2, _⟩ := hr.inv h0 h16 htf hB
    obtain ⟨ob', _, d1, _, d3, d4⟩ := hinv.cfg
    have i1 : (initializeSystem B fb tf).offset_bits = fb := rfl
    have i2 : (initializeSystem B fb tf).page_bits = 16 - fb := rfl
    have hob' : ob' = ob := by
      rw [c1] at d1
      rw [i1] at e1
      omega
    subst hob'
    refine ⟨by rw [c1, i1], by rw [d3, e3], by rw [d4, e4], ?_⟩
    intro a
    exact ⟨pageOf_congr (by rw [c1, i1]) (by rw [c2, i2]) a, offsetOf_congr (by rw [c1, i1]) a⟩
  refine (fun h => ⟨h.1, h.2.1, h.2.2, hreach⟩ : _ ∧ _ ∧ _ → _) ?_
  clear hreach
  generalize initializeSystem B fb tf = s at *
  have hpb : s.page_bits = 16 - s.offset_bits := by
    rw [e1, e2]
    omega
  have hpg := pageOf_eq s ob e1 hob hpb
  have hoff := offsetOf_eq s ob e1
  have hpos : 0 < 2 ^ ob := Nat.two_pow_pos ob
  have hpos' : 0 < 2 ^ (16 - ob) := Nat.two_pow_pos (16 - ob)
  have hprod : 2 ^ (16 - ob) * 2 ^ ob = 65536 := by
    rw [← pow_add, Nat.sub_add_cancel hob]
    rfl
  refine ⟨?_, ?_, ?_⟩
  · intro a ha
    rw [hpg a, hoff a, e1, e3, e4]
    have hol : a % 2 ^ ob < 2 ^ ob := Nat.mod_lt _ hpos
    have hpl : a / 2 ^ ob % 2 ^ (16 - ob) < 2 ^ (16 - ob) := Nat.mod_lt _ hpos'
    have hsum := split_sum ob a hob ha
    have hlor : Int.lor (((a / 2 ^ ob % 2 ^ (16 - ob) : Nat) : Int) <<< (ob : Int))
        ((a % 2 ^ ob : Nat) : Int) =
        (((a / 2 ^ ob % 2 ^ (16 - ob)) * 2 ^ ob + a % 2 ^ ob : Nat) : Int) := by
      rw [Int.shiftLeft_coe_nat]
      show (((a / 2 ^ ob % 2 ^ (16 - ob)) <<< ob ||| a % 2 ^ ob : Nat) : Int) = _
      rw [Nat.shiftLeft_eq, Nat.mul_comm (a / 2 ^ ob % 2 ^ (16 - ob)) (2 ^ ob),
        ← Nat.mul_add_lt_is_or hol]
    refine ⟨by positivity, by exact_mod_cast hol, by positivity, by exact_mod_cast hpl, ?_, ?_⟩
    · rw [hlor]
      push_cast
      ring
    · exact_mod_cast hsum
  · intro a a' ha ha' hp ho
    rw [hpg a, hpg a'] at hp
    rw [hoff a, hoff a'] at ho
    have hp' : a / 2 ^ ob % 2 ^ (16 - ob) = a' / 2 ^ ob % 2 ^ (16 - ob) := by exact_mod_cast hp
    have ho' : a % 2 ^ ob = a' % 2 ^ ob := by exact_mod_cast ho
    have h1 := split_sum ob a hob ha
    have h2 := split_sum ob a' hob ha'
    rw [hp', ho'] at h1
    omega
  · intro pn off hpn0 hpn hoff0 hofflt
    rw [e4] at hpn
    rw [e3] at hofflt
    obtain ⟨pn, rfl⟩ := Int.eq_ofNat_of_zero_le hpn0
    obtain ⟨off, rfl⟩ := Int.eq_ofNat_of_zero_le hoff0
    have hpn' : pn < 2 ^ (16 - ob) := by exact_mod_cast hpn
    have hoff' : off < 2 ^ ob := by exact_mod_cast hofflt
    refine ⟨pn * 2 ^ ob + off, ?_, ?_, ?_⟩
    · have : pn * 2 ^ ob + off < 2 ^ (16 - ob) * 2 ^ ob := by
        calc pn * 2 ^ ob + off < pn * 2 ^ ob + 2 ^ ob := by omega
          _ = (pn + 1) * 2 ^ ob := by ring
          _ ≤ 2 ^ (16 - ob) * 2 ^ ob := Nat.mul_le_mul_right _ hpn'
      omega
    · rw [hpg]
      have hdiv : (pn * 2 ^ ob + off) / 2 ^ ob = pn := by
        rw [Nat.mul_comm, Nat.mul_add_div hpos, Nat.div_eq_of_lt hoff', Nat.add_zero]
      rw [hdiv, Nat.mod_eq_of_lt hpn']
    · rw [hoff]
      have hmod : (pn * 2 ^ ob + off) % 2 ^ ob = off := by
        rw [Nat.mul_comm, Nat.mul_add_mod, Nat.mod_eq_of_lt hoff']
      rw [hmod]

/-- Witness of claim C17: frames of 256 bytes and the address 513. -/
theorem address_split_bijection_witness :
    (0 : Int) ≤ 8 ∧ (8 : Int) ≤ 16 ∧
    0 ≤ offsetOf (initializeSystem [] 8 2) 513 ∧
    offsetOf (initializeSystem [] 8 2) 513 < (initializeSystem [] 8 2).frame_size ∧
    0 ≤ pageOf (initializeSystem [] 8 2) 513 ∧
    pageOf (initializeSystem [] 8 2) 513 < (initializeSystem [] 8 2).page_table_size ∧
    Int.lor (pageOf (initializeSystem [] 8 2) 513 <<< (initializeSystem [] 8 2).offset_bits)
        (offsetOf (initializeSystem [] 8 2) 513) =
      pageOf (initializeSystem [] 8 2) 513 * (initializeSystem [] 8 2).frame_size +
        offsetOf (initializeSystem [] 8 2) 513 ∧
    pageOf (initializeSystem [] 8 2) 513 * (initializeSystem [] 8 2).frame_size +
        offsetOf (initializeSystem [] 8 2) 513 = ((513 : Nat) : Int) :=
  ⟨by decide, by decide,
   (address_split_bijection [] 8 2 (by decide) (by decide)).1 513 (by decide)⟩

/-- Claim C18.  In every state reachable from `initializeSystem`
(`total_frames ≥ 1`): every valid TLB entry `(p, f)` has `page_table[p]` valid
with frame number `f`; whenever `checkTLB` finds a frame for a page,
`checkPageTable` finds the same frame; and `translateAddress` on a 16-bit address
returns, incrementing `page_faults` (by one) if and only if the page of the
address is not valid in the page table before the call. -/
theorem tlb_page_table_coherent (B : List UInt8) (fb tf : Int)
    (h0 : 0 ≤ fb) (h16 : fb ≤ 16) (htf : 1 ≤ tf) (hB : 65536 ≤ B.length)
    (s : MMUState) (hr : Reachable B fb tf s) :
    (∀ (i : Nat) (e : TLBEntry), s.tlb[i]? = some e → e.valid = true →
      0 ≤ e.page_number ∧
      s.page_table[e.page_number.toNat]? =
        some { frame_number := e.frame_number, valid := true }) ∧
    (∀ (p f : Int), checkTLB s p = some f → checkPageTable s p = some (some f)) ∧
    (∀ a : Nat, a < 65536 →
      ∃ (s' : MMUState) (pa : Int) (b : UInt8), translateAddress s a = some (s', pa, b) ∧
        (s'.page_faults = s.page_faults ∨ s'.page_faults = s.page_faults + 1) ∧
        (s'.page_faults = s.page_faults + 1 ↔
          checkPageTable s (pageOf s a) = some none)) := by
  obtain ⟨hinv, _⟩ := hr.inv h0 h16 htf hB
  have hserve : ∀ (p f : Int), checkTLB s p = some f →
      checkPageTable s p = some (some f) := by
    intro p f hc
    obtain ⟨j, e, hj, hv, hp, hf⟩ := checkTLB_eq_some hc
    obtain ⟨c1, c2, _⟩ := hinv.tlb_coh j e hj hv
    rw [hp] at c1 c2
    unfold checkPageTable
    rw [arrGet_of_nonneg _ c1, c2, hf]
    rfl
  refine ⟨?_, hserve, ?_⟩
  · intro i e hi hv
    obtain ⟨c1, c2, _⟩ := hinv.tlb_coh i e hi hv
    exact ⟨c1, c2⟩
  · intro a ha
    obtain ⟨s', pa, b, ht, _, _, hcase⟩ := translateAddress_counters_step hinv a ha
    refine ⟨s', pa, b, ht, ?_, ?_⟩
    · rcases hcase with ⟨f, _, _, h2⟩ | ⟨f, _, _, _, h2⟩ | ⟨_, _, _, h2⟩
      · exact Or.inl h2
      · exact Or.inl h2
      · exact Or.inr h2
    · rcases hcase with ⟨f, hc, _, h2⟩ | ⟨f, _, hpt, _, h2⟩ | ⟨_, hpt, _, h2⟩
      · constructor
        · intro h
          omega
        · intro h
          rw [hserve _ f hc] at h
          cases h
      · constructor
        · intro h
          omega
        · intro h
          rw [hpt] at h
          cases h
      · exact ⟨fun _ => hpt, fun _ => h2⟩

set_option maxRecDepth 100000 in
/-- Witness of claim C18: the example state, whose TLB holds page 2 in frame 0. -/
theorem tlb_page_table_coherent_witness :
    checkTLB exampleState 2 = some 0 ∧
    (∀ (i : Nat) (e : TLBEntry), exampleState.tlb[i]? = some e → e.valid = true →
      0 ≤ e.page_number ∧
      exampleState.page_table[e.page_number.toNat]? =
        some { frame_number := e.frame_number, valid := true }) ∧
    (∀ (p f : Int), checkTLB exampleState p = some f →
      checkPageTable exampleState p = some (some f)) ∧
    (∀ a : Nat, a < 65536 →
      ∃ (s' : MMUState) (pa : Int) (b : UInt8),
        translateAddress exampleState a = some (s', pa, b) ∧
        (s'.page_faults = exampleState.page_faults ∨
          s'.page_faults = exampleState.page_faults + 1) ∧
        (s'.page_faults = exampleState.page_faults + 1 ↔
          checkPageTable exampleState (pageOf exampleState a) = some none)) :=
  ⟨by decide,
   tlb_page_table_coherent exampleStore 8 2 (by decide) (by decide) (by decide)
    exampleStore_length exampleState exampleState_reachable⟩

/-- Claim C19.  In a state reachable from `initializeSystem` (`total_frames ≥ 1`),
`page_counter` equals `page_faults`, the number `k` of page faults so far.  When
the page of a 16-bit address `a` is not valid in the page table,
`translateAddress(a)` is the next page fault (`page_faults` becomes `k + 1`), and
the frame `loadPage` returns, into which the page is loaded, is
`k mod total_frames`, whatever addresses were translated before. -/
theorem fault_uses_frames_round_robin (B : List UInt8) (fb tf : Int)
    (h0 : 0 ≤ fb) (h16 : fb ≤ 16) (htf : 1 ≤ tf) (hB : 65536 ≤ B.length)
    (s : MMUState) (hr : Reachable B fb tf s) (a : Nat) (ha : a < 65536)
    (hfault : checkPageTable s (pageOf s a) = some none) :
    s.page_counter = s.page_faults ∧ 0 ≤ s.page_faults ∧
    ∃ (s2 : MMUState) (f : Int) (b : UInt8),
      loadPage { s with total_addresses := s.total_addresses + 1,
                        page_faults := s.page_faults + 1 } (pageOf s a) = some (s2, f) ∧
      f = s.page_faults % s.total_frames ∧
      translateAddress s a =
        some (updateTLB s2 (pageOf s a) f,
          Int.lor (f <<< s.offset_bits) (offsetOf s a), b) ∧
      (updateTLB s2 (pageOf s a) f).page_faults = s.page_faults + 1 ∧
      (updateTLB s2 (pageOf s a) f).page_counter = s.page_counter + 1 ∧
      checkPageTable (updateTLB s2 (pageOf s a) f) (pageOf s a) = some (some f) ∧
      ∃ fr : Frame, (updateTLB s2 (pageOf s a) f).physical_memory[f.toNat]? = some fr ∧
        fr.page_number = pageOf s a := by
  obtain ⟨hinv, _⟩ := hr.inv h0 h16 htf hB
  obtain ⟨_, hpf0, _, _, hpc⟩ := hr.counters h0 h16 htf hB
  obtain ⟨pn, hpn, hlt, hll⟩ := hinv.page_lt a
  -- the page-table entry of the page is not valid
  obtain ⟨e, he, hev⟩ : ∃ e, s.page_table[pn]? = some e ∧ e.valid = false := by
    rw [hpn] at hfault
    unfold checkPageTable at hfault
    rw [arrGet_natCast] at hfault
    cases hpe : s.page_table[pn]? with
    | none => rw [hpe] at hfault; cases hfault
    | some e =>
      rw [hpe] at hfault
      refine ⟨e, rfl, ?_⟩
      cases hv : e.valid with
      | false => rfl
      | true => simp [hv] at hfault
  -- so the TLB does not hold the page
  have hc : checkTLB s (pageOf s a) = none := by
    cases hc : checkTLB s (pageOf s a) with
    | none => rfl
    | some f =>
      obtain ⟨j, te, hj, hv, hp, _⟩ := checkTLB_eq_some hc
      obtain ⟨_, c2, _⟩ := hinv.tlb_coh j te hj hv
      rw [hp, hpn, Int.toNat_ofNat, he] at c2
      injection c2 with c2
      rw [c2] at hev
      cases hev
  have he' : s.page_table[(pageOf s a).toNat]? = some e := by
    rw [hpn, Int.toNat_ofNat]
    exact he
  obtain ⟨b, s2, f, _, hload, hinv2, hpt2, htr⟩ := translateAddress_fault hinv a ha hc e he' hev
  have hinv1 : Inv { s with total_addresses := s.total_addresses + 1,
                            page_faults := s.page_faults + 1 } :=
    hinv.setCounters s.tlb_hits (s.page_faults + 1) (s.total_addresses + 1)
  -- the frame returned by `loadPage`
  have hf : f = s.page_faults % s.total_frames := by
    rw [← hpc]
    have hload' := hload
    rw [hpn] at hload'
    obtain ⟨t2, g, hl, _, _, _, hcase⟩ := loadPage_spec hinv1 pn hlt e he hev
    rw [hl] at hload'
    injection hload' with hload'
    injection hload' with hs2 hg
    subst hg
    rcases hcase with ⟨hnf, _, hg⟩ | ⟨hnf, q, fr, hfr, _, _, hg⟩
    · have hnf' : s.next_frame < s.total_frames := hnf
      have hnfe := hinv.nf_eq
      have hpc0 := hinv.pc_nonneg
      have hg' : g = s.next_frame := hg
      have hlt' : s.page_counter < s.total_frames := by omega
      rw [Int.emod_eq_of_lt hpc0 hlt', hg']
      omega
    · obtain ⟨_, hv, _⟩ := victim_facts hinv1 hnf fr hfr
      rw [hg]
      exact hv
  have hcnt2 : s2.page_faults = s.page_faults + 1 ∧ s2.page_counter = s.page_counter + 1 := by
    have hload' := hload
    rw [hpn] at hload'
    obtain ⟨t2, g, hl, _, _, hsame, hcase⟩ := loadPage_spec hinv1 pn hlt e he hev
    rw [hl] at hload'
    injection hload' with hload'
    injection hload' with hs2 hg
    subst hs2
    rcases hcase with ⟨_, ht2, _⟩ | ⟨_, q, fr, _, _, ht2, _⟩
    · rw [ht2]
      exact ⟨rfl, rfl⟩
    · rw [ht2]
      exact ⟨rfl, rfl⟩
  refine ⟨hpc, hpf0, s2, f, b, hload, hf, htr, ?_, ?_, ?_, ?_⟩
  · rw [updateTLB_page_faults]
    exact hcnt2.1
  · rw [updateTLB_page_counter]
    exact hcnt2.2
  · unfold checkPageTable
    rw [updateTLB_page_table, hpn, arrGet_natCast]
    rw [hpn, Int.toNat_ofNat] at hpt2
    rw [hpt2]
    rfl
  · rw [updateTLB_physical_memory]
    rw [hpn, Int.toNat_ofNat] at hpt2
    obtain ⟨_, _, fr, hfr, hfp⟩ := hinv2.pt_valid pn _ hpt2 rfl
    exact ⟨fr, hfr, by rw [hfp, hpn]⟩

set_option maxRecDepth 100000 in
/-- Witness of claim C19: the example state has served three page faults with two
frames, and page 3 (address 768) is not valid in its page table. -/
theorem fault_uses_frames_round_robin_witness :
    exampleState.page_faults = 3 ∧ exampleState.total_frames = 2 ∧
    checkPageTable exampleState (pageOf exampleState 768) = some none ∧
    exampleState.page_counter = exampleState.page_faults ∧ 0 ≤ exampleState.page_faults ∧
    ∃ (s2 : MMUState) (f : Int) (b : UInt8),
      loadPage { exampleState with total_addresses := exampleState.total_addresses + 1,
                                   page_faults := exampleState.page_faults + 1 }
        (pageOf exampleState 768) = some (s2, f) ∧
      f = exampleState.page_faults % exampleState.total_frames ∧
      translateAddress exampleState 768 =
        some (updateTLB s2 (pageOf exampleState 768) f,
          Int.lor (f <<< exampleState.offset_bits) (offsetOf exampleState 768), b) ∧
      (updateTLB s2 (pageOf exampleState 768) f).page_faults = exampleState.page_faults + 1 ∧
      (updateTLB s2 (pageOf exampleState 768) f).page_counter =
        exampleState.page_counter + 1 ∧
      checkPageTable (updateTLB s2 (pageOf exampleState 768) f) (pageOf exampleState 768) =
        some (some f) ∧
      ∃ fr : Frame,
        (updateTLB s2 (pageOf exampleState 768) f).physical_memory[f.toNat]? = some fr ∧
        fr.page_number = pageOf exampleState 768 :=
  ⟨by decide, by decide, by decide,
   fault_uses_frames_round_robin exampleStore 8 2 (by decide) (by decide) (by decide)
    exampleStore_length exampleState exampleState_reachable 768 (by decide) (by decide)⟩

/-- Claim C20.  In every state reachable from `initializeSystem`
(`total_frames ≥ 1`): `page_table[p]` is valid with frame `f` if and only if
`0 ≤ f < next_frame` and `physical_memory[f].page_number == p`; the frames of
index `≥ next_frame` have `page_number == -1` and `time == -1`; and the number of
valid page-table entries equals `next_frame`, which is
`min(page_faults, total_frames)`. -/
theorem frame_ownership_consistent (B : List UInt8) (fb tf : Int)
    (h0 : 0 ≤ fb) (h16 : fb ≤ 16) (htf : 1 ≤ tf) (hB : 65536 ≤ B.length)
    (s : MMUState) (hr : Reachable B fb tf s) :
    (∀ (p : Nat) (f : Int),
      (∃ e : PageTableEntry, s.page_table[p]? = some e ∧ e.valid = true ∧
        e.frame_number = f) ↔
      (0 ≤ f ∧ f < s.next_frame ∧
        ∃ fr : Frame, s.physical_memory[f.toNat]? = some fr ∧ fr.page_number = (p : Int))) ∧
    (∀ (f : Nat) (fr : Frame), s.physical_memory[f]? = some fr → s.next_frame ≤ (f : Int) →
      fr.page_number = -1 ∧ fr.time = -1) ∧
    ((s.page_table.countP (fun e => e.valid) : Nat) : Int) = s.next_frame ∧
    s.next_frame = min s.page_faults s.total_frames := by
  obtain ⟨hinv, _⟩ := hr.inv h0 h16 htf hB
  obtain ⟨_, _, _, _, hpc⟩ := hr.counters h0 h16 htf hB
  refine ⟨?_, hinv.frame_free, hr.validCount h0 h16 htf hB, ?_⟩
  · intro p f
    constructor
    · rintro ⟨e, he, hv, hf⟩
      obtain ⟨c1, c2, fr, c3, c4⟩ := hinv.pt_valid p e he hv
      rw [hf] at c1 c2 c3
      exact ⟨c1, c2, fr, c3, c4⟩
    · rintro ⟨hf0, hflt, fr, hfr, hp⟩
      obtain ⟨_, a2, _⟩ := hinv.frame_loaded f.toNat fr hfr
        (by rw [Int.toNat_of_nonneg hf0]; exact hflt)
      rw [hp, Int.toNat_ofNat, Int.toNat_of_nonneg hf0] at a2
      exact ⟨_, a2, rfl, rfl⟩
  · rw [← hpc]
    exact hinv.nf_eq

set_option maxRecDepth 100000 in
/-- Witness of claim C20: the example state, with two frames in use after three
page faults. -/
theorem frame_ownership_consistent_witness :
    exampleState.next_frame = 2 ∧ exampleState.page_faults = 3 ∧
    (∀ (p : Nat) (f : Int),
      (∃ e : PageTableEntry, exampleState.page_table[p]? = some e ∧ e.valid = true ∧
        e.frame_number = f) ↔
      (0 ≤ f ∧ f < exampleState.next_frame ∧
        ∃ fr : Frame, exampleState.physical_memory[f.toNat]? = some fr ∧
          fr.page_number = (p : Int))) ∧
    (∀ (f : Nat) (fr : Frame), exampleState.physical_memory[f]? = some fr →
      exampleState.next_frame ≤ (f : Int) → fr.page_number = -1 ∧ fr.time = -1) ∧
    ((exampleState.page_table.countP (fun e => e.valid) : Nat) : Int) =
      exampleState.next_frame ∧
    exampleState.next_frame = min exampleState.page_faults exampleState.total_frames :=
  ⟨by decide, by decide,
   frame_ownership_consistent exampleStore 8 2 (by decide) (by decide) (by decide)
    exampleStore_length exampleState exampleState_reachable⟩

end MMU
